import Mathlib

/-!
Verification of the topology repository's core engine (`src/core.h`, `src/core.cc`):
a directed multigraph model on top of an adjacency-list representation, a BFS-based
diameter algorithm, specialized topology generators (URing, BRing, UMesh, BMesh, OPG),
multidimensional composite builders (BGrid, BTorus) built by folding the Cartesian
product operator `gproduct`, and the vertex-pair encoding used by `gproduct`.

The embedding mirrors the C++ source: vertex descriptors are positions (`Nat`) in the
vertex container (boost `vecS`), every vertex carries a caller-assigned `int32_t` id
(modelled as `Int`), adjacency is a per-vertex list of out-neighbor descriptors in
insertion order, and the graph carries a display-name string.
-/

namespace Topology

/-- Shallow embedding of `topology::Graph` (a boost `adjacency_list` with vertex ids
and a graph-level name).  `ids` lists the caller-assigned vertex ids in vertex-descriptor
order; `adj` lists, for each vertex descriptor, its out-neighbor descriptors in edge
insertion order. -/
structure Graph where
  name : String
  ids : List Int
  adj : List (List Nat)
deriving Repr, DecidableEq

/-- `Graph::Graph()`: the default-constructed empty graph named "Generic". -/
def Graph.mk0 : Graph := ⟨"Generic", [], []⟩

/-- `g.num_vertices` view: `boost::num_vertices`. -/
def Graph.numVertices (g : Graph) : Nat := g.ids.length

/-- `g.num_edges` view: `boost::num_edges` (total number of stored out-edges). -/
def Graph.numEdges (g : Graph) : Nat := (g.adj.map List.length).sum

/-- The vertex-descriptor lookup loop of `Graph::add_edge`: scan all vertices in order
and remember the last descriptor whose id matches (the C++ loop overwrites on every
match). -/
def findVertex (ids : List Int) (x : Int) : Option Nat :=
  (List.range ids.length).foldl (fun acc v => if ids.getD v 0 = x then some v else acc) none

/-- `Graph::add_vertex(id)`: append a fresh vertex carrying `id`. -/
def Graph.add_vertex (g : Graph) (id : Int) : Graph :=
  { g with ids := g.ids ++ [id], adj := g.adj ++ [[]] }

/-- `Graph::add_edge(i, j)`: look both ids up; if both are found append a directed
edge, otherwise do nothing. -/
def Graph.add_edge (g : Graph) (i j : Int) : Graph :=
  match findVertex g.ids i, findVertex g.ids j with
  | some vi, some vj => { g with adj := g.adj.set vi (g.adj.getD vi [] ++ [vj]) }
  | _, _ => g

/-- `g.vertices` view: ids in vertex-descriptor order. -/
def Graph.verticesView (g : Graph) : List Int := g.ids

/-- `g.edges` view: `boost::edges` enumerates vertices in order and each vertex's
out-edges in insertion order, reporting `(source id, target id)` pairs. -/
def Graph.edgesView (g : Graph) : List (Int × Int) :=
  (List.range g.adj.length).flatMap
    (fun v => (g.adj.getD v []).map (fun w => (g.ids.getD v 0, g.ids.getD w 0)))

/-- The BFS while-loop of `Graph::getDiameter_impl`: pop the queue head `v`, and for
each out-edge target `w` still at distance `-1`, set `dist[w] := dist[v] + 1` and push
`w` at the back.  `fuel` bounds the number of pops; `numVertices` pops always suffice
(each vertex is enqueued at most once), see `bfsLoop_fuel_sufficient`. -/
def bfsLoop (adj : List (List Nat)) : Nat → List Int → List Nat → List Int
  | 0, d, _ => d
  | _ + 1, d, [] => d
  | fuel + 1, d, v :: q =>
      let p := (adj.getD v []).foldl
        (fun (p : List Int × List Nat) w =>
          if p.1.getD w 0 = -1 then (p.1.set w (p.1.getD v 0 + 1), p.2 ++ [w]) else p)
        (d, q)
      bfsLoop adj fuel p.1 p.2

/-- One BFS of `Graph::getDiameter_impl` from source descriptor `s`: distances start
at `-1` everywhere except `dist[s] = 0`, the queue starts as `[s]`. -/
def bfsFrom (g : Graph) (s : Nat) : List Int :=
  bfsLoop g.adj g.numVertices ((List.replicate g.numVertices (-1)).set s 0) [s]

/-- The per-source scan of `getDiameter_impl`: walk the distance array, returning
`none` as soon as a `-1` (unreached vertex) is seen — the C++ code returns `-1` from
the whole function there — and otherwise the running maximum. -/
def maxScan : List Int → Int → Option Int
  | [], m => some m
  | dv :: rest, m => if dv = -1 then none else maxScan rest (max m dv)

/-- The source loop of `getDiameter_impl`: BFS from each source in turn, threading the
running maximum through `maxScan`; `none` models the early `return -1`. -/
def diamScan (g : Graph) : List Nat → Int → Option Int
  | [], m => some m
  | s :: rest, m =>
      match maxScan (bfsFrom g s) m with
      | none => none
      | some m2 => diamScan g rest m2

/-- `Graph::getDiameter_impl`: `-1` for the empty graph, `0` for a single vertex,
otherwise BFS from every vertex, accumulating the maximum distance and returning `-1`
if any BFS leaves a vertex unreached. -/
def getDiameter_impl (g : Graph) : Int :=
  if g.numVertices = 0 then -1
  else if g.numVertices = 1 then 0
  else
    match diamScan g (List.range g.numVertices) 0 with
    | none => -1
    | some m => m

/-- The vertex-population loop shared by all sized generators: add vertices with ids
`0, 1, …, N-1`. -/
def addVertexLoop (g : Graph) (N : Nat) : Graph :=
  (List.range N).foldl (fun g i => g.add_vertex (Int.ofNat i)) g

/-- Fold `Graph::add_edge` over an explicit list of id pairs (the edge-creation loops
of the generators, spelled as the list of requested edges in loop order). -/
def addEdges (g : Graph) (L : List (Int × Int)) : Graph :=
  L.foldl (fun g e => g.add_edge e.1 e.2) g

/-- Edge requests of the `URing` constructor loop: `i → (i+1) mod N` for `i < N`. -/
def uringEdges (N : Nat) : List (Int × Int) :=
  (List.range N).map (fun i => (Int.ofNat i, Int.ofNat ((i + 1) % N)))

/-- Edge requests of the `BRing` constructor loop: both directions of each ring edge,
in the order the loop issues them. -/
def bringEdges (N : Nat) : List (Int × Int) :=
  (List.range N).flatMap
    (fun i => [(Int.ofNat i, Int.ofNat ((i + 1) % N)), (Int.ofNat ((i + 1) % N), Int.ofNat i)])

/-- Edge requests of the `UMesh` constructor loop: `i → i+1` for `i < N-1`. -/
def umeshEdges (N : Nat) : List (Int × Int) :=
  (List.range (N - 1)).map (fun i => (Int.ofNat i, Int.ofNat (i + 1)))

/-- Edge requests of the `BMesh` constructor loop: both directions of each chain edge. -/
def bmeshEdges (N : Nat) : List (Int × Int) :=
  (List.range (N - 1)).flatMap
    (fun i => [(Int.ofNat i, Int.ofNat (i + 1)), (Int.ofNat (i + 1), Int.ofNat i)])

/-- Graph part of `URing::URing(N)` (after the `N = 0` check): name, dense vertices,
ring edges when `N > 1`. -/
def buildURing (N : Nat) : Graph :=
  let g := addVertexLoop { Graph.mk0 with name := "URing" } N
  if 1 < N then addEdges g (uringEdges N) else g

/-- Graph part of `BRing::BRing(N)`. -/
def buildBRing (N : Nat) : Graph :=
  let g := addVertexLoop { Graph.mk0 with name := "BRing" } N
  if 1 < N then addEdges g (bringEdges N) else g

/-- Graph part of `UMesh::UMesh(N)`. -/
def buildUMesh (N : Nat) : Graph :=
  let g := addVertexLoop { Graph.mk0 with name := "UMesh" } N
  if 1 < N then addEdges g (umeshEdges N) else g

/-- Graph part of `BMesh::BMesh(N)`. -/
def buildBMesh (N : Nat) : Graph :=
  let g := addVertexLoop { Graph.mk0 with name := "BMesh" } N
  if 1 < N then addEdges g (bmeshEdges N) else g

/-- Graph part of `OPG::OPG()`: a single vertex with id 0. -/
def buildOPG : Graph :=
  Graph.add_vertex { Graph.mk0 with name := "OPG" } 0

namespace gproduct_utils

/-- `static_cast<int32_t>` applied to a `size_t` value: reduce modulo `2^32` into
`[-2^31, 2^31)` (two's-complement wrap). -/
def toInt32 (n : Nat) : Int :=
  if n % 2 ^ 32 < 2 ^ 31 then Int.ofNat (n % 2 ^ 32)
  else Int.ofNat (n % 2 ^ 32) - 2 ^ 32

/-- `gproduct_utils::encode_vertex_pair` with the size cast left unbounded; this
agrees with the source whenever `g2_size < 2^31` (see `encode_vertex_pair32` for the
faithful cast model). -/
def encode_vertex_pair (g1_id g2_id : Int) (g2_size : Nat) : Int :=
  g1_id * Int.ofNat g2_size + g2_id

/-- `gproduct_utils::decode_vertex_pair` with the size cast left unbounded, agreeing
with the source whenever `g2_size < 2^31` (C++ `/` and `%` on `int32_t` truncate
toward zero, i.e. `Int.tdiv` / `Int.tmod`); see `decode_vertex_pair32` for the
faithful cast model. -/
def decode_vertex_pair (product_id : Int) (g2_size : Nat) : Int × Int :=
  (Int.tdiv product_id (Int.ofNat g2_size), Int.tmod product_id (Int.ofNat g2_size))

/-- `gproduct_utils::encode_vertex_pair` with `static_cast<int32_t>(g2_size)` modeled
faithfully. -/
def encode_vertex_pair32 (g1_id g2_id : Int) (g2_size : Nat) : Int :=
  g1_id * toInt32 g2_size + g2_id

/-- `gproduct_utils::decode_vertex_pair` with `static_cast<int32_t>(g2_size)` modeled
faithfully (C++ `/` and `%` on `int32_t` truncate toward zero). -/
def decode_vertex_pair32 (product_id : Int) (g2_size : Nat) : Int × Int :=
  (Int.tdiv product_id (toInt32 g2_size), Int.tmod product_id (toInt32 g2_size))

end gproduct_utils

/-- `topology::gproduct(g1, g2)`: all encoded vertex pairs in row-major loop order,
then the G1-dimension edges, then the G2-dimension edges. -/
def gproduct (g1 g2 : Graph) : Graph :=
  let n2 := g2.numVertices
  let r0 : Graph := { name := g1.name ++ " ⊗ " ++ g2.name, ids := [], adj := [] }
  let r1 := g1.ids.foldl
    (fun r a => g2.ids.foldl
      (fun r b => r.add_vertex (gproduct_utils.encode_vertex_pair a b n2)) r) r0
  let r2 := g1.edgesView.foldl
    (fun r e => g2.ids.foldl
      (fun r b => r.add_edge (gproduct_utils.encode_vertex_pair e.1 b n2)
        (gproduct_utils.encode_vertex_pair e.2 b n2)) r) r1
  g2.edgesView.foldl
    (fun r e => g1.ids.foldl
      (fun r a => r.add_edge (gproduct_utils.encode_vertex_pair a e.1 n2)
        (gproduct_utils.encode_vertex_pair a e.2 n2)) r) r2

/-- The vertex/edge copy loops used by `BGrid`/`BTorus` construction: re-add every
vertex id in order, then re-request every edge of the `edges` view in order. -/
def copyInto (dst src : Graph) : Graph :=
  addEdges (src.ids.foldl (fun d id => d.add_vertex id) dst) src.edgesView

/-- The dimension canonicalization shared by `BGrid`/`BTorus`: drop entries `≤ 1`,
sort descending (`std::sort` with `greater`; on `Nat` values any sort produces the
same descending list), and fall back to `[1]` when nothing remains. -/
def canonicalDims (dims : List Nat) : List Nat :=
  let s := List.insertionSort (fun a b => b ≤ a) (dims.filter (fun d => 1 < d))
  if s = [] then [1] else s

/-- The display name built by the `BGrid` constructor for the multi-dimensional case. -/
def gridName (ds : List Nat) : String :=
  "BGrid[" ++ String.intercalate "," (ds.map (fun d => toString d)) ++ "]"

/-- The display name built by the `BTorus` constructor for the multi-dimensional case. -/
def torusName (ds : List Nat) : String :=
  "BTorus[" ++ String.intercalate "," (ds.map (fun d => toString d)) ++ "]"

/-- `BGrid::buildGrid`'s recursive helper `build_product` for meshes: at index 0 copy
`BMesh(ds[0])` into a fresh graph; at index `k+1` form the `gproduct` of the previous
result with `BMesh(ds[k+1])` and copy it into a fresh graph. -/
def buildProductMesh (ds : List Nat) : Nat → Graph
  | 0 => copyInto Graph.mk0 (buildBMesh (ds.getD 0 1))
  | k + 1 => copyInto Graph.mk0 (gproduct (buildProductMesh ds k) (buildBMesh (ds.getD (k + 1) 1)))

/-- `BTorus::buildTorus`'s recursive helper for rings. -/
def buildProductRing (ds : List Nat) : Nat → Graph
  | 0 => copyInto Graph.mk0 (buildBRing (ds.getD 0 1))
  | k + 1 => copyInto Graph.mk0 (gproduct (buildProductRing ds k) (buildBRing (ds.getD (k + 1) 1)))

/-- Graph part of `BGrid::BGrid(dims)` (after the positivity check): canonicalize,
then either copy an `OPG` (vertices only), copy a single `BMesh`, or fold `gproduct`
over bidirectional meshes; finally stamp the `BGrid[...]` name. -/
def buildBGrid (dims : List Nat) : Graph :=
  let ds := canonicalDims dims
  if ds = [] ∨ (ds.length = 1 ∧ ds.getD 0 0 = 1) then
    { buildOPG.ids.foldl (fun d id => d.add_vertex id) Graph.mk0 with name := "BGrid[]" }
  else if ds.length = 1 then
    { copyInto Graph.mk0 (buildBMesh (ds.getD 0 1)) with
      name := "BGrid[" ++ toString (ds.getD 0 1) ++ "]" }
  else
    { copyInto Graph.mk0 (buildProductMesh ds (ds.length - 1)) with name := gridName ds }

/-- Graph part of `BTorus::BTorus(dims)`. -/
def buildBTorus (dims : List Nat) : Graph :=
  let ds := canonicalDims dims
  if ds = [] ∨ (ds.length = 1 ∧ ds.getD 0 0 = 1) then
    { buildOPG.ids.foldl (fun d id => d.add_vertex id) Graph.mk0 with name := "BTorus[]" }
  else if ds.length = 1 then
    { copyInto Graph.mk0 (buildBRing (ds.getD 0 1)) with
      name := "BTorus[" ++ toString (ds.getD 0 1) ++ "]" }
  else
    { copyInto Graph.mk0 (buildProductRing ds (ds.length - 1)) with name := torusName ds }

/-- `BGrid::calculateGridEdges`: iterate the Cartesian-product edge-count formula over
the dimension list, seeding with the `BMesh` counts. -/
def calculateGridEdges (dims : List Nat) : Nat :=
  if dims = [] then 0
  else if dims.length = 1 then 2 * (dims.getD 0 0 - 1)
  else
    ((dims.drop 1).foldl
      (fun (p : Nat × Nat) d => (p.1 * d, p.1 * (2 * (d - 1)) + p.2 * d))
      (dims.getD 0 0, 2 * (dims.getD 0 0 - 1))).2

/-- `BTorus::calculateTorusEdges`: same iteration seeded with the `BRing` counts. -/
def calculateTorusEdges (dims : List Nat) : Nat :=
  if dims = [] then 0
  else if dims.length = 1 then 2 * dims.getD 0 0
  else
    ((dims.drop 1).foldl
      (fun (p : Nat × Nat) d => (p.1 * d, p.1 * (2 * d) + p.2 * d))
      (dims.getD 0 0, 2 * dims.getD 0 0)).2

/-- The seven specialized-topology constructions, identified by their constructor
arguments. -/
inductive TopoSpec where
  | uring (n : Nat)
  | bring (n : Nat)
  | umesh (n : Nat)
  | bmesh (n : Nat)
  | opg
  | bgrid (dims : List Nat)
  | btorus (dims : List Nat)
deriving Repr, DecidableEq

/-- The constructor argument validation each generator performs before building. -/
def TopoSpec.validB : TopoSpec → Bool
  | .uring n => decide (0 < n)
  | .bring n => decide (0 < n)
  | .umesh n => decide (0 < n)
  | .bmesh n => decide (0 < n)
  | .opg => true
  | .bgrid ds => ds.all (fun d => decide (0 < d))
  | .btorus ds => ds.all (fun d => decide (0 < d))

/-- Validity as a proposition. -/
def TopoSpec.valid (t : TopoSpec) : Prop := t.validB = true

instance (t : TopoSpec) : Decidable t.valid := by
  unfold TopoSpec.valid; infer_instance

/-- The graph a generator materializes (the post-validation constructor body). -/
def TopoSpec.build : TopoSpec → Graph
  | .uring n => buildURing n
  | .bring n => buildBRing n
  | .umesh n => buildUMesh n
  | .bmesh n => buildBMesh n
  | .opg => buildOPG
  | .bgrid ds => buildBGrid ds
  | .btorus ds => buildBTorus ds

/-- The error condition thrown by the constructors (`std::invalid_argument`). -/
inductive TopoError where
  | invalidArgument
deriving Repr, DecidableEq

/-- A generator call: validate the arguments, then build. -/
def TopoSpec.make (t : TopoSpec) : Except TopoError Graph :=
  if t.validB then .ok t.build else .error .invalidArgument

/-- The closed-form `getDiameter` override of each specialized topology, computed from
the retained shape record exactly as the C++ overrides do. -/
def TopoSpec.closedDiameter : TopoSpec → Int
  | .uring n => if n = 0 then -1 else if n = 1 then 0 else Int.ofNat (n / 2)
  | .bring n => if n = 0 then -1 else if n = 1 then 0 else Int.ofNat (n / 2)
  | .umesh n => if n = 0 then -1 else if n = 1 then 0 else Int.ofNat (n - 1)
  | .bmesh n => if n = 0 then -1 else if n = 1 then 0 else Int.ofNat (n - 1)
  | .opg => 0
  | .bgrid dims =>
      let ds := canonicalDims dims
      if ds = [] then 0 else Int.ofNat ((ds.map (fun d => d - 1)).sum)
  | .btorus dims =>
      let ds := canonicalDims dims
      if ds = [] ∨ (ds.length = 1 ∧ ds.getD 0 0 = 1) then 0
      else if ds.length = 1 then Int.ofNat (ds.getD 0 0 / 2)
      else Int.ofNat ((ds.map (fun d => d / 2)).sum)

/-- A single structural mutation through a specialized topology's overridden
`add_vertex` / `add_edge`: the override rewrites the display name to "Generic" and
then performs the base-class mutation (the rewrite happens in all seven classes
identically). -/
inductive Mutation where
  | addV (id : Int)
  | addE (i j : Int)
deriving Repr, DecidableEq

/-- Apply a mutation through the specialized override. -/
def mutate (g : Graph) : Mutation → Graph
  | .addV id => Graph.add_vertex { g with name := "Generic" } id
  | .addE i j => Graph.add_edge { g with name := "Generic" } i j

/-- The vertex phase of `gproduct`: the row-major double loop adding all encoded
pairs to the fresh result graph. -/
def gproductVerts (g1 g2 : Graph) : Graph :=
  g1.ids.foldl
    (fun r a => g2.ids.foldl
      (fun r b => r.add_vertex (gproduct_utils.encode_vertex_pair a b g2.numVertices)) r)
    { name := g1.name ++ " ⊗ " ++ g2.name, ids := [], adj := [] }

/-- The edge requests of `gproduct`'s first edge loop (G1-dimension edges), in loop
order. -/
def gproductE1 (g1 g2 : Graph) : List (Int × Int) :=
  g1.edgesView.flatMap
    (fun e => g2.ids.map
      (fun b => (gproduct_utils.encode_vertex_pair e.1 b g2.numVertices,
        gproduct_utils.encode_vertex_pair e.2 b g2.numVertices)))

/-- The edge requests of `gproduct`'s second edge loop (G2-dimension edges), in loop
order. -/
def gproductE2 (g1 g2 : Graph) : List (Int × Int) :=
  g2.edgesView.flatMap
    (fun e => g1.ids.map
      (fun a => (gproduct_utils.encode_vertex_pair a e.1 g2.numVertices,
        gproduct_utils.encode_vertex_pair a e.2 g2.numVertices)))

/-- `hasPath adj s k v`: the directed graph given by the adjacency rows has a walk of
length exactly `k` from descriptor `s` to descriptor `v`. -/
def hasPath (adj : List (List Nat)) : Nat → Nat → Nat → Prop
  | s, 0, v => s = v
  | s, k + 1, v => ∃ w ∈ adj.getD s [], hasPath adj w k v

/-- `v` is reachable from `s`. -/
def reach (adj : List (List Nat)) (s v : Nat) : Prop := ∃ k, hasPath adj s k v

/-- `k` is the length of a shortest walk from `s` to `v`. -/
def isShortest (adj : List (List Nat)) (s v k : Nat) : Prop :=
  hasPath adj s k v ∧ ∀ j, hasPath adj s j v → k ≤ j

/-- Shortest-path distance between positions `v, w` on a bidirectional `N`-cycle. -/
def ringDist (N v w : Nat) : Nat := min ((w + N - v) % N) ((v + N - w) % N)

/-- Distance on an encoded product: first coordinate `x / n2`, second `x % n2`. -/
def prodDist (D1 D2 : Nat → Nat → Nat) (n2 : Nat) : Nat → Nat → Nat :=
  fun x y => D1 (x / n2) (y / n2) + D2 (x % n2) (y % n2)

/-- The shortest-path distance function of the left-associative mesh product over
`ds.take (k+1)` in terms of encoded indices. -/
def meshDistList (ds : List Nat) : Nat → Nat → Nat → Nat
  | 0 => fun v w => Nat.dist v w
  | k + 1 => prodDist (meshDistList ds k) Nat.dist (ds.getD (k + 1) 1)

/-- The shortest-path distance function of the left-associative ring product over
`ds.take (k+1)`. -/
def torusDistList (ds : List Nat) : Nat → Nat → Nat → Nat
  | 0 => ringDist (ds.getD 0 1)
  | k + 1 => prodDist (torusDistList ds k) (ringDist (ds.getD (k + 1) 1)) (ds.getD (k + 1) 1)

/-- Vertex/edge counts of the left-associative mesh product over `ds.take (k+1)`,
iterated with the Cartesian-product count formulas (the recursion underlying both
`BGrid::buildGrid` and `BGrid::calculateGridEdges`). -/
def gridCounts (ds : List Nat) : Nat → Nat × Nat
  | 0 => (ds.getD 0 1, 2 * (ds.getD 0 1 - 1))
  | k + 1 =>
      ((gridCounts ds k).1 * ds.getD (k + 1) 1,
        (gridCounts ds k).1 * (2 * (ds.getD (k + 1) 1 - 1)) + (gridCounts ds k).2 * ds.getD (k + 1) 1)

/-- Number of still-unvisited (`-1`) entries of a BFS distance array. -/
def unvisCount (d : List Int) : Nat := d.countP (fun z => decide (z = -1))

instance hasPath.decidable (adj : List (List Nat)) :
    ∀ (s : Nat) (k : Nat) (v : Nat), Decidable (hasPath adj s k v)
  | _, 0, _ => by unfold hasPath; infer_instance
  | s, k + 1, v => by
      unfold hasPath
      haveI : ∀ w, Decidable (hasPath adj w k v) := fun w => hasPath.decidable adj w k v
      infer_instance

/-- Running eccentricity of the left-associative mesh product: `Σ_{i ≤ k} (ds[i]-1)`. -/
def meshEccList (ds : List Nat) : Nat → Nat
  | 0 => ds.getD 0 1 - 1
  | k + 1 => meshEccList ds k + (ds.getD (k + 1) 1 - 1)

/-- Running eccentricity of the left-associative ring product: `Σ_{i ≤ k} ⌊ds[i]/2⌋`. -/
def torusEccList (ds : List Nat) : Nat → Nat
  | 0 => ds.getD 0 1 / 2
  | k + 1 => torusEccList ds k + ds.getD (k + 1) 1 / 2

/-- The encoded index of the per-factor farthest-from-0 vertex in the mesh product. -/
def meshArgList (ds : List Nat) : Nat → Nat
  | 0 => ds.getD 0 1 - 1
  | k + 1 => meshArgList ds k * ds.getD (k + 1) 1 + (ds.getD (k + 1) 1 - 1)

/-- The encoded index of the per-factor farthest-from-0 vertex in the ring product. -/
def torusArgList (ds : List Nat) : Nat → Nat
  | 0 => ds.getD 0 1 / 2
  | k + 1 => torusArgList ds k * ds.getD (k + 1) 1 + ds.getD (k + 1) 1 / 2

/-- The specialized instances whose closed-form diameter agrees with the generic BFS
algorithm on the materialized graph: all of them except unidirectional rings with
`N ≥ 3` (BFS distance around a one-way ring is `N-1`, not `⌊N/2⌋`) and unidirectional
chains with `N ≥ 2` (not strongly connected, BFS reports `-1`). -/
def TopoSpec.permitted : TopoSpec → Prop
  | .uring n => n ≤ 2
  | .umesh n => n ≤ 1
  | _ => True

/-! ### Basic structural lemmas -/

/-- Well-formedness every reachable C++ graph satisfies: one adjacency row per vertex,
all stored out-neighbor descriptors in range. -/
def Graph.WF (g : Graph) : Prop :=
  g.adj.length = g.ids.length ∧ ∀ l ∈ g.adj, ∀ w ∈ l, w < g.ids.length

/-- Generator graphs have dense identity ids `0, 1, …, n-1`. -/
def Graph.dense (g : Graph) : Prop :=
  g.ids = (List.range g.ids.length).map Int.ofNat

theorem sum_set_nat (l : List Nat) (i : Nat) (a : Nat) (h : i < l.length) :
    (l.set i a).sum + l[i] = l.sum + a := by
  induction l generalizing i with
  | nil => simp at h
  | cons x xs ih =>
    cases i with
    | zero => simp [List.set]; omega
    | succ n =>
      simp only [List.set, List.sum_cons, List.getElem_cons_succ]
      have := ih n (by simpa using h)
      omega

theorem findVertex_aux_mem (ids : List Int) (x : Int) (n : Nat) (acc : Option Nat) :
    ((List.range n).foldl (fun acc v => if ids.getD v 0 = x then some v else acc) acc
      = none) ↔ (acc = none ∧ ∀ v < n, ids.getD v 0 ≠ x) := by
  induction n generalizing acc with
  | zero => simp
  | succ n ih =>
    rw [List.range_succ, List.foldl_append]
    simp only [List.foldl_cons, List.foldl_nil]
    by_cases h : ids.getD n 0 = x
    · simp only [h, if_pos rfl]
      constructor
      · intro hc; exact absurd hc (by simp)
      · rintro ⟨-, hall⟩; exact absurd h (hall n (Nat.lt_succ_self n))
    · simp only [if_neg h]
      rw [ih]
      constructor
      · rintro ⟨ha, hall⟩
        refine ⟨ha, fun v hv => ?_⟩
        rcases Nat.lt_succ_iff_lt_or_eq.mp hv with hv' | hv'
        · exact hall v hv'
        · subst hv'; exact h
      · rintro ⟨ha, hall⟩
        exact ⟨ha, fun v hv => hall v (Nat.lt_succ_of_lt hv)⟩

theorem findVertex_aux_some (ids : List Int) (x : Int) (n : Nat) (acc : Option Nat)
    (v : Nat) :
    (List.range n).foldl (fun acc v => if ids.getD v 0 = x then some v else acc) acc
      = some v → (v < n ∧ ids.getD v 0 = x) ∨ acc = some v := by
  induction n generalizing acc with
  | zero => simp
  | succ n ih =>
    rw [List.range_succ, List.foldl_append]
    simp only [List.foldl_cons, List.foldl_nil]
    by_cases h : ids.getD n 0 = x
    · rw [if_pos h]
      intro hv
      injection hv with h'
      subst h'
      exact Or.inl ⟨Nat.lt_succ_self n, h⟩
    · rw [if_neg h]
      intro hv
      rcases ih _ hv with ⟨h1, h2⟩ | h3
      · exact Or.inl ⟨Nat.lt_succ_of_lt h1, h2⟩
      · exact Or.inr h3

theorem findVertex_eq_none_iff (ids : List Int) (x : Int) :
    findVertex ids x = none ↔ x ∉ ids := by
  unfold findVertex
  rw [findVertex_aux_mem]
  simp only [true_and]
  constructor
  · intro hall hmem
    rcases List.mem_iff_getElem?.mp hmem with ⟨v, hv⟩
    have hvlt : v < ids.length := by
      by_contra hge
      rw [List.getElem?_eq_none (Nat.le_of_not_lt hge)] at hv
      exact Option.noConfusion hv
    refine hall v hvlt ?_
    rw [List.getD_eq_getElem?_getD, hv]; rfl
  · intro hmem v hv hx
    refine hmem ?_
    rw [List.getD_eq_getElem ids 0 hv] at hx
    exact hx ▸ List.getElem_mem hv

theorem findVertex_some_spec (ids : List Int) (x : Int) (v : Nat)
    (h : findVertex ids x = some v) : v < ids.length ∧ ids.getD v 0 = x := by
  unfold findVertex at h
  rcases findVertex_aux_some ids x ids.length none v h with ⟨h1, h2⟩ | h3
  · exact ⟨h1, h2⟩
  · exact Option.noConfusion h3

theorem findVertex_isSome_of_mem (ids : List Int) (x : Int) (h : x ∈ ids) :
    ∃ v, findVertex ids x = some v := by
  cases hf : findVertex ids x with
  | none => exact absurd ((findVertex_eq_none_iff ids x).mp hf) (not_not_intro h)
  | some v => exact ⟨v, rfl⟩

theorem dense_getD {g : Graph} (hd : g.dense) {v : Nat} (hv : v < g.ids.length) :
    g.ids.getD v 0 = Int.ofNat v := by
  have h1 : g.ids[v]? = some (Int.ofNat v) := by
    conv_lhs => rw [hd]
    rw [List.getElem?_map, List.getElem?_range hv]
    rfl
  rw [List.getD_eq_getElem?_getD, h1]
  rfl

theorem findVertex_dense_aux {g : Graph} (hd : g.dense) (k : Nat)
    (n : Nat) (acc : Option Nat) (hn : n ≤ g.ids.length) :
    (List.range n).foldl
      (fun acc v => if g.ids.getD v 0 = Int.ofNat k then some v else acc) acc
      = if k < n then some k else acc := by
  induction n generalizing acc with
  | zero => simp
  | succ n ih =>
    rw [List.range_succ, List.foldl_append]
    simp only [List.foldl_cons, List.foldl_nil]
    have hgd : g.ids.getD n 0 = Int.ofNat n := dense_getD hd (Nat.lt_of_lt_of_le (Nat.lt_succ_self n) hn)
    rw [ih _ (Nat.le_of_succ_le hn)]
    by_cases hkn : k = n
    · subst hkn
      rw [if_pos hgd, if_pos (Nat.lt_succ_self k)]
    · have hcond : ¬ (g.ids.getD n 0 = Int.ofNat k) := by
        rw [hgd]; intro hc; exact hkn (Int.ofNat_inj.mp hc).symm
      rw [if_neg hcond]
      by_cases hlt : k < n
      · rw [if_pos hlt, if_pos (Nat.lt_succ_of_lt hlt)]
      · rw [if_neg hlt, if_neg (by omega)]

theorem findVertex_dense {g : Graph} (hd : g.dense) {k : Nat} (hk : k < g.ids.length) :
    findVertex g.ids (Int.ofNat k) = some k := by
  unfold findVertex
  rw [findVertex_dense_aux hd k g.ids.length none (le_refl _)]
  simp [hk]

/-! ### add_vertex / add_edge structural behavior -/

theorem add_vertex_name (g : Graph) (id : Int) : (g.add_vertex id).name = g.name := rfl

theorem add_vertex_ids (g : Graph) (id : Int) :
    (g.add_vertex id).ids = g.ids ++ [id] := rfl

theorem add_vertex_adj (g : Graph) (id : Int) :
    (g.add_vertex id).adj = g.adj ++ [[]] := rfl

theorem add_edge_name (g : Graph) (i j : Int) : (g.add_edge i j).name = g.name := by
  unfold Graph.add_edge
  cases findVertex g.ids i <;> cases findVertex g.ids j <;> rfl

theorem add_edge_ids (g : Graph) (i j : Int) : (g.add_edge i j).ids = g.ids := by
  unfold Graph.add_edge
  cases findVertex g.ids i <;> cases findVertex g.ids j <;> rfl

theorem add_edge_of_missing (g : Graph) (i j : Int) (h : i ∉ g.ids ∨ j ∉ g.ids) :
    g.add_edge i j = g := by
  unfold Graph.add_edge
  rcases h with h | h
  · rw [(findVertex_eq_none_iff g.ids i).mpr h]
  · rw [(findVertex_eq_none_iff g.ids j).mpr h]
    cases findVertex g.ids i <;> rfl

theorem add_edge_found (g : Graph) (i j : Int) (vi vj : Nat)
    (hi : findVertex g.ids i = some vi) (hj : findVertex g.ids j = some vj) :
    g.add_edge i j = { g with adj := g.adj.set vi (g.adj.getD vi [] ++ [vj]) } := by
  unfold Graph.add_edge
  rw [hi, hj]

theorem add_vertex_WF {g : Graph} (h : g.WF) (id : Int) : (g.add_vertex id).WF := by
  obtain ⟨hlen, hadj⟩ := h
  constructor
  · simp [Graph.add_vertex, hlen]
  · intro l hl w hw
    simp only [Graph.add_vertex, List.mem_append, List.mem_singleton] at hl
    rcases hl with hl | hl
    · have := hadj l hl w hw
      simp [Graph.add_vertex]
      omega
    · subst hl; simp at hw

theorem add_edge_WF {g : Graph} (h : g.WF) (i j : Int) : (g.add_edge i j).WF := by
  obtain ⟨hlen, hadj⟩ := h
  unfold Graph.add_edge
  cases hi : findVertex g.ids i with
  | none => exact ⟨hlen, hadj⟩
  | some vi =>
    cases hj : findVertex g.ids j with
    | none => exact ⟨hlen, hadj⟩
    | some vj =>
      obtain ⟨hvj, -⟩ := findVertex_some_spec g.ids j vj hj
      constructor
      · simpa using hlen
      · intro l hl w hw
        rcases List.mem_or_eq_of_mem_set hl with hl' | hl'
        · exact hadj l hl' w hw
        · subst hl'
          rcases List.mem_append.mp hw with hw' | hw'
          · cases hgd : g.adj.getD vi [] with
            | nil => rw [hgd] at hw'; simp at hw'
            | cons a as =>
              have hmem : g.adj.getD vi [] ∈ g.adj ∨ g.adj.getD vi [] = [] := by
                by_cases hvi : vi < g.adj.length
                · exact Or.inl (by rw [List.getD_eq_getElem _ _ hvi]; exact List.getElem_mem hvi)
                · exact Or.inr (by rw [List.getD_eq_getElem?_getD, List.getElem?_eq_none (Nat.le_of_not_lt hvi)]; rfl)
              rcases hmem with hmem | hmem
              · exact hadj _ hmem w hw'
              · rw [hmem] at hw'; simp at hw'
          · rw [List.mem_singleton] at hw'
            subst hw'; exact hvj

theorem mk0_WF : Graph.mk0.WF := ⟨rfl, by intro l hl; simp [Graph.mk0] at hl⟩

theorem numVertices_add_vertex (g : Graph) (id : Int) :
    (g.add_vertex id).numVertices = g.numVertices + 1 := by
  simp [Graph.add_vertex, Graph.numVertices]

theorem numVertices_add_edge (g : Graph) (i j : Int) :
    (g.add_edge i j).numVertices = g.numVertices := by
  simp [Graph.numVertices, add_edge_ids]

theorem numEdges_add_vertex (g : Graph) (id : Int) :
    (g.add_vertex id).numEdges = g.numEdges := by
  simp [Graph.add_vertex, Graph.numEdges]

theorem numEdges_add_edge_found {g : Graph} (hwf : g.WF) {i j : Int}
    (hi : i ∈ g.ids) (hj : j ∈ g.ids) :
    (g.add_edge i j).numEdges = g.numEdges + 1 := by
  obtain ⟨vi, hvi⟩ := findVertex_isSome_of_mem g.ids i hi
  obtain ⟨vj, hvj⟩ := findVertex_isSome_of_mem g.ids j hj
  rw [add_edge_found g i j vi vj hvi hvj]
  obtain ⟨hvilt, -⟩ := findVertex_some_spec g.ids i vi hvi
  have hvia : vi < g.adj.length := by rw [hwf.1]; exact hvilt
  simp only [Graph.numEdges, List.map_set]
  have hgetD : g.adj.getD vi [] = g.adj[vi] := List.getD_eq_getElem g.adj [] hvia
  rw [hgetD]
  have hset := sum_set_nat (g.adj.map List.length) vi ((g.adj[vi] ++ [vj]).length)
    (by simpa using hvia)
  rw [List.getElem_map] at hset
  simp only [List.length_append, List.length_singleton] at hset ⊢
  omega

theorem numEdges_add_edge_le (g : Graph) (i j : Int) :
    g.numEdges ≤ (g.add_edge i j).numEdges := by
  unfold Graph.add_edge
  cases hi : findVertex g.ids i with
  | none => exact le_refl _
  | some vi =>
    cases hj : findVertex g.ids j with
    | none => exact le_refl _
    | some vj =>
      simp only [Graph.numEdges, List.map_set]
      by_cases hvia : vi < g.adj.length
      · have hgetD : g.adj.getD vi [] = g.adj[vi] := List.getD_eq_getElem g.adj [] hvia
        rw [hgetD]
        have hset := sum_set_nat (g.adj.map List.length) vi
          ((g.adj[vi] ++ [vj]).length) (by simpa using hvia)
        rw [List.getElem_map] at hset
        simp only [List.length_append, List.length_singleton] at hset ⊢
        omega
      · rw [List.set_eq_of_length_le (by simpa using Nat.le_of_not_lt hvia)]

/-! ### Edge-view membership -/

theorem mem_edgesView {g : Graph} {a b : Int} :
    (a, b) ∈ g.edgesView ↔
      ∃ v, v < g.adj.length ∧ ∃ w ∈ g.adj.getD v [],
        a = g.ids.getD v 0 ∧ b = g.ids.getD w 0 := by
  unfold Graph.edgesView
  rw [List.mem_flatMap]
  constructor
  · rintro ⟨v, hv, hmem⟩
    rw [List.mem_range] at hv
    rcases List.mem_map.mp hmem with ⟨w, hw, heq⟩
    exact ⟨v, hv, w, hw, congrArg Prod.fst heq.symm, congrArg Prod.snd heq.symm⟩
  · rintro ⟨v, hv, w, hw, ha, hb⟩
    exact ⟨v, List.mem_range.mpr hv, List.mem_map.mpr ⟨w, hw, by rw [ha, hb]⟩⟩

theorem mem_edgesView_dense {g : Graph} (hwf : g.WF) (hd : g.dense) {v w : Nat} :
    (Int.ofNat v, Int.ofNat w) ∈ g.edgesView ↔ v < g.adj.length ∧ w ∈ g.adj.getD v [] := by
  rw [mem_edgesView]
  constructor
  · rintro ⟨v', hv', w', hw', ha, hb⟩
    have hvlt : v' < g.ids.length := by rw [← hwf.1]; exact hv'
    have hwlt : w' < g.ids.length := by
      refine hwf.2 (g.adj.getD v' []) ?_ w' hw'
      rw [List.getD_eq_getElem _ _ hv']
      exact List.getElem_mem hv'
    rw [dense_getD hd hvlt] at ha
    rw [dense_getD hd hwlt] at hb
    have hv'' : v = v' := Int.ofNat_inj.mp ha
    have hw'' : w = w' := Int.ofNat_inj.mp hb
    subst hv''; subst hw''
    exact ⟨hv', hw'⟩
  · rintro ⟨hv, hw⟩
    have hvlt : v < g.ids.length := by rw [← hwf.1]; exact hv
    have hwlt : w < g.ids.length := by
      refine hwf.2 (g.adj.getD v []) ?_ w hw
      rw [List.getD_eq_getElem _ _ hv]
      exact List.getElem_mem hv
    exact ⟨v, hv, w, hw, (dense_getD hd hvlt).symm, (dense_getD hd hwlt).symm⟩

theorem add_edge_mem_edgesView {g : Graph} (hwf : g.WF) {i j : Int}
    (hi : i ∈ g.ids) (hj : j ∈ g.ids) :
    (i, j) ∈ (g.add_edge i j).edgesView := by
  obtain ⟨vi, hvi⟩ := findVertex_isSome_of_mem g.ids i hi
  obtain ⟨vj, hvj⟩ := findVertex_isSome_of_mem g.ids j hj
  obtain ⟨hvilt, hvid⟩ := findVertex_some_spec g.ids i vi hvi
  obtain ⟨hvjlt, hvjd⟩ := findVertex_some_spec g.ids j vj hvj
  have hvia : vi < g.adj.length := by rw [hwf.1]; exact hvilt
  rw [add_edge_found g i j vi vj hvi hvj]
  rw [mem_edgesView]
  refine ⟨vi, by simpa using hvia, vj, ?_, ?_, ?_⟩
  · have : (g.adj.set vi (g.adj.getD vi [] ++ [vj])).getD vi [] = g.adj.getD vi [] ++ [vj] := by
      rw [List.getD_eq_getElem _ _ (by simpa using hvia), List.getElem_set_self]
    rw [this]
    simp
  · exact hvid.symm
  · exact hvjd.symm

/-! ### Generator graph structure -/

theorem addVertexLoop_spec (g : Graph) (N : Nat) :
    (addVertexLoop g N).ids = g.ids ++ (List.range N).map Int.ofNat ∧
      (addVertexLoop g N).adj = g.adj ++ List.replicate N [] ∧
      (addVertexLoop g N).name = g.name := by
  induction N with
  | zero => simp [addVertexLoop]
  | succ n ih =>
    unfold addVertexLoop at ih ⊢
    obtain ⟨h1, h2, h3⟩ := ih
    rw [List.range_succ, List.foldl_append]
    refine ⟨?_, ?_, ?_⟩
    · simp only [List.foldl_cons, List.foldl_nil, add_vertex_ids]
      rw [h1, List.map_append, List.append_assoc]
      rfl
    · simp only [List.foldl_cons, List.foldl_nil, add_vertex_adj]
      rw [h2, List.replicate_succ', List.append_assoc]
    · simp only [List.foldl_cons, List.foldl_nil, add_vertex_name]
      exact h3

theorem addEdges_ids (g : Graph) (L : List (Int × Int)) :
    (addEdges g L).ids = g.ids := by
  induction L generalizing g with
  | nil => rfl
  | cons e es ih => unfold addEdges at ih ⊢; rw [List.foldl_cons, ih, add_edge_ids]

theorem addEdges_name (g : Graph) (L : List (Int × Int)) :
    (addEdges g L).name = g.name := by
  induction L generalizing g with
  | nil => rfl
  | cons e es ih => unfold addEdges at ih ⊢; rw [List.foldl_cons, ih, add_edge_name]

theorem addEdges_WF {g : Graph} (hwf : g.WF) (L : List (Int × Int)) :
    (addEdges g L).WF := by
  induction L generalizing g with
  | nil => exact hwf
  | cons e es ih => unfold addEdges at ih ⊢; rw [List.foldl_cons]; exact ih (add_edge_WF hwf e.1 e.2)

theorem addVertexLoop_mk0_WF (nm : String) (N : Nat) :
    (addVertexLoop { Graph.mk0 with name := nm } N).WF := by
  obtain ⟨h1, h2, -⟩ := addVertexLoop_spec { Graph.mk0 with name := nm } N
  constructor
  · rw [h1, h2]; simp [Graph.mk0]
  · intro l hl w hw
    rw [h2] at hl
    simp only [Graph.mk0, List.nil_append] at hl
    have : l = [] := List.eq_of_mem_replicate hl
    subst this
    simp at hw

theorem addVertexLoop_mk0_dense (nm : String) (N : Nat) :
    (addVertexLoop { Graph.mk0 with name := nm } N).dense := by
  obtain ⟨h1, -, -⟩ := addVertexLoop_spec { Graph.mk0 with name := nm } N
  unfold Graph.dense
  rw [h1]
  simp [Graph.mk0]

/-- Common shape of the four sized generators. -/
theorem sizedBuild_facts (nm : String) (N : Nat) (L : List (Int × Int)) :
    (let g0 := addVertexLoop { Graph.mk0 with name := nm } N
     let g := if 1 < N then addEdges g0 L else g0
     g.ids = (List.range N).map Int.ofNat ∧ g.name = nm ∧ g.WF ∧ g.dense) := by
  obtain ⟨h1, h2, h3⟩ := addVertexLoop_spec { Graph.mk0 with name := nm } N
  simp only
  split
  · refine ⟨by rw [addEdges_ids, h1]; simp [Graph.mk0], by rw [addEdges_name, h3],
      addEdges_WF (addVertexLoop_mk0_WF nm N) L, ?_⟩
    unfold Graph.dense
    rw [addEdges_ids, h1]
    simp [Graph.mk0]
  · exact ⟨by rw [h1]; simp [Graph.mk0], h3, addVertexLoop_mk0_WF nm N,
      addVertexLoop_mk0_dense nm N⟩

theorem buildURing_facts (N : Nat) :
    (buildURing N).ids = (List.range N).map Int.ofNat ∧ (buildURing N).name = "URing" ∧
      (buildURing N).WF ∧ (buildURing N).dense :=
  sizedBuild_facts "URing" N (uringEdges N)

theorem buildBRing_facts (N : Nat) :
    (buildBRing N).ids = (List.range N).map Int.ofNat ∧ (buildBRing N).name = "BRing" ∧
      (buildBRing N).WF ∧ (buildBRing N).dense :=
  sizedBuild_facts "BRing" N (bringEdges N)

theorem buildUMesh_facts (N : Nat) :
    (buildUMesh N).ids = (List.range N).map Int.ofNat ∧ (buildUMesh N).name = "UMesh" ∧
      (buildUMesh N).WF ∧ (buildUMesh N).dense :=
  sizedBuild_facts "UMesh" N (umeshEdges N)

theorem buildBMesh_facts (N : Nat) :
    (buildBMesh N).ids = (List.range N).map Int.ofNat ∧ (buildBMesh N).name = "BMesh" ∧
      (buildBMesh N).WF ∧ (buildBMesh N).dense :=
  sizedBuild_facts "BMesh" N (bmeshEdges N)

theorem buildOPG_facts :
    buildOPG.ids = [0] ∧ buildOPG.name = "OPG" ∧ buildOPG.WF ∧ buildOPG.dense := by
  refine ⟨rfl, rfl, ⟨rfl, ?_⟩, by unfold Graph.dense; rfl⟩
  intro l hl w hw
  have : l = [] := by
    simpa [buildOPG, Graph.add_vertex, Graph.mk0] using hl
  subst this
  simp at hw

/-! ### Claim C7: add_edge with a missing endpoint is a silent no-op -/

/-- C7: for every graph `G` and ids `i, j`, if `G` has no vertex with id `i` or no
vertex with id `j`, then `G.add_edge(i, j)` returns without error and leaves the graph
completely unchanged: same name, vertex list, edge list, and counts. -/
theorem claim_C7 (g : Graph) (i j : Int) (h : i ∉ g.ids ∨ j ∉ g.ids) :
    g.add_edge i j = g ∧
    (g.add_edge i j).name = g.name ∧
    (g.add_edge i j).verticesView = g.verticesView ∧
    (g.add_edge i j).edgesView = g.edgesView ∧
    (g.add_edge i j).numVertices = g.numVertices ∧
    (g.add_edge i j).numEdges = g.numEdges := by
  have he := add_edge_of_missing g i j h
  exact ⟨he, by rw [he], by rw [he], by rw [he], by rw [he], by rw [he]⟩

/-- Witness for C7 at a concrete input: `URing(2)` has no vertex with id 5. -/
theorem claim_C7_witness :
    (buildURing 2).add_edge 5 0 = buildURing 2 :=
  (claim_C7 (buildURing 2) 5 0 (Or.inl (by decide))).1

/-! ### Claim C10: decode ∘ encode on in-range pairs -/

/-- C10 counterexample: with `static_cast<int32_t>(g2_size)` modeled faithfully,
`(a, b, s) = (0, 100, 2^32 - 10)` satisfies every hypothesis of the original claim
(`a ≥ 0`, `0 ≤ b < s`, `s > 0`, and `a·s + b = 100` does not overflow `int32`), yet
the cast wraps the size to `-10` and the round trip returns `(-10, 0)`, not
`(0, 100)`. -/
theorem claim_C10_cex :
    (0 : Int) ≤ 0 ∧ (0 : Int) ≤ 100 ∧ (100 : Int) < Int.ofNat (2 ^ 32 - 10) ∧
    0 < 2 ^ 32 - 10 ∧ (0 : Int) * Int.ofNat (2 ^ 32 - 10) + 100 < 2 ^ 31 ∧
    gproduct_utils.decode_vertex_pair32
        (gproduct_utils.encode_vertex_pair32 0 100 (2 ^ 32 - 10)) (2 ^ 32 - 10)
      = (-10, 0) ∧
    ((-10 : Int), (0 : Int)) ≠ ((0 : Int), (100 : Int)) := by
  decide

/-- C10 (amended): for all integers `a ≥ 0`, `0 ≤ b < s`, `0 < s < 2^31` such that
`a*s + b` does not overflow `int32`,
`decode_vertex_pair (encode_vertex_pair a b s) s = (a, b)` with the
`static_cast<int32_t>` of the size modeled faithfully.  The added bound `s < 2^31` is
required: without it the cast wraps the size and the round trip fails (see the
counterexample). -/
theorem claim_C10 (a b : Int) (s : Nat) (ha : 0 ≤ a) (hb : 0 ≤ b)
    (hbs : b < Int.ofNat s) (hs : 0 < s) (hs31 : s < 2 ^ 31)
    (_hof : a * Int.ofNat s + b < 2 ^ 31) :
    gproduct_utils.decode_vertex_pair32 (gproduct_utils.encode_vertex_pair32 a b s) s
      = (a, b) := by
  have hcast : gproduct_utils.toInt32 s = Int.ofNat s := by
    unfold gproduct_utils.toInt32
    have hlt : s % 2 ^ 32 = s := Nat.mod_eq_of_lt (Nat.lt_trans hs31 (by norm_num))
    rw [hlt, if_pos hs31]
  unfold gproduct_utils.decode_vertex_pair32 gproduct_utils.encode_vertex_pair32
  rw [hcast]
  have hsz : (0 : Int) < Int.ofNat s := by simpa using Int.ofNat_lt.mpr hs
  have hnn : 0 ≤ a * Int.ofNat s + b :=
    add_nonneg (mul_nonneg ha (le_of_lt hsz)) hb
  rw [Int.tdiv_eq_ediv hnn (le_of_lt hsz), Int.tmod_eq_emod hnn (le_of_lt hsz)]
  have h1 : a * Int.ofNat s + b = b + Int.ofNat s * a := by ring
  rw [h1, Int.add_mul_ediv_left b a (ne_of_gt hsz), Int.ediv_eq_zero_of_lt hb hbs,
      Int.add_mul_emod_self_left, Int.emod_eq_of_lt hb hbs, zero_add]

/-- Witness for C10 at `a = 2, b = 1, s = 3`. -/
theorem claim_C10_witness :
    gproduct_utils.decode_vertex_pair32 (gproduct_utils.encode_vertex_pair32 2 1 3) 3
      = (2, 1) :=
  claim_C10 2 1 3 (by decide) (by decide) (by decide) (by decide) (by decide) (by decide)

/-! ### Copy loops and builder well-formedness -/

theorem addVertexFold_spec (g : Graph) (l : List Int) :
    (l.foldl (fun d id => d.add_vertex id) g).ids = g.ids ++ l ∧
      (l.foldl (fun d id => d.add_vertex id) g).adj = g.adj ++ List.replicate l.length [] ∧
      (l.foldl (fun d id => d.add_vertex id) g).name = g.name := by
  induction l generalizing g with
  | nil => simp
  | cons x xs ih =>
    rw [List.foldl_cons]
    obtain ⟨h1, h2, h3⟩ := ih (g.add_vertex x)
    refine ⟨?_, ?_, ?_⟩
    · rw [h1, add_vertex_ids, List.append_assoc]; rfl
    · rw [h2, add_vertex_adj, List.append_assoc]
      simp [List.replicate_succ]
    · rw [h3, add_vertex_name]

theorem addVertexFold_mk0_WF (l : List Int) :
    (l.foldl (fun d id => d.add_vertex id) Graph.mk0).WF := by
  obtain ⟨h1, h2, -⟩ := addVertexFold_spec Graph.mk0 l
  constructor
  · rw [h1, h2]; simp [Graph.mk0]
  · intro row hrow w hw
    rw [h2] at hrow
    simp only [Graph.mk0, List.nil_append] at hrow
    have : row = [] := List.eq_of_mem_replicate hrow
    subst this
    simp at hw

theorem copyInto_mk0_ids (src : Graph) : (copyInto Graph.mk0 src).ids = src.ids := by
  unfold copyInto
  rw [addEdges_ids, (addVertexFold_spec Graph.mk0 src.ids).1]
  simp [Graph.mk0]

theorem copyInto_mk0_WF (src : Graph) : (copyInto Graph.mk0 src).WF :=
  addEdges_WF (addVertexFold_mk0_WF src.ids) src.edgesView

theorem setName_WF {g : Graph} (nm : String) (h : g.WF) : Graph.WF { g with name := nm } := h

theorem buildBGrid_WF (dims : List Nat) : (buildBGrid dims).WF := by
  unfold buildBGrid
  dsimp only
  split
  · exact setName_WF _ (addVertexFold_mk0_WF buildOPG.ids)
  · split
    · exact setName_WF _ (copyInto_mk0_WF _)
    · exact setName_WF _ (copyInto_mk0_WF _)

theorem buildBTorus_WF (dims : List Nat) : (buildBTorus dims).WF := by
  unfold buildBTorus
  dsimp only
  split
  · exact setName_WF _ (addVertexFold_mk0_WF buildOPG.ids)
  · split
    · exact setName_WF _ (copyInto_mk0_WF _)
    · exact setName_WF _ (copyInto_mk0_WF _)

theorem build_WF (t : TopoSpec) : t.build.WF := by
  cases t with
  | uring n => exact (buildURing_facts n).2.2.1
  | bring n => exact (buildBRing_facts n).2.2.1
  | umesh n => exact (buildUMesh_facts n).2.2.1
  | bmesh n => exact (buildBMesh_facts n).2.2.1
  | opg => exact buildOPG_facts.2.2.1
  | bgrid ds => exact buildBGrid_WF ds
  | btorus ds => exact buildBTorus_WF ds

/-! ### Claim C8: constructor validation -/

/-- C8: `URing(0)`, `BRing(0)`, `UMesh(0)`, `BMesh(0)` fail with `InvalidArgument`, as
do `BGrid(dims)` and `BTorus(dims)` when some entry of `dims` is `0`; `OPG()` never
fails; and for every `N ≥ 1` the sized constructors succeed. -/
theorem claim_C8 :
    TopoSpec.make (.uring 0) = .error .invalidArgument ∧
    TopoSpec.make (.bring 0) = .error .invalidArgument ∧
    TopoSpec.make (.umesh 0) = .error .invalidArgument ∧
    TopoSpec.make (.bmesh 0) = .error .invalidArgument ∧
    (∀ dims : List Nat, 0 ∈ dims → TopoSpec.make (.bgrid dims) = .error .invalidArgument) ∧
    (∀ dims : List Nat, 0 ∈ dims → TopoSpec.make (.btorus dims) = .error .invalidArgument) ∧
    TopoSpec.make .opg = .ok buildOPG ∧
    (∀ N, 1 ≤ N →
      TopoSpec.make (.uring N) = .ok (buildURing N) ∧
      TopoSpec.make (.bring N) = .ok (buildBRing N) ∧
      TopoSpec.make (.umesh N) = .ok (buildUMesh N) ∧
      TopoSpec.make (.bmesh N) = .ok (buildBMesh N)) := by
  refine ⟨rfl, rfl, rfl, rfl, ?_, ?_, rfl, ?_⟩
  · intro dims h0
    have hv : ¬ ((TopoSpec.bgrid dims).validB = true) := by
      simp only [TopoSpec.validB, List.all_eq_true]
      intro hall
      have := hall 0 h0
      simp at this
    unfold TopoSpec.make
    rw [if_neg hv]
  · intro dims h0
    have hv : ¬ ((TopoSpec.btorus dims).validB = true) := by
      simp only [TopoSpec.validB, List.all_eq_true]
      intro hall
      have := hall 0 h0
      simp at this
    unfold TopoSpec.make
    rw [if_neg hv]
  · intro N hN
    have h1 : (TopoSpec.uring N).validB = true := by simp [TopoSpec.validB]; omega
    have h2 : (TopoSpec.bring N).validB = true := by simp [TopoSpec.validB]; omega
    have h3 : (TopoSpec.umesh N).validB = true := by simp [TopoSpec.validB]; omega
    have h4 : (TopoSpec.bmesh N).validB = true := by simp [TopoSpec.validB]; omega
    exact ⟨by unfold TopoSpec.make; rw [if_pos h1]; rfl,
      by unfold TopoSpec.make; rw [if_pos h2]; rfl,
      by unfold TopoSpec.make; rw [if_pos h3]; rfl,
      by unfold TopoSpec.make; rw [if_pos h4]; rfl⟩

/-- Witness for C8's quantified parts at concrete inputs. -/
theorem claim_C8_witness :
    TopoSpec.make (.bgrid [3, 0]) = .error .invalidArgument ∧
    TopoSpec.make (.uring 4) = .ok (buildURing 4) :=
  ⟨claim_C8.2.2.2.2.1 [3, 0] (by decide), (claim_C8.2.2.2.2.2.2.2 4 (by decide)).1⟩

/-! ### Claim C4 (corrected): mutation transitions to "Generic" -/

/-- C4 as stated is false: the overridden `add_edge` always rewrites the name to
"Generic", but when an endpoint id does not exist the underlying `Graph::add_edge` is
a silent no-op, so the requested edge is *not* present.  Concretely, on `URing(1)`
(only vertex id 0), `add_edge(1, 2)` leaves no edge `1→2`. -/
theorem claim_C4_cex :
    (mutate (TopoSpec.build (.uring 1)) (.addE 1 2)).name = "Generic" ∧
    ((1 : Int), (2 : Int)) ∉ (mutate (TopoSpec.build (.uring 1)) (.addE 1 2)).edgesView := by
  exact ⟨rfl, by decide⟩

/-- C4 (amended): for every specialized topology `T` as constructed, one overridden
`add_vertex(id)` call leaves `T.name = "Generic"` with the requested vertex present,
and one overridden `add_edge(i, j)` call leaves `T.name = "Generic"` with the requested
directed edge present provided both endpoint ids exist in the graph (if either is
missing, the underlying mutation is a silent no-op and only the name changes). -/
theorem claim_C4 (t : TopoSpec) (_ht : t.valid) :
    (∀ id : Int,
      (mutate t.build (.addV id)).name = "Generic" ∧
      id ∈ (mutate t.build (.addV id)).verticesView) ∧
    (∀ i j : Int,
      (mutate t.build (.addE i j)).name = "Generic" ∧
      (i ∈ t.build.ids → j ∈ t.build.ids →
        (i, j) ∈ (mutate t.build (.addE i j)).edgesView)) := by
  constructor
  · intro id
    refine ⟨by rw [mutate, add_vertex_name], ?_⟩
    show id ∈ (mutate t.build (.addV id)).ids
    rw [mutate, add_vertex_ids]
    simp
  · intro i j
    refine ⟨by rw [mutate, add_edge_name], ?_⟩
    intro hi hj
    exact add_edge_mem_edgesView (g := { t.build with name := "Generic" })
      (build_WF t) hi hj

/-- Witness for the amended C4 on `BRing(3)` with an existing edge request `0 → 1`. -/
theorem claim_C4_witness :
    (mutate (TopoSpec.build (.bring 3)) (.addE 0 1)).name = "Generic" ∧
    ((0 : Int), (1 : Int)) ∈ (mutate (TopoSpec.build (.bring 3)) (.addE 0 1)).edgesView := by
  have h := claim_C4 (.bring 3) (by decide)
  exact ⟨(h.2 0 1).1, (h.2 0 1).2 (by decide) (by decide)⟩

/-! ### gproduct structure -/

theorem sum_map_const {α : Type} (l : List α) (c : Nat) :
    (l.map (fun _ => c)).sum = l.length * c := by
  induction l with
  | nil => simp
  | cons x xs ih => simp [ih, Nat.succ_mul]; omega

theorem addVertexFoldF_spec {α : Type} (g : Graph) (l : List α) (f : α → Int) :
    (l.foldl (fun r a => r.add_vertex (f a)) g).ids = g.ids ++ l.map f ∧
      (l.foldl (fun r a => r.add_vertex (f a)) g).adj = g.adj ++ List.replicate l.length [] ∧
      (l.foldl (fun r a => r.add_vertex (f a)) g).name = g.name := by
  induction l generalizing g with
  | nil => simp
  | cons x xs ih =>
    rw [List.foldl_cons]
    obtain ⟨h1, h2, h3⟩ := ih (g.add_vertex (f x))
    refine ⟨?_, ?_, ?_⟩
    · rw [h1, add_vertex_ids, List.append_assoc]; rfl
    · rw [h2, add_vertex_adj, List.append_assoc]
      simp [List.replicate_succ]
    · rw [h3, add_vertex_name]

theorem gproductVerts_spec (g1 g2 : Graph) :
    (gproductVerts g1 g2).ids
      = g1.ids.flatMap (fun a => g2.ids.map
          (fun b => gproduct_utils.encode_vertex_pair a b g2.numVertices)) ∧
    (gproductVerts g1 g2).adj = List.replicate (g1.numVertices * g2.numVertices) [] ∧
    (gproductVerts g1 g2).name = g1.name ++ " ⊗ " ++ g2.name := by
  unfold gproductVerts
  have key : ∀ (l1 : List Int) (r : Graph),
      (l1.foldl (fun r a => g2.ids.foldl
        (fun r b => r.add_vertex (gproduct_utils.encode_vertex_pair a b g2.numVertices)) r) r).ids
        = r.ids ++ l1.flatMap (fun a => g2.ids.map
            (fun b => gproduct_utils.encode_vertex_pair a b g2.numVertices)) ∧
      (l1.foldl (fun r a => g2.ids.foldl
        (fun r b => r.add_vertex (gproduct_utils.encode_vertex_pair a b g2.numVertices)) r) r).adj
        = r.adj ++ List.replicate (l1.length * g2.ids.length) [] ∧
      (l1.foldl (fun r a => g2.ids.foldl
        (fun r b => r.add_vertex (gproduct_utils.encode_vertex_pair a b g2.numVertices)) r) r).name
        = r.name := by
    intro l1
    induction l1 with
    | nil => intro r; simp
    | cons a l ih =>
      intro r
      rw [List.foldl_cons]
      obtain ⟨h1, h2, h3⟩ := ih (g2.ids.foldl
        (fun r b => r.add_vertex (gproduct_utils.encode_vertex_pair a b g2.numVertices)) r)
      obtain ⟨g1', g2', g3'⟩ := addVertexFoldF_spec r g2.ids
        (fun b => gproduct_utils.encode_vertex_pair a b g2.numVertices)
      refine ⟨?_, ?_, ?_⟩
      · rw [h1, g1', List.flatMap_cons, List.append_assoc]
      · rw [h2, g2', List.append_assoc, ← List.replicate_add]
        have : g2.ids.length + l.length * g2.ids.length = (l.length + 1) * g2.ids.length := by ring
        rw [this]
        rfl
      · rw [h3, g3']
  obtain ⟨h1, h2, h3⟩ := key g1.ids { name := g1.name ++ " ⊗ " ++ g2.name, ids := [], adj := [] }
  exact ⟨by rw [h1]; rfl, by rw [h2]; rfl, by rw [h3]⟩

theorem addEdges_append (g : Graph) (L1 L2 : List (Int × Int)) :
    addEdges g (L1 ++ L2) = addEdges (addEdges g L1) L2 := by
  unfold addEdges
  rw [List.foldl_append]

theorem addEdges_flatMap {α : Type} (g : Graph) (l : List α) (F : α → List (Int × Int)) :
    addEdges g (l.flatMap F) = l.foldl (fun r a => addEdges r (F a)) g := by
  induction l generalizing g with
  | nil => rfl
  | cons a xs ih =>
    rw [List.flatMap_cons, addEdges_append, List.foldl_cons, ih]

theorem addEdges_map {α : Type} (g : Graph) (l : List α) (f : α → Int × Int) :
    addEdges g (l.map f) = l.foldl (fun r a => r.add_edge (f a).1 (f a).2) g := by
  unfold addEdges
  rw [List.foldl_map]

theorem gproduct_eq (g1 g2 : Graph) :
    gproduct g1 g2 = addEdges (addEdges (gproductVerts g1 g2) (gproductE1 g1 g2))
      (gproductE2 g1 g2) := by
  unfold gproduct gproductVerts gproductE1 gproductE2
  rw [addEdges_flatMap, addEdges_flatMap]
  simp only [addEdges_map]

theorem mem_gproductVerts_ids {g1 g2 : Graph} {x : Int} :
    x ∈ (gproductVerts g1 g2).ids ↔
      ∃ a ∈ g1.ids, ∃ b ∈ g2.ids,
        x = gproduct_utils.encode_vertex_pair a b g2.numVertices := by
  rw [(gproductVerts_spec g1 g2).1, List.mem_flatMap]
  constructor
  · rintro ⟨a, ha, hx⟩
    rcases List.mem_map.mp hx with ⟨b, hb, hbx⟩
    exact ⟨a, ha, b, hb, hbx.symm⟩
  · rintro ⟨a, ha, b, hb, hx⟩
    exact ⟨a, ha, List.mem_map.mpr ⟨b, hb, hx.symm⟩⟩

theorem edgesView_mem_ids {g : Graph} (hwf : g.WF) {e : Int × Int}
    (he : e ∈ g.edgesView) : e.1 ∈ g.ids ∧ e.2 ∈ g.ids := by
  obtain ⟨a, b⟩ := e
  rcases mem_edgesView.mp he with ⟨v, hv, w, hw, ha, hb⟩
  have hvlt : v < g.ids.length := by rw [← hwf.1]; exact hv
  have hwlt : w < g.ids.length := by
    refine hwf.2 (g.adj.getD v []) ?_ w hw
    rw [List.getD_eq_getElem _ _ hv]
    exact List.getElem_mem hv
  constructor
  · show a ∈ g.ids
    rw [ha, List.getD_eq_getElem _ _ hvlt]
    exact List.getElem_mem hvlt
  · show b ∈ g.ids
    rw [hb, List.getD_eq_getElem _ _ hwlt]
    exact List.getElem_mem hwlt

theorem gproductVerts_WF (g1 g2 : Graph) : (gproductVerts g1 g2).WF := by
  obtain ⟨h1, h2, -⟩ := gproductVerts_spec g1 g2
  constructor
  · rw [h1, h2, List.length_replicate, List.length_flatMap]
    have : (List.map (List.length ∘ fun a => g2.ids.map
        (fun b => gproduct_utils.encode_vertex_pair a b g2.numVertices)) g1.ids)
        = g1.ids.map (fun _ => g2.ids.length) := by
      apply List.map_congr_left
      intro a _
      simp
    rw [this, sum_map_const]
    rfl
  · intro l hl w hw
    rw [h2] at hl
    have : l = [] := List.eq_of_mem_replicate hl
    subst this
    simp at hw

theorem addEdges_numEdges {g : Graph} (hwf : g.WF) (L : List (Int × Int))
    (h : ∀ e ∈ L, e.1 ∈ g.ids ∧ e.2 ∈ g.ids) :
    (addEdges g L).numEdges = g.numEdges + L.length := by
  induction L generalizing g with
  | nil => simp [addEdges]
  | cons e es ih =>
    have hmem := h e (List.mem_cons_self e es)
    unfold addEdges
    rw [List.foldl_cons]
    have step := numEdges_add_edge_found hwf hmem.1 hmem.2
    have hrec := ih (add_edge_WF hwf e.1 e.2)
      (by intro e' he'; rw [add_edge_ids]; exact h e' (List.mem_cons_of_mem e he'))
    unfold addEdges at hrec
    rw [hrec, step, List.length_cons]
    omega

theorem getD_lengths_map (l : List (List Nat)) :
    (List.range l.length).map (fun v => (l.getD v []).length) = l.map List.length := by
  induction l with
  | nil => rfl
  | cons x xs ih =>
    rw [List.length_cons, List.range_succ_eq_map, List.map_cons, List.map_map]
    congr 1

theorem edgesView_length (g : Graph) : g.edgesView.length = g.numEdges := by
  unfold Graph.edgesView Graph.numEdges
  rw [List.length_flatMap]
  have : (List.map (List.length ∘ fun v => (g.adj.getD v []).map
      (fun w => (g.ids.getD v 0, g.ids.getD w 0))) (List.range g.adj.length))
      = (List.range g.adj.length).map (fun v => (g.adj.getD v []).length) := by
    apply List.map_congr_left
    intro v _
    simp
  rw [this, getD_lengths_map]

theorem gproductE1_length {g1 g2 : Graph} :
    (gproductE1 g1 g2).length = g1.numEdges * g2.numVertices := by
  unfold gproductE1
  rw [List.length_flatMap]
  have : (List.map (List.length ∘ fun e => g2.ids.map
      (fun b => (gproduct_utils.encode_vertex_pair e.1 b g2.numVertices,
        gproduct_utils.encode_vertex_pair e.2 b g2.numVertices))) g1.edgesView)
      = g1.edgesView.map (fun _ => g2.ids.length) := by
    apply List.map_congr_left
    intro e _
    simp
  rw [this, sum_map_const, edgesView_length]
  rfl

theorem gproductE2_length {g1 g2 : Graph} :
    (gproductE2 g1 g2).length = g2.numEdges * g1.numVertices := by
  unfold gproductE2
  rw [List.length_flatMap]
  have : (List.map (List.length ∘ fun e => g1.ids.map
      (fun a => (gproduct_utils.encode_vertex_pair a e.1 g2.numVertices,
        gproduct_utils.encode_vertex_pair a e.2 g2.numVertices))) g2.edgesView)
      = g2.edgesView.map (fun _ => g1.ids.length) := by
    apply List.map_congr_left
    intro e _
    simp
  rw [this, sum_map_const, edgesView_length]
  rfl

theorem gproductE1_mem {g1 g2 : Graph} (hwf1 : g1.WF) {e : Int × Int}
    (he : e ∈ gproductE1 g1 g2) :
    e.1 ∈ (gproductVerts g1 g2).ids ∧ e.2 ∈ (gproductVerts g1 g2).ids := by
  unfold gproductE1 at he
  rcases List.mem_flatMap.mp he with ⟨e', he', hx⟩
  rcases List.mem_map.mp hx with ⟨b, hb, hbx⟩
  obtain ⟨h1, h2⟩ := edgesView_mem_ids hwf1 he'
  subst hbx
  exact ⟨mem_gproductVerts_ids.mpr ⟨e'.1, h1, b, hb, rfl⟩,
    mem_gproductVerts_ids.mpr ⟨e'.2, h2, b, hb, rfl⟩⟩

theorem gproductE2_mem {g1 g2 : Graph} (hwf2 : g2.WF) {e : Int × Int}
    (he : e ∈ gproductE2 g1 g2) :
    e.1 ∈ (gproductVerts g1 g2).ids ∧ e.2 ∈ (gproductVerts g1 g2).ids := by
  unfold gproductE2 at he
  rcases List.mem_flatMap.mp he with ⟨e', he', hx⟩
  rcases List.mem_map.mp hx with ⟨a, ha, hax⟩
  obtain ⟨h1, h2⟩ := edgesView_mem_ids hwf2 he'
  subst hax
  exact ⟨mem_gproductVerts_ids.mpr ⟨a, ha, e'.1, h1, rfl⟩,
    mem_gproductVerts_ids.mpr ⟨a, ha, e'.2, h2, rfl⟩⟩

theorem gproductVerts_numVertices (g1 g2 : Graph) :
    (gproductVerts g1 g2).numVertices = g1.numVertices * g2.numVertices := by
  have := (gproductVerts_WF g1 g2).1
  obtain ⟨-, h2, -⟩ := gproductVerts_spec g1 g2
  unfold Graph.numVertices
  rw [← this, h2, List.length_replicate]
  rfl

theorem gproductVerts_numEdges (g1 g2 : Graph) :
    (gproductVerts g1 g2).numEdges = 0 := by
  obtain ⟨-, h2, -⟩ := gproductVerts_spec g1 g2
  unfold Graph.numEdges
  rw [h2]
  induction (g1.numVertices * g2.numVertices) with
  | zero => rfl
  | succ n ih => simp [List.replicate_succ, ih]

/-! ### Claim C2: gproduct vertex/edge counts -/

theorem gproduct_counts (g1 g2 : Graph) (h1 : g1.WF) (h2 : g2.WF) :
    (gproduct g1 g2).numVertices = g1.numVertices * g2.numVertices ∧
    (gproduct g1 g2).numEdges
      = g1.numVertices * g2.numEdges + g1.numEdges * g2.numVertices := by
  rw [gproduct_eq]
  constructor
  · show ((addEdges (addEdges (gproductVerts g1 g2) (gproductE1 g1 g2))
      (gproductE2 g1 g2)).ids).length = _
    rw [addEdges_ids, addEdges_ids]
    exact gproductVerts_numVertices g1 g2
  · have hV := gproductVerts_WF g1 g2
    have hE1 := addEdges_numEdges hV (gproductE1 g1 g2) (fun e he => gproductE1_mem h1 he)
    have hWF1 := addEdges_WF hV (gproductE1 g1 g2)
    have hE2 := addEdges_numEdges hWF1 (gproductE2 g1 g2)
      (by
        intro e he
        rw [addEdges_ids]
        exact gproductE2_mem h2 he)
    rw [hE2, hE1, gproductVerts_numEdges, gproductE1_length, gproductE2_length]
    ring

/-- C2: for all (well-formed) graphs `G1, G2`, `gproduct(G1, G2)` has exactly
`|V(G1)|·|V(G2)|` vertices and `|V(G1)|·|E(G2)| + |E(G1)|·|V(G2)|` edges. -/
theorem claim_C2 (g1 g2 : Graph) (h1 : g1.WF) (h2 : g2.WF) :
    (gproduct g1 g2).numVertices = g1.numVertices * g2.numVertices ∧
    (gproduct g1 g2).numEdges
      = g1.numVertices * g2.numEdges + g1.numEdges * g2.numVertices :=
  gproduct_counts g1 g2 h1 h2

/-- Witness for C2: `UMesh(3) ⊗ UMesh(3)` has 9 vertices and 12 edges (the spec's own
example). -/
theorem claim_C2_witness :
    (gproduct (buildUMesh 3) (buildUMesh 3)).numVertices = 9 ∧
    (gproduct (buildUMesh 3) (buildUMesh 3)).numEdges = 12 := by
  have h := claim_C2 (buildUMesh 3) (buildUMesh 3)
    (buildUMesh_facts 3).2.2.1 (buildUMesh_facts 3).2.2.1
  exact ⟨h.1.trans (by decide), h.2.trans (by decide)⟩

/-! ### Dense ids of generator outputs (Claim C9) -/

theorem encode_ofNat (i j n2 : Nat) :
    gproduct_utils.encode_vertex_pair (Int.ofNat i) (Int.ofNat j) n2
      = Int.ofNat (i * n2 + j) := by
  rfl

theorem encode_range_flatMap (n1 n2 : Nat) :
    ((List.range n1).map Int.ofNat).flatMap
      (fun a => ((List.range n2).map Int.ofNat).map
        (fun b => gproduct_utils.encode_vertex_pair a b n2))
      = (List.range (n1 * n2)).map Int.ofNat := by
  induction n1 with
  | zero => simp
  | succ n ih =>
    rw [List.range_succ, List.map_append, List.flatMap_append, ih]
    simp only [List.map_cons, List.map_nil, List.flatMap_cons, List.flatMap_nil,
      List.append_nil, List.map_map]
    have hmul : (n + 1) * n2 = n * n2 + n2 := by ring
    rw [hmul, List.range_add, List.map_append, List.map_map]
    rfl

theorem gproduct_ids_of_dense {g1 g2 : Graph} (hd1 : g1.dense) (hd2 : g2.dense) :
    (gproduct g1 g2).ids = (List.range (g1.numVertices * g2.numVertices)).map Int.ofNat := by
  rw [gproduct_eq, addEdges_ids, addEdges_ids, (gproductVerts_spec g1 g2).1]
  conv_lhs => rw [hd1, hd2]
  exact encode_range_flatMap g1.ids.length g2.ids.length

theorem gproduct_dense {g1 g2 : Graph} (hd1 : g1.dense) (hd2 : g2.dense) :
    (gproduct g1 g2).dense := by
  unfold Graph.dense
  rw [gproduct_ids_of_dense hd1 hd2]
  simp

theorem gproduct_WF (g1 g2 : Graph) : (gproduct g1 g2).WF := by
  rw [gproduct_eq]
  exact addEdges_WF (addEdges_WF (gproductVerts_WF g1 g2) _) _

theorem copyInto_mk0_dense {src : Graph} (hd : src.dense) : (copyInto Graph.mk0 src).dense := by
  unfold Graph.dense
  rw [copyInto_mk0_ids]
  exact hd

theorem buildProductMesh_dense_WF (ds : List Nat) (k : Nat) :
    (buildProductMesh ds k).dense ∧ (buildProductMesh ds k).WF := by
  induction k with
  | zero =>
    exact ⟨copyInto_mk0_dense (buildBMesh_facts (ds.getD 0 1)).2.2.2,
      copyInto_mk0_WF _⟩
  | succ k ih =>
    exact ⟨copyInto_mk0_dense
        (gproduct_dense ih.1 (buildBMesh_facts (ds.getD (k + 1) 1)).2.2.2),
      copyInto_mk0_WF _⟩

theorem buildProductRing_dense_WF (ds : List Nat) (k : Nat) :
    (buildProductRing ds k).dense ∧ (buildProductRing ds k).WF := by
  induction k with
  | zero =>
    exact ⟨copyInto_mk0_dense (buildBRing_facts (ds.getD 0 1)).2.2.2,
      copyInto_mk0_WF _⟩
  | succ k ih =>
    exact ⟨copyInto_mk0_dense
        (gproduct_dense ih.1 (buildBRing_facts (ds.getD (k + 1) 1)).2.2.2),
      copyInto_mk0_WF _⟩

theorem buildBGrid_dense (dims : List Nat) : (buildBGrid dims).dense := by
  unfold buildBGrid
  dsimp only
  split
  · show Graph.dense { (buildOPG.ids.foldl (fun d id => d.add_vertex id) Graph.mk0)
      with name := "BGrid[]" }
    unfold Graph.dense
    rfl
  · split
    · exact copyInto_mk0_dense (buildBMesh_facts _).2.2.2
    · exact copyInto_mk0_dense (buildProductMesh_dense_WF _ _).1

theorem buildBTorus_dense (dims : List Nat) : (buildBTorus dims).dense := by
  unfold buildBTorus
  dsimp only
  split
  · show Graph.dense { (buildOPG.ids.foldl (fun d id => d.add_vertex id) Graph.mk0)
      with name := "BTorus[]" }
    unfold Graph.dense
    rfl
  · split
    · exact copyInto_mk0_dense (buildBRing_facts _).2.2.2
    · exact copyInto_mk0_dense (buildProductRing_dense_WF _ _).1

theorem build_dense (t : TopoSpec) : t.build.dense := by
  cases t with
  | uring n => exact (buildURing_facts n).2.2.2
  | bring n => exact (buildBRing_facts n).2.2.2
  | umesh n => exact (buildUMesh_facts n).2.2.2
  | bmesh n => exact (buildBMesh_facts n).2.2.2
  | opg => exact buildOPG_facts.2.2.2
  | bgrid ds => exact buildBGrid_dense ds
  | btorus ds => exact buildBTorus_dense ds

/-- C9: every generator output, before any mutation, has vertex ids that are exactly
`0, 1, …, num_vertices - 1` in the order of the `vertices` view, so generator graphs
satisfy `gproduct`'s dense-id precondition. -/
theorem claim_C9 (t : TopoSpec) (_ht : t.valid) :
    t.build.verticesView = (List.range t.build.numVertices).map Int.ofNat :=
  build_dense t

/-- Witness for C9 on `BGrid({2,3})` (six product-encoded vertices `0..5`). -/
theorem claim_C9_witness :
    (TopoSpec.build (.bgrid [2, 3])).verticesView
      = (List.range (TopoSpec.build (.bgrid [2, 3])).numVertices).map Int.ofNat :=
  claim_C9 (.bgrid [2, 3]) (by decide)

/-! ### Canonical dimension sequence basics -/

theorem canonicalDims_ne_nil (dims : List Nat) : canonicalDims dims ≠ [] := by
  unfold canonicalDims
  dsimp only
  split
  · simp
  · assumption

theorem canonicalDims_cases (dims : List Nat) :
    canonicalDims dims = [1] ∨
      ((canonicalDims dims).Perm (dims.filter (fun d => 1 < d)) ∧
        ∀ d ∈ canonicalDims dims, 1 < d) := by
  unfold canonicalDims
  dsimp only
  split
  · exact Or.inl rfl
  · refine Or.inr ⟨List.perm_insertionSort _ _, ?_⟩
    intro d hd
    have hmem : d ∈ dims.filter (fun d => 1 < d) :=
      (List.perm_insertionSort (fun a b : Nat => b ≤ a)
        (dims.filter (fun d => 1 < d))).mem_iff.mp hd
    have := List.mem_filter.mp hmem
    simpa using this.2

/-! ### Copy- and count-preservation -/

theorem sum_map_length_replicate (n : Nat) :
    ((List.replicate n ([] : List Nat)).map List.length).sum = 0 := by
  induction n with
  | zero => rfl
  | succ n ih => simp [List.replicate_succ, ih]

theorem numEdges_setName (g : Graph) (nm : String) :
    ({ g with name := nm } : Graph).numEdges = g.numEdges := rfl

theorem numVertices_setName (g : Graph) (nm : String) :
    ({ g with name := nm } : Graph).numVertices = g.numVertices := rfl

theorem copyInto_mk0_numVertices (src : Graph) :
    (copyInto Graph.mk0 src).numVertices = src.numVertices := by
  unfold Graph.numVertices
  rw [copyInto_mk0_ids]

theorem copyInto_mk0_numEdges {src : Graph} (hwf : src.WF) :
    (copyInto Graph.mk0 src).numEdges = src.numEdges := by
  unfold copyInto
  obtain ⟨hids, hadj, -⟩ := addVertexFold_spec Graph.mk0 src.ids
  have hVids : (src.ids.foldl (fun d id => d.add_vertex id) Graph.mk0).ids = src.ids := by
    rw [hids]; rfl
  have hVedges : (src.ids.foldl (fun d id => d.add_vertex id) Graph.mk0).numEdges = 0 := by
    unfold Graph.numEdges
    rw [hadj, List.map_append, List.sum_append, sum_map_length_replicate]
    rfl
  have := addEdges_numEdges (addVertexFold_mk0_WF src.ids) src.edgesView
    (by
      intro e he
      rw [hVids]
      exact edgesView_mem_ids hwf he)
  rw [this, hVedges, edgesView_length]
  omega

theorem mem_map_ofNat_range {k N : Nat} :
    Int.ofNat k ∈ (List.range N).map Int.ofNat ↔ k < N := by
  rw [List.mem_map]
  constructor
  · rintro ⟨j, hj, hk⟩
    rw [List.mem_range] at hj
    have : j = k := Int.ofNat_inj.mp hk
    omega
  · intro hk
    exact ⟨k, List.mem_range.mpr hk, rfl⟩

theorem buildBMesh_counts (N : Nat) :
    (buildBMesh N).numVertices = N ∧ (buildBMesh N).numEdges = 2 * (N - 1) := by
  have hids := (buildBMesh_facts N).1
  constructor
  · unfold Graph.numVertices
    rw [hids]
    simp
  · unfold buildBMesh
    split
    · obtain ⟨h1, h2, -⟩ := addVertexLoop_spec { Graph.mk0 with name := "BMesh" } N
      have hVids : (addVertexLoop { Graph.mk0 with name := "BMesh" } N).ids
          = (List.range N).map Int.ofNat := by rw [h1]; rfl
      have hwf := addVertexLoop_mk0_WF "BMesh" N
      have hVedges : (addVertexLoop { Graph.mk0 with name := "BMesh" } N).numEdges = 0 := by
        unfold Graph.numEdges
        rw [h2, List.map_append, List.sum_append, sum_map_length_replicate]
        rfl
      have hmem : ∀ e ∈ bmeshEdges N,
          e.1 ∈ (addVertexLoop { Graph.mk0 with name := "BMesh" } N).ids ∧
          e.2 ∈ (addVertexLoop { Graph.mk0 with name := "BMesh" } N).ids := by
        intro e he
        unfold bmeshEdges at he
        rcases List.mem_flatMap.mp he with ⟨i, hi, hmem2⟩
        rw [List.mem_range] at hi
        rw [hVids]
        simp only [List.mem_cons, List.not_mem_nil, or_false] at hmem2
        rcases hmem2 with h | h
        · subst h
          exact ⟨mem_map_ofNat_range.mpr (by omega), mem_map_ofNat_range.mpr (by omega)⟩
        · subst h
          exact ⟨mem_map_ofNat_range.mpr (by omega), mem_map_ofNat_range.mpr (by omega)⟩
      rw [addEdges_numEdges hwf (bmeshEdges N) hmem, hVedges]
      unfold bmeshEdges
      rw [List.length_flatMap]
      have : (List.map (List.length ∘ fun i =>
          [((Int.ofNat i : Int), Int.ofNat (i + 1)), (Int.ofNat (i + 1), Int.ofNat i)])
          (List.range (N - 1))) = (List.range (N - 1)).map (fun _ => 2) := by
        apply List.map_congr_left
        intro i _
        rfl
      rw [this, sum_map_const]
      simp [Nat.mul_comm]
    · have hN : N ≤ 1 := by omega
      obtain ⟨-, h2, -⟩ := addVertexLoop_spec { Graph.mk0 with name := "BMesh" } N
      unfold Graph.numEdges
      rw [h2, List.map_append, List.sum_append, sum_map_length_replicate]
      have hN1 : N - 1 = 0 := by omega
      rw [hN1]
      rfl

theorem buildProductMesh_counts (ds : List Nat) (k : Nat) :
    (buildProductMesh ds k).numVertices = (gridCounts ds k).1 ∧
      (buildProductMesh ds k).numEdges = (gridCounts ds k).2 := by
  induction k with
  | zero =>
    unfold buildProductMesh gridCounts
    rw [copyInto_mk0_numVertices, copyInto_mk0_numEdges (buildBMesh_facts _).2.2.1]
    exact ⟨(buildBMesh_counts _).1, (buildBMesh_counts _).2⟩
  | succ k ih =>
    unfold buildProductMesh gridCounts
    have hwfp := (buildProductMesh_dense_WF ds k).2
    have hwfm := (buildBMesh_facts (ds.getD (k + 1) 1)).2.2.1
    have hg := gproduct_counts (buildProductMesh ds k) (buildBMesh (ds.getD (k + 1) 1)) hwfp hwfm
    rw [copyInto_mk0_numVertices, copyInto_mk0_numEdges (gproduct_WF _ _), hg.1, hg.2,
      ih.1, ih.2, (buildBMesh_counts _).1, (buildBMesh_counts _).2]
    constructor
    · rfl
    · ring

theorem gridCounts_foldl (dims : List Nat) (k : Nat) (hk : k < dims.length) :
    ((dims.drop 1).take k).foldl
      (fun (p : Nat × Nat) d => (p.1 * d, p.1 * (2 * (d - 1)) + p.2 * d))
      (dims.getD 0 1, 2 * (dims.getD 0 1 - 1)) = gridCounts dims k := by
  induction k with
  | zero => rfl
  | succ k ih =>
    have hk' : k < dims.length := by omega
    have hdrop : k < (dims.drop 1).length := by
      rw [List.length_drop]
      omega
    have htake : (dims.drop 1).take (k + 1) = (dims.drop 1).take k ++ [(dims.drop 1)[k]] := by
      rw [List.take_succ, List.getElem?_eq_getElem hdrop]
      rfl
    rw [htake, List.foldl_append, ih hk']
    have hget : (dims.drop 1)[k] = dims.getD (k + 1) 1 := by
      rw [List.getD_eq_getElem _ _ (show k + 1 < dims.length by omega), List.getElem_drop]
      congr 1
      omega
    rw [hget]
    rfl

/-! ### Claim C6: stored grid edge count equals structural edge count -/

/-- C6: for every dimension list accepted by `BGrid`, the edge count computed
iteratively from the canonical sequence via `calculateGridEdges` equals the number of
edges structurally present in the materialized grid graph. -/
theorem claim_C6 (dims : List Nat) (_h : ∀ d ∈ dims, 0 < d) :
    calculateGridEdges (canonicalDims dims) = (buildBGrid dims).numEdges := by
  rcases canonicalDims_cases dims with hc | ⟨-, hall⟩
  · unfold buildBGrid
    dsimp only
    rw [hc]
    decide
  · have hne := canonicalDims_ne_nil dims
    unfold buildBGrid
    dsimp only
    rcases hcs : canonicalDims dims with - | ⟨d, rest⟩
    · exact absurd hcs hne
    rw [hcs] at hall
    rcases rest with - | ⟨d2, rest2⟩
    · have hd : 1 < d := hall d (by simp)
      rw [if_neg (by simp; omega), if_pos (show ([d] : List Nat).length = 1 from rfl)]
      rw [numEdges_setName, copyInto_mk0_numEdges (buildBMesh_facts _).2.2.1,
        (buildBMesh_counts _).2]
      unfold calculateGridEdges
      norm_num
    · rw [if_neg (by simp), if_neg (by simp)]
      rw [numEdges_setName, copyInto_mk0_numEdges (buildProductMesh_dense_WF _ _).2,
        (buildProductMesh_counts _ _).2]
      unfold calculateGridEdges
      rw [if_neg (by simp), if_neg (by simp)]
      have hlen : (d :: d2 :: rest2).length - 1 < (d :: d2 :: rest2).length := by simp
      have hfold := gridCounts_foldl (d :: d2 :: rest2) ((d :: d2 :: rest2).length - 1) hlen
      have hfull : ((d :: d2 :: rest2).drop 1).take ((d :: d2 :: rest2).length - 1)
          = (d :: d2 :: rest2).drop 1 := by
        apply List.take_of_length_le
        simp
      rw [hfull] at hfold
      exact congrArg Prod.snd hfold

/-- Witness for C6 on the spec's example `{3,1,5,1,2}` (canonical `[5,3,2]`,
118 edges). -/
theorem claim_C6_witness :
    calculateGridEdges (canonicalDims [3, 1, 5, 1, 2]) = (buildBGrid [3, 1, 5, 1, 2]).numEdges :=
  claim_C6 [3, 1, 5, 1, 2] (by decide)

/-! ### Claim C5: canonical dimension sequence -/

set_option maxRecDepth 40000 in
/-- C5: for every input sequence of positive integers the canonical dimension sequence
is the input with all entries equal to 1 removed, sorted descending (ties keep their
multiplicity), replaced by `[1]` when empty; consequently `BGrid({3,1,5,1,2})` has
canonical dimensions `[5,3,2]`, name `"BGrid[5,3,2]"`, 30 vertices and (closed-form)
diameter 7, and `BGrid({})` and `BGrid({1,1,1})` both yield a one-point graph whose
dimensions view is `[1]`. -/
theorem claim_C5 :
    (∀ dims : List Nat, (∀ d ∈ dims, 0 < d) →
      (dims.filter (fun d => d ≠ 1) = [] → canonicalDims dims = [1]) ∧
      (dims.filter (fun d => d ≠ 1) ≠ [] →
        (canonicalDims dims).Perm (dims.filter (fun d => d ≠ 1)) ∧
        List.Sorted (fun a b => b ≤ a) (canonicalDims dims))) ∧
    canonicalDims [3, 1, 5, 1, 2] = [5, 3, 2] ∧
    (buildBGrid [3, 1, 5, 1, 2]).name = "BGrid[5,3,2]" ∧
    (buildBGrid [3, 1, 5, 1, 2]).numVertices = 30 ∧
    TopoSpec.closedDiameter (.bgrid [3, 1, 5, 1, 2]) = 7 ∧
    (buildBGrid []).numVertices = 1 ∧ (buildBGrid []).numEdges = 0 ∧
    canonicalDims [] = [1] ∧
    (buildBGrid [1, 1, 1]).numVertices = 1 ∧ (buildBGrid [1, 1, 1]).numEdges = 0 ∧
    canonicalDims [1, 1, 1] = [1] := by
  refine ⟨?_, by decide, by decide, by decide, by decide, by decide, by decide,
    by decide, by decide, by decide, by decide⟩
  intro dims hpos
  have hfe : dims.filter (fun d => d ≠ 1) = dims.filter (fun d => 1 < d) := by
    apply List.filter_congr
    intro d hd
    have := hpos d hd
    simp only [decide_eq_decide, ne_eq]
    omega
  rw [hfe]
  have hperm := List.perm_insertionSort (fun a b : Nat => b ≤ a)
    (dims.filter (fun d => 1 < d))
  constructor
  · intro hnil
    unfold canonicalDims
    dsimp only
    rw [if_pos (by rw [hnil]; rfl)]
  · intro hne
    have hcne : canonicalDims dims
        = List.insertionSort (fun a b => b ≤ a) (dims.filter (fun d => 1 < d)) := by
      unfold canonicalDims
      dsimp only
      rw [if_neg]
      intro hms
      rw [hms] at hperm
      exact hne hperm.nil_eq.symm
    constructor
    · rw [hcne]
      exact hperm
    · rw [hcne]
      haveI : IsTotal Nat (fun a b => b ≤ a) := ⟨fun a b => le_total b a⟩
      haveI : IsTrans Nat (fun a b => b ≤ a) := ⟨fun a b c hab hbc => le_trans hbc hab⟩
      exact List.sorted_insertionSort (fun a b => b ≤ a) (dims.filter (fun d => 1 < d))

/-- Witness for C5's quantified part at `{3,1,5,1,2}`. -/
theorem claim_C5_witness :
    (canonicalDims [3, 1, 5, 1, 2]).Perm ([3, 1, 5, 1, 2].filter (fun d => d ≠ 1)) ∧
    List.Sorted (fun a b => b ≤ a) (canonicalDims [3, 1, 5, 1, 2]) :=
  (claim_C5.1 [3, 1, 5, 1, 2] (by decide)).2 (by decide)

/-! ### Claim C3: diameter result policy -/

theorem maxScan_neg_mem (dists : List Int) (m : Int) (h : (-1 : Int) ∈ dists) :
    maxScan dists m = none := by
  induction dists generalizing m with
  | nil => simp at h
  | cons x xs ih =>
    unfold maxScan
    by_cases hx : x = -1
    · rw [if_pos hx]
    · rw [if_neg hx]
      refine ih _ ?_
      rcases List.mem_cons.mp h with h' | h'
      · exact absurd h'.symm hx
      · exact h'

theorem maxScan_clean (dists : List Int) (m : Int) (h : (-1 : Int) ∉ dists) :
    maxScan dists m = some (dists.foldl max m) := by
  induction dists generalizing m with
  | nil => rfl
  | cons x xs ih =>
    unfold maxScan
    rw [if_neg (by intro hx; exact h (by rw [hx]; exact List.mem_cons_self _ _)),
      List.foldl_cons]
    exact ih _ (fun hmem => h (List.mem_cons_of_mem _ hmem))

theorem diamScan_clean (g : Graph) (l : List Nat) (m : Int)
    (h : ∀ s ∈ l, (-1 : Int) ∉ bfsFrom g s) :
    diamScan g l m = some ((l.flatMap (fun s => bfsFrom g s)).foldl max m) := by
  induction l generalizing m with
  | nil => rfl
  | cons x xs ih =>
    unfold diamScan
    rw [maxScan_clean _ _ (h x (List.mem_cons_self _ _)), List.flatMap_cons,
      List.foldl_append]
    exact ih _ (fun s hs => h s (List.mem_cons_of_mem _ hs))

theorem diamScan_bad (g : Graph) (l : List Nat) (m : Int)
    (h : ∃ s ∈ l, (-1 : Int) ∈ bfsFrom g s) :
    diamScan g l m = none := by
  induction l generalizing m with
  | nil => simp at h
  | cons x xs ih =>
    unfold diamScan
    by_cases hx : (-1 : Int) ∈ bfsFrom g x
    · rw [maxScan_neg_mem _ _ hx]
    · rw [maxScan_clean _ _ hx]
      refine ih _ ?_
      rcases h with ⟨s, hs, hmem⟩
      rcases List.mem_cons.mp hs with h' | h'
      · exact absurd (h' ▸ hmem) hx
      · exact ⟨s, h', hmem⟩

/-- C3: the diameter view returns `-1` on 0 vertices, `0` on exactly 1 vertex, `-1`
as soon as some BFS leaves a vertex unreached, and otherwise the maximum over all
sources of the maximum finite BFS distance; in particular a two-vertex graph with a
single directed edge has diameter `-1`. -/
theorem claim_C3 (g : Graph) :
    (g.numVertices = 0 → getDiameter_impl g = -1) ∧
    (g.numVertices = 1 → getDiameter_impl g = 0) ∧
    (2 ≤ g.numVertices → (∃ s < g.numVertices, (-1 : Int) ∈ bfsFrom g s) →
      getDiameter_impl g = -1) ∧
    (2 ≤ g.numVertices → (∀ s < g.numVertices, (-1 : Int) ∉ bfsFrom g s) →
      getDiameter_impl g
        = ((List.range g.numVertices).flatMap (fun s => bfsFrom g s)).foldl max 0) ∧
    getDiameter_impl (((Graph.mk0.add_vertex 0).add_vertex 1).add_edge 0 1) = -1 := by
  refine ⟨?_, ?_, ?_, ?_, by decide⟩
  · intro h0
    unfold getDiameter_impl
    rw [if_pos h0]
  · intro h1
    unfold getDiameter_impl
    rw [if_neg (by omega), if_pos h1]
  · intro h2 hbad
    unfold getDiameter_impl
    rw [if_neg (by omega), if_neg (by omega)]
    rcases hbad with ⟨s, hs, hmem⟩
    rw [diamScan_bad g _ 0 ⟨s, List.mem_range.mpr hs, hmem⟩]
  · intro h2 hclean
    unfold getDiameter_impl
    rw [if_neg (by omega), if_neg (by omega)]
    rw [diamScan_clean g _ 0 (fun s hs => hclean s (List.mem_range.mp hs))]

/-- Witness for C3's hypotheses: `BRing(3)` is strongly connected (clean BFS), and
`UMesh(2)` has an unreached vertex from source 1. -/
theorem claim_C3_witness :
    getDiameter_impl (buildBRing 3)
      = ((List.range (buildBRing 3).numVertices).flatMap
          (fun s => bfsFrom (buildBRing 3) s)).foldl max 0 ∧
    getDiameter_impl (buildUMesh 2) = -1 ∧
    getDiameter_impl (buildURing 1) = 0 ∧
    getDiameter_impl Graph.mk0 = -1 := by
  refine ⟨(claim_C3 (buildBRing 3)).2.2.2.1 (by decide) (by decide),
    (claim_C3 (buildUMesh 2)).2.2.1 (by decide) ⟨1, by decide, by decide⟩,
    (claim_C3 (buildURing 1)).2.1 (by decide),
    (claim_C3 Graph.mk0).1 (by decide)⟩

/-! ### Path and distance basics -/

theorem hasPath_append (adj : List (List Nat)) {s u v : Nat} {k1 k2 : Nat}
    (h1 : hasPath adj s k1 u) (h2 : hasPath adj u k2 v) :
    hasPath adj s (k1 + k2) v := by
  induction k1 generalizing s with
  | zero => cases h1; simpa using h2
  | succ k ih =>
    rcases h1 with ⟨w, hw, hp⟩
    have : k + 1 + k2 = (k + k2) + 1 := by omega
    rw [this]
    exact ⟨w, hw, ih hp⟩

theorem hasPath_succ_iff (adj : List (List Nat)) {s v : Nat} {k : Nat} :
    hasPath adj s (k + 1) v ↔ ∃ u, hasPath adj s k u ∧ v ∈ adj.getD u [] := by
  induction k generalizing s with
  | zero =>
    constructor
    · rintro ⟨w, hw, hp⟩
      cases hp
      exact ⟨s, rfl, hw⟩
    · rintro ⟨u, hu, hv⟩
      cases hu
      exact ⟨v, hv, rfl⟩
  | succ k ih =>
    constructor
    · rintro ⟨w, hw, hp⟩
      rcases ih.mp hp with ⟨u, hu, hv⟩
      exact ⟨u, ⟨w, hw, hu⟩, hv⟩
    · rintro ⟨u, ⟨w, hw, hu⟩, hv⟩
      exact ⟨w, hw, ih.mpr ⟨u, hu, hv⟩⟩

theorem hasPath_symm (adj : List (List Nat))
    (hsym : ∀ a b, b ∈ adj.getD a [] → a ∈ adj.getD b []) {s v : Nat} {k : Nat}
    (h : hasPath adj s k v) : hasPath adj v k s := by
  induction k generalizing v with
  | zero => cases h; rfl
  | succ k ih =>
    rcases hasPath_succ_iff adj |>.mp h with ⟨u, hu, hv⟩
    exact ⟨u, hsym u v hv, ih hu⟩

theorem isShortest_unique {adj : List (List Nat)} {s v : Nat} {k k' : Nat}
    (h : isShortest adj s v k) (h' : isShortest adj s v k') : k = k' :=
  Nat.le_antisymm (h.2 k' h'.1) (h'.2 k h.1)

theorem isShortest_self (adj : List (List Nat)) (v : Nat) : isShortest adj v v 0 :=
  ⟨rfl, fun j _ => Nat.zero_le j⟩

theorem reach_isShortest {adj : List (List Nat)} {s v : Nat} (h : reach adj s v) :
    ∃ k, isShortest adj s v k :=
  ⟨Nat.find h, Nat.find_spec h, fun _ hj => Nat.find_min' h hj⟩

theorem isShortest_le_succ_of_edge {adj : List (List Nat)} {s u v : Nat} {ku kv : Nat}
    (hu : isShortest adj s u ku) (hv : isShortest adj s v kv)
    (he : v ∈ adj.getD u []) : kv ≤ ku + 1 :=
  hv.2 (ku + 1) (hasPath_succ_iff adj |>.mpr ⟨u, hu.1, he⟩)

/-! ### set/getD helpers -/

theorem getD_set_self (l : List Int) (i : Nat) (x : Int) (h : i < l.length) :
    (l.set i x).getD i 0 = x := by
  rw [List.getD_eq_getElem?_getD, List.getElem?_set]
  simp [h]

theorem getD_set_other (l : List Int) {i j : Nat} (x : Int) (h : i ≠ j) :
    (l.set i x).getD j 0 = l.getD j 0 := by
  rw [List.getD_eq_getElem?_getD, List.getElem?_set, if_neg h, ← List.getD_eq_getElem?_getD]

theorem unvisCount_set (d : List Int) (w : Nat) (x : Int) (hw : w < d.length)
    (hold : d.getD w 0 = -1) (hnew : x ≠ -1) :
    unvisCount (d.set w x) + 1 = unvisCount d := by
  unfold unvisCount
  have hdw : d[w] = -1 := by
    rw [← hold, List.getD_eq_getElem _ _ hw]
  have hpos : 0 < d.countP (fun z => decide (z = -1)) := by
    rw [List.countP_pos_iff]
    exact ⟨-1, by rw [← hdw]; exact List.getElem_mem hw, by simp⟩
  rw [List.countP_set _ _ _ _ hw, hdw]
  simp [hnew]
  omega

theorem unvisCount_pos_of_neg {d : List Int} {w : Nat} (hw : w < d.length)
    (hval : d.getD w 0 = -1) : 0 < unvisCount d := by
  unfold unvisCount
  rw [List.countP_pos_iff]
  refine ⟨-1, ?_, by simp⟩
  rw [List.getD_eq_getElem _ _ hw] at hval
  rw [← hval]
  exact List.getElem_mem hw

/-! ### BFS inner loop specification -/

theorem ofNat_ne_negOne (k : Nat) : Int.ofNat k ≠ -1 := by
  intro h
  have h' : ((k : Nat) : Int) = -1 := h
  omega

theorem bfsStep_spec (n : Nat) (v : Nat) (lv : Nat)
    (ws : List Nat) (hws : ∀ w ∈ ws, w < n) :
    ∀ (d : List Int) (q : List Nat), d.length = n → d.getD v 0 = Int.ofNat lv →
      ((ws.foldl (fun (p : List Int × List Nat) w =>
          if p.1.getD w 0 = -1 then (p.1.set w (p.1.getD v 0 + 1), p.2 ++ [w]) else p)
          (d, q)).1.length = n ∧
       (∀ x : Nat, d.getD x 0 ≠ -1 →
          (ws.foldl (fun (p : List Int × List Nat) w =>
            if p.1.getD w 0 = -1 then (p.1.set w (p.1.getD v 0 + 1), p.2 ++ [w]) else p)
            (d, q)).1.getD x 0 = d.getD x 0) ∧
       (∀ x : Nat, d.getD x 0 = -1 → x ∉ ws →
          (ws.foldl (fun (p : List Int × List Nat) w =>
            if p.1.getD w 0 = -1 then (p.1.set w (p.1.getD v 0 + 1), p.2 ++ [w]) else p)
            (d, q)).1.getD x 0 = -1) ∧
       ∃ new : List Nat,
         (ws.foldl (fun (p : List Int × List Nat) w =>
            if p.1.getD w 0 = -1 then (p.1.set w (p.1.getD v 0 + 1), p.2 ++ [w]) else p)
            (d, q)).2 = q ++ new ∧
         new.Nodup ∧
         (∀ x ∈ new, d.getD x 0 = -1 ∧ x ∈ ws ∧ x < n ∧
            (ws.foldl (fun (p : List Int × List Nat) w =>
              if p.1.getD w 0 = -1 then (p.1.set w (p.1.getD v 0 + 1), p.2 ++ [w]) else p)
              (d, q)).1.getD x 0 = Int.ofNat (lv + 1)) ∧
         (∀ x : Nat, d.getD x 0 = -1 → x ∈ ws → x ∈ new) ∧
         unvisCount (ws.foldl (fun (p : List Int × List Nat) w =>
            if p.1.getD w 0 = -1 then (p.1.set w (p.1.getD v 0 + 1), p.2 ++ [w]) else p)
            (d, q)).1 + new.length = unvisCount d) := by
  induction ws with
  | nil =>
    intro d q hlen hdv
    refine ⟨hlen, fun x _ => rfl, fun x hx _ => hx, [], by simp, by simp, by simp,
      by simp, by simp⟩
  | cons w ws' ih =>
    intro d q hlen hdv
    have hwn : w < n := hws w (List.mem_cons_self _ _)
    have hws' : ∀ x ∈ ws', x < n := fun x hx => hws x (List.mem_cons_of_mem _ hx)
    rw [List.foldl_cons]
    by_cases hdw : d.getD w 0 = -1
    · have hvw : v ≠ w := by
        intro hvw
        rw [hvw, hdw] at hdv
        exact ofNat_ne_negOne lv hdv.symm
      have hstep : (if (d, q).1.getD w 0 = -1 then
          ((d, q).1.set w ((d, q).1.getD v 0 + 1), (d, q).2 ++ [w]) else (d, q))
          = (d.set w (Int.ofNat (lv + 1)), q ++ [w]) := by
        show (if d.getD w 0 = -1 then (d.set w (d.getD v 0 + 1), q ++ [w]) else (d, q)) = _
        rw [if_pos hdw, hdv]
        rfl
      rw [hstep]
      have hlen1 : (d.set w (Int.ofNat (lv + 1))).length = n := by
        rw [List.length_set]; exact hlen
      have hdv1 : (d.set w (Int.ofNat (lv + 1))).getD v 0 = Int.ofNat lv := by
        rw [getD_set_other _ _ (Ne.symm hvw)]
        exact hdv
      obtain ⟨c1, c2, c3, new', cq, cnodup, cmem, ccomp, ccount⟩ :=
        ih hws' (d.set w (Int.ofNat (lv + 1))) (q ++ [w]) hlen1 hdv1
      have hd1w : (d.set w (Int.ofNat (lv + 1))).getD w 0 = Int.ofNat (lv + 1) := by
        rw [getD_set_self]
        rw [hlen]; exact hwn
      refine ⟨c1, ?_, ?_, w :: new', ?_, ?_, ?_, ?_, ?_⟩
      · intro x hx
        have hxw : x ≠ w := by
          intro hxw; rw [hxw, hdw] at hx; exact hx rfl
        have : (d.set w (Int.ofNat (lv + 1))).getD x 0 = d.getD x 0 :=
          getD_set_other _ _ (fun h => hxw h.symm)
        rw [c2 x (by rw [this]; exact hx), this]
      · intro x hx hxmem
        have hxw : x ≠ w := fun h => hxmem (h ▸ List.mem_cons_self _ _)
        have hset : (d.set w (Int.ofNat (lv + 1))).getD x 0 = d.getD x 0 :=
          getD_set_other _ _ (fun h => hxw h.symm)
        rw [c3 x (by rw [hset]; exact hx) (fun h => hxmem (List.mem_cons_of_mem _ h))]
      · rw [cq, List.append_assoc]
        rfl
      · refine List.Nodup.cons ?_ cnodup
        intro hwnew
        have := (cmem w hwnew).1
        rw [hd1w] at this
        exact ofNat_ne_negOne (lv + 1) this
      · intro x hx
        rcases List.mem_cons.mp hx with hx' | hx'
        · subst hx'
          refine ⟨hdw, List.mem_cons_self _ _, hwn, ?_⟩
          rw [c2 x (by rw [hd1w]; exact ofNat_ne_negOne (lv + 1)), hd1w]
        · obtain ⟨m1, m2, m3, m4⟩ := cmem x hx'
          have hxw : x ≠ w := by
            intro hxw
            rw [hxw, hd1w] at m1
            exact ofNat_ne_negOne (lv + 1) m1
          refine ⟨?_, List.mem_cons_of_mem _ m2, m3, m4⟩
          rw [← getD_set_other (i := w) (j := x) d (Int.ofNat (lv + 1)) (fun h => hxw h.symm)]
          exact m1
      · intro x hx hxmem
        rcases List.mem_cons.mp hxmem with hx' | hx'
        · subst hx'
          exact List.mem_cons_self _ _
        · by_cases hxw : x = w
          · subst hxw
            exact List.mem_cons_self _ _
          · refine List.mem_cons_of_mem _ (ccomp x ?_ hx')
            rw [getD_set_other _ _ (fun h => hxw h.symm)]
            exact hx
      · have hcnt : unvisCount (d.set w (Int.ofNat (lv + 1))) + 1 = unvisCount d :=
          unvisCount_set d w _ (by rw [hlen]; exact hwn) hdw (ofNat_ne_negOne (lv + 1))
        simp only [List.length_cons]
        omega
    · have hstep : (if (d, q).1.getD w 0 = -1 then
          ((d, q).1.set w ((d, q).1.getD v 0 + 1), (d, q).2 ++ [w]) else (d, q)) = (d, q) := by
        show (if d.getD w 0 = -1 then (d.set w (d.getD v 0 + 1), q ++ [w]) else (d, q)) = _
        rw [if_neg hdw]
      rw [hstep]
      obtain ⟨c1, c2, c3, new', cq, cnodup, cmem, ccomp, ccount⟩ := ih hws' d q hlen hdv
      refine ⟨c1, c2, ?_, new', cq, cnodup, ?_, ?_, ccount⟩
      · intro x hx hxmem
        exact c3 x hx (fun h => hxmem (List.mem_cons_of_mem _ h))
      · intro x hx
        obtain ⟨m1, m2, m3, m4⟩ := cmem x hx
        exact ⟨m1, List.mem_cons_of_mem _ m2, m3, m4⟩
      · intro x hx hxmem
        rcases List.mem_cons.mp hxmem with hx' | hx'
        · exact absurd (hx' ▸ hx) hdw
        · exact ccomp x hx hx'

/-! ### BFS main loop invariant -/

theorem bfs_final_extract (adj : List (List Nat)) (n : Nat) (s : Nat)
    (hadj : adj.length = n) (d : List Int)
    (hlab : ∀ x, x < n →
      d.getD x 0 = -1 ∨ ∃ k, d.getD x 0 = Int.ofNat k ∧ isShortest adj s x k)
    (hclosed : ∀ u, u < n → d.getD u 0 ≠ -1 → ∀ w ∈ adj.getD u [], d.getD w 0 ≠ -1)
    (hsrc : d.getD s 0 ≠ -1) :
    ∀ x, x < n →
      (d.getD x 0 = -1 → ¬ reach adj s x) ∧
      (∀ k, isShortest adj s x k → d.getD x 0 = Int.ofNat k) := by
  have hreach : ∀ k x, hasPath adj s k x → d.getD x 0 ≠ -1 := by
    intro k
    induction k with
    | zero =>
      intro x hx
      cases hx
      exact hsrc
    | succ k ih =>
      intro x hx
      rcases (hasPath_succ_iff adj).mp hx with ⟨u, hu, hmem⟩
      have hun : u < n := by
        by_contra hge
        rw [List.getD_eq_getElem?_getD, List.getElem?_eq_none (by rw [hadj]; omega)] at hmem
        simp at hmem
      exact hclosed u hun (ih u hu) x hmem
  intro x hxn
  constructor
  · intro hneg hr
    rcases hr with ⟨k, hk⟩
    exact hreach k x hk hneg
  · intro k hk
    have hlabx : d.getD x 0 ≠ -1 := hreach k x hk.1
    rcases hlab x hxn with hneg | ⟨k', hk', hshort'⟩
    · exact absurd hneg hlabx
    · rw [hk']
      rw [isShortest_unique hk hshort']

theorem bfsLoop_post (adj : List (List Nat)) (n : Nat) (s : Nat)
    (hadj : adj.length = n) (hWF : ∀ row ∈ adj, ∀ w ∈ row, w < n) :
    ∀ (fuel : Nat) (d : List Int) (q : List Nat) (l : Nat),
    d.length = n →
    (∀ x, x < n →
      d.getD x 0 = -1 ∨ ∃ k, d.getD x 0 = Int.ofNat k ∧ isShortest adj s x k) →
    (∀ x ∈ q, x < n) →
    q.Nodup →
    (∃ qa qb, q = qa ++ qb ∧ (∀ x ∈ qa, d.getD x 0 = Int.ofNat l) ∧
      (∀ x ∈ qb, d.getD x 0 = Int.ofNat (l + 1))) →
    (∀ u k, u < n → isShortest adj s u k → k ≤ l → d.getD u 0 ≠ -1) →
    (∀ u, u < n → d.getD u 0 ≠ -1 → u ∉ q → ∀ w ∈ adj.getD u [], d.getD w 0 ≠ -1) →
    d.getD s 0 ≠ -1 →
    q.length + unvisCount d ≤ fuel →
    ((bfsLoop adj fuel d q).length = n ∧
     ∀ x, x < n →
       ((bfsLoop adj fuel d q).getD x 0 = -1 → ¬ reach adj s x) ∧
       (∀ k, isShortest adj s x k → (bfsLoop adj fuel d q).getD x 0 = Int.ofNat k)) := by
  intro fuel
  induction fuel with
  | zero =>
    intro d q l hlen hlab hqn hnd hsplit hcomp hclosed hsrc hfuel
    have hq : q = [] := List.eq_nil_of_length_eq_zero (by omega)
    subst hq
    have hunvis : unvisCount d = 0 := by simpa using hfuel
    have hall : ∀ x, x < n → d.getD x 0 ≠ -1 := by
      intro x hx hneg
      have := unvisCount_pos_of_neg (by rw [hlen]; exact hx) hneg
      omega
    refine ⟨hlen, ?_⟩
    exact bfs_final_extract adj n s hadj d hlab
      (fun u hu hl => hclosed u hu hl (by simp)) hsrc
  | succ fuel ih =>
    intro d q l hlen hlab hqn hnd hsplit hcomp hclosed hsrc hfuel
    cases q with
    | nil =>
      refine ⟨hlen, ?_⟩
      exact bfs_final_extract adj n s hadj d hlab
        (fun u hu hl => hclosed u hu hl (by simp)) hsrc
    | cons v q' =>
      have hvn : v < n := hqn v (List.mem_cons_self _ _)
      have hrow : adj.getD v [] ∈ adj := by
        rw [List.getD_eq_getElem _ _ (by rw [hadj]; exact hvn)]
        exact List.getElem_mem _
      have hws : ∀ w ∈ adj.getD v [], w < n := fun w hw => hWF _ hrow w hw
      obtain ⟨qa, qb, heq, hqa, hqb⟩ := hsplit
      have hmain : ∃ lv, d.getD v 0 = Int.ofNat lv ∧
          (∀ u k, u < n → isShortest adj s u k → k ≤ lv → d.getD u 0 ≠ -1) ∧
          (∃ qa2 qb2, q' = qa2 ++ qb2 ∧ (∀ x ∈ qa2, d.getD x 0 = Int.ofNat lv) ∧
            (∀ x ∈ qb2, d.getD x 0 = Int.ofNat (lv + 1))) := by
        cases qa with
        | cons va qa' =>
          have hva : va = v := by
            have := congrArg (fun t => t.headD 0) heq
            simpa using this.symm
          subst hva
          have hq' : q' = qa' ++ qb := by
            have := congrArg List.tail heq
            simpa using this
          exact ⟨l, hqa va (List.mem_cons_self _ _), hcomp,
            qa', qb, hq', fun x hx => hqa x (List.mem_cons_of_mem _ hx), hqb⟩
        | nil =>
          have hqb' : qb = v :: q' := by simpa using heq.symm
          have hdv : d.getD v 0 = Int.ofNat (l + 1) :=
            hqb v (by rw [hqb']; exact List.mem_cons_self _ _)
          refine ⟨l + 1, hdv, ?_, q', [], by simp, ?_, by simp⟩
          · intro u k hun hshort hk
            rcases Nat.lt_or_ge k (l + 1) with hlt | hge
            · exact hcomp u k hun hshort (by omega)
            · have hkeq : k = l + 1 := by omega
              subst hkeq
              rcases (hasPath_succ_iff adj).mp hshort.1 with ⟨u', hu', hmem⟩
              have hu'n : u' < n := by
                by_contra hge'
                rw [List.getD_eq_getElem?_getD,
                  List.getElem?_eq_none (by rw [hadj]; omega)] at hmem
                simp at hmem
              obtain ⟨k', hk'short⟩ := reach_isShortest ⟨l, hu'⟩
              have hk'le : k' ≤ l := hk'short.2 l hu'
              have hu'lab : d.getD u' 0 ≠ -1 := hcomp u' k' hu'n hk'short hk'le
              have hu'notq : u' ∉ v :: q' := by
                intro hmemq
                have hlabq := hqb u' (by rw [hqb']; exact hmemq)
                rcases hlab u' hu'n with hneg | ⟨k'', hk'', hshort''⟩
                · exact hu'lab hneg
                · rw [hlabq] at hk''
                  have h1 : l + 1 = k'' := Int.ofNat_inj.mp hk''
                  have h2 : k' = k'' := isShortest_unique hk'short hshort''
                  omega
              exact hclosed u' hu'n hu'lab hu'notq u hmem
          · intro x hx
            exact hqb x (by rw [hqb']; exact List.mem_cons_of_mem _ hx)
      obtain ⟨lv, hdv, hcompL, qa2, qb2, hq', hqa2, hqb2⟩ := hmain
      obtain ⟨s1, s2, s3, new, sq, snodup, smem, scomp, scount⟩ :=
        bfsStep_spec n v lv (adj.getD v []) hws d q' hlen hdv
      have hvshort : isShortest adj s v lv := by
        rcases hlab v hvn with hneg | ⟨kv, hkv, hshortv⟩
        · rw [hdv] at hneg
          exact absurd hneg (ofNat_ne_negOne lv)
        · rw [hdv] at hkv
          rwa [Int.ofNat_inj.mp hkv]
      have hnewShort : ∀ x, x < n → d.getD x 0 = -1 → x ∈ adj.getD v [] →
          isShortest adj s x (lv + 1) := by
        intro x hxn hdx hxw
        constructor
        · exact (hasPath_succ_iff adj).mpr ⟨v, hvshort.1, hxw⟩
        · intro j hj
          by_contra hjlt
          obtain ⟨k2, hk2⟩ := reach_isShortest ⟨j, hj⟩
          have : k2 ≤ lv := by
            have := hk2.2 j hj
            omega
          exact hcompL x k2 hxn hk2 this hdx
      have hwsLab : ∀ x ∈ adj.getD v [],
          (List.foldl (fun (p : List Int × List Nat) w =>
            if p.1.getD w 0 = -1 then (p.1.set w (p.1.getD v 0 + 1), p.2 ++ [w]) else p)
            (d, q') (adj.getD v [])).1.getD x 0 ≠ -1 := by
        intro x hx
        by_cases hdx : d.getD x 0 = -1
        · rw [(smem x (scomp x hdx hx)).2.2.2]
          exact ofNat_ne_negOne _
        · rw [s2 x hdx]
          exact hdx
      have hred : bfsLoop adj (fuel + 1) d (v :: q')
          = bfsLoop adj fuel
            (List.foldl (fun (p : List Int × List Nat) w =>
              if p.1.getD w 0 = -1 then (p.1.set w (p.1.getD v 0 + 1), p.2 ++ [w]) else p)
              (d, q') (adj.getD v [])).1
            (List.foldl (fun (p : List Int × List Nat) w =>
              if p.1.getD w 0 = -1 then (p.1.set w (p.1.getD v 0 + 1), p.2 ++ [w]) else p)
              (d, q') (adj.getD v [])).2 := rfl
      rw [hred]
      apply ih _ _ lv s1
      · -- labels
        intro x hxn
        by_cases hdx : d.getD x 0 = -1
        · by_cases hxw : x ∈ adj.getD v []
          · refine Or.inr ⟨lv + 1, (smem x (scomp x hdx hxw)).2.2.2, ?_⟩
            exact hnewShort x hxn hdx hxw
          · exact Or.inl (s3 x hdx hxw)
        · rcases hlab x hxn with hneg | ⟨k, hk, hshort⟩
          · exact absurd hneg hdx
          · exact Or.inr ⟨k, by rw [s2 x hdx]; exact hk, hshort⟩
      · -- membership bound
        intro x hx
        rw [sq] at hx
        rcases List.mem_append.mp hx with hx' | hx'
        · exact hqn x (List.mem_cons_of_mem _ hx')
        · exact (smem x hx').2.2.1
      · -- Nodup
        rw [sq]
        refine List.Nodup.append (List.Nodup.of_cons hnd) snodup ?_
        intro a ha hanew
        have hlab' : d.getD a 0 ≠ -1 := by
          rw [hq'] at ha
          rcases List.mem_append.mp ha with ha' | ha'
          · rw [hqa2 a ha']; exact ofNat_ne_negOne lv
          · rw [hqb2 a ha']; exact ofNat_ne_negOne (lv + 1)
        exact hlab' (smem a hanew).1
      · -- split
        refine ⟨qa2, qb2 ++ new, by rw [sq, hq', List.append_assoc], ?_, ?_⟩
        · intro x hx
          have hlx := hqa2 x hx
          rw [s2 x (by rw [hlx]; exact ofNat_ne_negOne lv)]
          exact hlx
        · intro x hx
          rcases List.mem_append.mp hx with hx' | hx'
          · have hlx := hqb2 x hx'
            rw [s2 x (by rw [hlx]; exact ofNat_ne_negOne (lv + 1))]
            exact hlx
          · exact (smem x hx').2.2.2
      · -- completeness at lv
        intro u k hun hshort hk
        have := hcompL u k hun hshort hk
        rw [s2 u this]
        exact this
      · -- closed
        intro u hun hulab hunotq w hw
        by_cases huv : u = v
        · subst huv
          exact hwsLab w hw
        · have hduv : d.getD u 0 ≠ -1 := by
            by_cases hdu : d.getD u 0 = -1
            · by_cases huw : u ∈ adj.getD v []
              · exact absurd (List.mem_append_right q' (scomp u hdu huw)) (sq ▸ hunotq)
              · exact absurd (s3 u hdu huw) hulab
            · exact hdu
          have hunotq' : u ∉ v :: q' := by
            intro hmem
            rcases List.mem_cons.mp hmem with h' | h'
            · exact huv h'
            · exact hunotq (sq ▸ List.mem_append_left new h')
          have hwlab := hclosed u hun hduv hunotq' w hw
          rw [s2 w hwlab]
          exact hwlab
      · -- source
        rw [s2 s hsrc]
        exact hsrc
      · -- fuel
        have hlen2 : (List.foldl (fun (p : List Int × List Nat) w =>
            if p.1.getD w 0 = -1 then (p.1.set w (p.1.getD v 0 + 1), p.2 ++ [w]) else p)
            (d, q') (adj.getD v [])).2.length = q'.length + new.length := by
          rw [sq, List.length_append]
        rw [hlen2]
        have hflen : (v :: q').length + unvisCount d ≤ fuel + 1 := hfuel
        simp only [List.length_cons] at hflen
        omega

theorem countP_replicate_negOne (n : Nat) :
    (List.replicate n (-1 : Int)).countP (fun z => decide (z = -1)) = n := by
  induction n with
  | zero => rfl
  | succ n ih => simp [List.replicate_succ, ih]

theorem bfs_correct (g : Graph) (hwf : g.WF) (s : Nat) (hs : s < g.numVertices) :
    (bfsFrom g s).length = g.numVertices ∧
    ∀ x, x < g.numVertices →
      ((bfsFrom g s).getD x 0 = -1 → ¬ reach g.adj s x) ∧
      (∀ k, isShortest g.adj s x k → (bfsFrom g s).getD x 0 = Int.ofNat k) := by
  have hadj : g.adj.length = g.numVertices := hwf.1
  have hd0 : ∀ x, x < g.numVertices →
      ((List.replicate g.numVertices (-1 : Int)).set s 0).getD x 0
        = if x = s then 0 else -1 := by
    intro x hx
    by_cases hxs : x = s
    · subst hxs
      rw [if_pos rfl, getD_set_self]
      rw [List.length_replicate]
      exact hs
    · rw [if_neg hxs, getD_set_other _ _ (fun h => hxs h.symm),
        List.getD_eq_getElem?_getD, List.getElem?_replicate, if_pos hx]
      rfl
  have hcnt : unvisCount ((List.replicate g.numVertices (-1 : Int)).set s 0)
      = g.numVertices - 1 := by
    unfold unvisCount
    rw [List.countP_set _ _ _ _ (by rw [List.length_replicate]; exact hs)]
    simp [List.getElem_replicate, countP_replicate_negOne]
  exact bfsLoop_post g.adj g.numVertices s hadj hwf.2 g.numVertices
    ((List.replicate g.numVertices (-1 : Int)).set s 0) [s] 0
    (by rw [List.length_set, List.length_replicate])
    (by
      intro x hx
      rw [hd0 x hx]
      by_cases hxs : x = s
      · subst hxs
        rw [if_pos rfl]
        exact Or.inr ⟨0, rfl, isShortest_self _ _⟩
      · rw [if_neg hxs]
        exact Or.inl rfl)
    (by intro x hx; simp at hx; rw [hx]; exact hs)
    (by simp)
    ⟨[s], [], rfl, by
        intro x hx
        simp at hx
        rw [hx, hd0 s hs, if_pos rfl]
        rfl,
      by simp⟩
    (by
      intro u k hun hshort hk
      have hk0 : k = 0 := by omega
      subst hk0
      have hus : u = s := hshort.1.symm
      rw [hus, hd0 s hs, if_pos rfl]
      simp)
    (by
      intro u hun hulab hunotq
      exfalso
      by_cases hus : u = s
      · exact hunotq (hus ▸ List.mem_singleton.mpr rfl)
      · rw [hd0 u hun, if_neg hus] at hulab
        exact hulab rfl)
    (by rw [hd0 s hs, if_pos rfl]; simp)
    (by
      simp only [List.length_singleton]
      rw [hcnt]
      omega)

/-! ### Diameter from a total distance function -/

theorem le_foldl_max_init (L : List Int) (m : Int) : m ≤ L.foldl max m := by
  induction L generalizing m with
  | nil => exact le_refl m
  | cons x xs ih => exact le_trans (le_max_left m x) (ih (max m x))

theorem le_foldl_max_mem (L : List Int) (x : Int) (h : x ∈ L) :
    ∀ m, x ≤ L.foldl max m := by
  induction L with
  | nil => simp at h
  | cons y ys ih =>
    intro m
    rw [List.foldl_cons]
    rcases List.mem_cons.mp h with h' | h'
    · subst h'
      exact le_trans (le_max_right m x) (le_foldl_max_init ys _)
    · exact ih h' _

theorem foldl_max_le_int (L : List Int) (b : Int) (h : ∀ x ∈ L, x ≤ b) :
    ∀ m, m ≤ b → L.foldl max m ≤ b := by
  induction L with
  | nil => intro m hm; exact hm
  | cons x xs ih =>
    intro m hm
    rw [List.foldl_cons]
    exact ih (fun y hy => h y (List.mem_cons_of_mem _ hy)) _
      (max_le hm (h x (List.mem_cons_self _ _)))

theorem getDiameter_of_bounds (g : Graph) (hwf : g.WF) (D : Nat → Nat → Nat) (M : Nat)
    (hD : ∀ v w, v < g.numVertices → w < g.numVertices → isShortest g.adj v w (D v w))
    (hM : ∀ v w, v < g.numVertices → w < g.numVertices → D v w ≤ M)
    (hEx : ∃ v w, v < g.numVertices ∧ w < g.numVertices ∧ D v w = M)
    (hn : 1 ≤ g.numVertices) :
    getDiameter_impl g = Int.ofNat M := by
  by_cases h1 : g.numVertices = 1
  · unfold getDiameter_impl
    rw [if_neg (by omega), if_pos h1]
    obtain ⟨v, w, hv, hw, hM'⟩ := hEx
    have hv0 : v = 0 := by omega
    have hw0 : w = 0 := by omega
    subst hv0
    subst hw0
    have hD00 : D 0 0 = 0 :=
      isShortest_unique (hD 0 0 (by omega) (by omega)) (isShortest_self _ 0)
    rw [← hM', hD00]
    rfl
  · have h2 : 2 ≤ g.numVertices := by omega
    have hval : ∀ s x, s < g.numVertices → x < g.numVertices →
        (bfsFrom g s).getD x 0 = Int.ofNat (D s x) := by
      intro s x hs hx
      exact ((bfs_correct g hwf s hs).2 x hx).2 (D s x) (hD s x hs hx)
    have hlen : ∀ s, s < g.numVertices → (bfsFrom g s).length = g.numVertices :=
      fun s hs => (bfs_correct g hwf s hs).1
    have hclean : ∀ s, s < g.numVertices → (-1 : Int) ∉ bfsFrom g s := by
      intro s hs hmem
      rcases List.mem_iff_getElem?.mp hmem with ⟨i, hi⟩
      have hilen : i < (bfsFrom g s).length := by
        by_contra hge
        rw [List.getElem?_eq_none (by omega)] at hi
        exact Option.noConfusion hi
      have hin : i < g.numVertices := by rw [← hlen s hs]; exact hilen
      have : (bfsFrom g s).getD i 0 = -1 := by
        rw [List.getD_eq_getElem?_getD, hi]
        rfl
      rw [hval s i hs hin] at this
      exact ofNat_ne_negOne _ this
    unfold getDiameter_impl
    rw [if_neg (by omega), if_neg (by omega),
      diamScan_clean g _ 0 (fun s hs => hclean s (List.mem_range.mp hs))]
    show ((List.range g.numVertices).flatMap (fun s => bfsFrom g s)).foldl max 0
      = Int.ofNat M
    apply le_antisymm
    · refine foldl_max_le_int _ _ ?_ 0 (Int.ofNat_nonneg M)
      intro x hx
      rcases List.mem_flatMap.mp hx with ⟨s, hsr, hxs⟩
      have hs : s < g.numVertices := List.mem_range.mp hsr
      rcases List.mem_iff_getElem?.mp hxs with ⟨i, hi⟩
      have hilen : i < (bfsFrom g s).length := by
        by_contra hge
        rw [List.getElem?_eq_none (by omega)] at hi
        exact Option.noConfusion hi
      have hin : i < g.numVertices := by rw [← hlen s hs]; exact hilen
      have hxv : x = Int.ofNat (D s i) := by
        rw [← hval s i hs hin, List.getD_eq_getElem?_getD, hi]
        rfl
      rw [hxv]
      exact Int.ofNat_le.mpr (hM s i hs hin)
    · obtain ⟨v, w, hv, hw, hMeq⟩ := hEx
      have hwlen : w < (bfsFrom g v).length := by rw [hlen v hv]; exact hw
      have hentry : (bfsFrom g v).getD w 0 = Int.ofNat M := by
        rw [hval v w hv hw, hMeq]
      have hmem : Int.ofNat M
          ∈ (List.range g.numVertices).flatMap (fun s => bfsFrom g s) := by
        rw [List.mem_flatMap]
        refine ⟨v, List.mem_range.mpr hv, ?_⟩
        rw [← hentry, List.getD_eq_getElem _ _ hwlen]
        exact List.getElem_mem hwlen
      exact le_foldl_max_mem _ _ hmem 0

/-! ### Adjacency characterization of the generators -/

theorem getD_set_self_gen {α : Type} (l : List α) (i : Nat) (x dflt : α)
    (h : i < l.length) : (l.set i x).getD i dflt = x := by
  rw [List.getD_eq_getElem?_getD, List.getElem?_set]
  simp [h]

theorem getD_set_other_gen {α : Type} (l : List α) {i j : Nat} (x dflt : α)
    (h : i ≠ j) : (l.set i x).getD j dflt = l.getD j dflt := by
  rw [List.getD_eq_getElem?_getD, List.getElem?_set, if_neg h, ← List.getD_eq_getElem?_getD]

theorem getD_replicate_nil (n v : Nat) :
    (List.replicate n ([] : List Nat)).getD v [] = [] := by
  rw [List.getD_eq_getElem?_getD, List.getElem?_replicate]
  by_cases hv : v < n
  · rw [if_pos hv]
    rfl
  · rw [if_neg hv]
    rfl

theorem add_edge_dense {g : Graph} (hd : g.dense) (i j : Int) :
    (g.add_edge i j).dense := by
  unfold Graph.dense
  rw [add_edge_ids]
  exact hd

theorem add_edge_adj_mem_dense {g : Graph} (hwf : g.WF) (hd : g.dense)
    {a b : Nat} (ha : a < g.numVertices) (hb : b < g.numVertices) (v w : Nat) :
    w ∈ (g.add_edge (Int.ofNat a) (Int.ofNat b)).adj.getD v [] ↔
      w ∈ g.adj.getD v [] ∨ (v = a ∧ w = b) := by
  have hfa := findVertex_dense hd (k := a) ha
  have hfb := findVertex_dense hd (k := b) hb
  rw [add_edge_found _ _ _ _ _ hfa hfb]
  by_cases hva : v = a
  · subst hva
    have hvlt : v < g.adj.length := by rw [hwf.1]; exact ha
    show w ∈ (g.adj.set v (g.adj.getD v [] ++ [b])).getD v [] ↔ _
    rw [getD_set_self_gen _ _ _ _ hvlt]
    simp
  · show w ∈ (g.adj.set a (g.adj.getD a [] ++ [b])).getD v [] ↔ _
    rw [getD_set_other_gen _ _ _ (fun h => hva h.symm)]
    simp [hva]

theorem addEdges_adj_mem {g : Graph} (hwf : g.WF) (hd : g.dense)
    (L : List (Int × Int))
    (hL : ∀ e ∈ L, ∃ a b : Nat, a < g.numVertices ∧ b < g.numVertices ∧
      e = (Int.ofNat a, Int.ofNat b)) :
    ∀ v w : Nat, w ∈ (addEdges g L).adj.getD v [] ↔
      w ∈ g.adj.getD v [] ∨ (Int.ofNat v, Int.ofNat w) ∈ L := by
  induction L generalizing g with
  | nil => intro v w; simp [addEdges]
  | cons e es ih =>
    intro v w
    obtain ⟨a, b, ha, hb, hab⟩ := hL e (List.mem_cons_self _ _)
    subst hab
    unfold addEdges
    rw [List.foldl_cons]
    have hwf' := add_edge_WF hwf (Int.ofNat a) (Int.ofNat b)
    have hd' := add_edge_dense hd (Int.ofNat a) (Int.ofNat b)
    have hn' : (g.add_edge (Int.ofNat a) (Int.ofNat b)).numVertices = g.numVertices :=
      numVertices_add_edge g _ _
    have := ih hwf' hd'
      (by
        intro e' he'
        obtain ⟨a', b', ha', hb', he''⟩ := hL e' (List.mem_cons_of_mem _ he')
        exact ⟨a', b', by rw [hn']; exact ha', by rw [hn']; exact hb', he''⟩) v w
    unfold addEdges at this
    rw [this, add_edge_adj_mem_dense hwf hd ha hb v w]
    constructor
    · rintro ((h | h) | h)
      · exact Or.inl h
      · exact Or.inr (by rw [h.1, h.2]; exact List.mem_cons_self _ _)
      · exact Or.inr (List.mem_cons_of_mem _ h)
    · rintro (h | h)
      · exact Or.inl (Or.inl h)
      · rcases List.mem_cons.mp h with h' | h'
        · have h1 : Int.ofNat v = Int.ofNat a := congrArg Prod.fst h'
          have h2 : Int.ofNat w = Int.ofNat b := congrArg Prod.snd h'
          exact Or.inl (Or.inr ⟨Int.ofNat_inj.mp h1, Int.ofNat_inj.mp h2⟩)
        · exact Or.inr h'

theorem sizedBase_adj (nm : String) (N v : Nat) :
    (addVertexLoop { Graph.mk0 with name := nm } N).adj.getD v [] = [] := by
  obtain ⟨-, h2, -⟩ := addVertexLoop_spec { Graph.mk0 with name := nm } N
  rw [h2]
  show (List.replicate N ([] : List Nat)).getD v [] = []
  exact getD_replicate_nil N v

theorem sizedBase_numVertices (nm : String) (N : Nat) :
    (addVertexLoop { Graph.mk0 with name := nm } N).numVertices = N := by
  obtain ⟨h1, -, -⟩ := addVertexLoop_spec { Graph.mk0 with name := nm } N
  unfold Graph.numVertices
  rw [h1]
  simp [Graph.mk0]

theorem mem_bmeshEdges (N v w : Nat) :
    (Int.ofNat v, Int.ofNat w) ∈ bmeshEdges N ↔
      ((w = v + 1 ∧ v < N - 1) ∨ (v = w + 1 ∧ w < N - 1)) := by
  unfold bmeshEdges
  rw [List.mem_flatMap]
  constructor
  · rintro ⟨i, hi, hmem⟩
    rw [List.mem_range] at hi
    simp only [List.mem_cons, List.not_mem_nil, or_false] at hmem
    rcases hmem with h | h
    · have h1 : Int.ofNat v = Int.ofNat i := congrArg Prod.fst h
      have h2 : Int.ofNat w = Int.ofNat (i + 1) := congrArg Prod.snd h
      have hv := Int.ofNat_inj.mp h1
      have hw := Int.ofNat_inj.mp h2
      exact Or.inl ⟨by omega, by omega⟩
    · have h1 : Int.ofNat v = Int.ofNat (i + 1) := congrArg Prod.fst h
      have h2 : Int.ofNat w = Int.ofNat i := congrArg Prod.snd h
      have hv := Int.ofNat_inj.mp h1
      have hw := Int.ofNat_inj.mp h2
      exact Or.inr ⟨by omega, by omega⟩
  · rintro (⟨h1, h2⟩ | ⟨h1, h2⟩)
    · exact ⟨v, List.mem_range.mpr h2, by rw [h1]; simp⟩
    · exact ⟨w, List.mem_range.mpr h2, by rw [h1]; simp⟩

theorem mem_bringEdges (N v w : Nat) (hv : v < N) (hw : w < N) :
    (Int.ofNat v, Int.ofNat w) ∈ bringEdges N ↔
      (w = (v + 1) % N ∨ v = (w + 1) % N) := by
  unfold bringEdges
  rw [List.mem_flatMap]
  constructor
  · rintro ⟨i, hi, hmem⟩
    simp only [List.mem_cons, List.not_mem_nil, or_false] at hmem
    rcases hmem with h | h
    · have h1 := Int.ofNat_inj.mp (congrArg Prod.fst h)
      have h2 := Int.ofNat_inj.mp (congrArg Prod.snd h)
      exact Or.inl (by rw [h2, h1])
    · have h1 := Int.ofNat_inj.mp (congrArg Prod.fst h)
      have h2 := Int.ofNat_inj.mp (congrArg Prod.snd h)
      exact Or.inr (by rw [h1, h2])
  · rintro (h | h)
    · exact ⟨v, List.mem_range.mpr hv, by rw [h]; simp⟩
    · exact ⟨w, List.mem_range.mpr hw, by rw [h]; simp⟩

theorem buildBMesh_adj (N : Nat) (v w : Nat) :
    w ∈ (buildBMesh N).adj.getD v [] ↔
      ((w = v + 1 ∧ v < N - 1) ∨ (v = w + 1 ∧ w < N - 1)) := by
  unfold buildBMesh
  dsimp only
  split
  · rw [addEdges_adj_mem (addVertexLoop_mk0_WF "BMesh" N) (addVertexLoop_mk0_dense "BMesh" N)
      (bmeshEdges N)
      (by
        intro e he
        unfold bmeshEdges at he
        rcases List.mem_flatMap.mp he with ⟨i, hi, hmem⟩
        rw [List.mem_range] at hi
        simp only [List.mem_cons, List.not_mem_nil, or_false] at hmem
        rw [sizedBase_numVertices]
        rcases hmem with h | h
        · exact ⟨i, i + 1, by omega, by omega, h⟩
        · exact ⟨i + 1, i, by omega, by omega, h⟩) v w]
    rw [sizedBase_adj, mem_bmeshEdges]
    simp
  · rw [sizedBase_adj]
    constructor
    · intro h
      simp at h
    · intro h
      rcases h with ⟨-, h2⟩ | ⟨-, h2⟩ <;> omega

theorem buildBRing_adj (N : Nat) (hN : 2 ≤ N) (v w : Nat) (hv : v < N) (hw : w < N) :
    w ∈ (buildBRing N).adj.getD v [] ↔ (w = (v + 1) % N ∨ v = (w + 1) % N) := by
  unfold buildBRing
  dsimp only
  rw [if_pos (by omega)]
  rw [addEdges_adj_mem (addVertexLoop_mk0_WF "BRing" N) (addVertexLoop_mk0_dense "BRing" N)
    (bringEdges N)
    (by
      intro e he
      unfold bringEdges at he
      rcases List.mem_flatMap.mp he with ⟨i, hi, hmem⟩
      rw [List.mem_range] at hi
      simp only [List.mem_cons, List.not_mem_nil, or_false] at hmem
      rw [sizedBase_numVertices]
      rcases hmem with h | h
      · exact ⟨i, (i + 1) % N, by omega, Nat.mod_lt _ (by omega), h⟩
      · exact ⟨(i + 1) % N, i, Nat.mod_lt _ (by omega), by omega, h⟩) v w]
  rw [sizedBase_adj, mem_bringEdges N v w hv hw]
  simp

/-! ### Generic adjacency-row helpers -/

theorem adj_getD_out (g : Graph) (v : Nat) (h : g.adj.length ≤ v) :
    g.adj.getD v [] = [] := by
  rw [List.getD_eq_getElem?_getD, List.getElem?_eq_none h]
  rfl

theorem adj_row_mem_lt {g : Graph} (hwf : g.WF) {v w : Nat}
    (h : w ∈ g.adj.getD v []) : w < g.numVertices := by
  by_cases hv : v < g.adj.length
  · have hrow : g.adj.getD v [] ∈ g.adj := by
      rw [List.getD_eq_getElem _ _ hv]
      exact List.getElem_mem hv
    exact hwf.2 _ hrow w h
  · rw [adj_getD_out g v (by omega)] at h
    simp at h

theorem buildBRing_numVertices (N : Nat) : (buildBRing N).numVertices = N := by
  unfold Graph.numVertices
  rw [(buildBRing_facts N).1]
  simp

theorem buildBMesh_numVertices (N : Nat) : (buildBMesh N).numVertices = N := by
  unfold Graph.numVertices
  rw [(buildBMesh_facts N).1]
  simp

/-! ### Shortest distances on bidirectional meshes -/

theorem mesh_hasPath_up (N : Nat) :
    ∀ k v, v + k < N → hasPath (buildBMesh N).adj v k (v + k) := by
  intro k
  induction k with
  | zero => intro v _; exact rfl
  | succ k ih =>
    intro v h
    refine ⟨v + 1, ?_, ?_⟩
    · rw [buildBMesh_adj]
      exact Or.inl ⟨rfl, by omega⟩
    · have h2 := ih (v + 1) (by omega)
      rwa [show v + 1 + k = v + (k + 1) by omega] at h2

theorem mesh_hasPath_down (N : Nat) :
    ∀ k v, v + k < N → hasPath (buildBMesh N).adj (v + k) k v := by
  intro k
  induction k with
  | zero => intro v _; exact rfl
  | succ k ih =>
    intro v h
    refine ⟨v + k, ?_, ?_⟩
    · rw [buildBMesh_adj]
      exact Or.inr ⟨by omega, by omega⟩
    · exact ih v (by omega)

theorem mesh_dist_lower (N : Nat) :
    ∀ j v w, hasPath (buildBMesh N).adj v j w → Nat.dist v w ≤ j := by
  intro j
  induction j with
  | zero =>
    intro v w h
    have h' : v = w := h
    subst h'
    simp [Nat.dist_self]
  | succ j ih =>
    intro v w h
    rcases h with ⟨u, hu, hp⟩
    rw [buildBMesh_adj] at hu
    have hle := ih u w hp
    rcases hu with ⟨h1, -⟩ | ⟨h1, -⟩
    · subst h1
      simp only [Nat.dist] at hle ⊢
      omega
    · subst h1
      simp only [Nat.dist] at hle ⊢
      omega

theorem mesh_isShortest (N v w : Nat) (hv : v < N) (hw : w < N) :
    isShortest (buildBMesh N).adj v w (Nat.dist v w) := by
  constructor
  · rcases le_total v w with h | h
    · have hp := mesh_hasPath_up N (w - v) v (by omega)
      rw [show v + (w - v) = w by omega] at hp
      rwa [show Nat.dist v w = w - v by simp only [Nat.dist]; omega]
    · have hp := mesh_hasPath_down N (v - w) w (by omega)
      rw [show w + (v - w) = v by omega] at hp
      rwa [show Nat.dist v w = v - w by simp only [Nat.dist]; omega]
  · intro j hj
    exact mesh_dist_lower N j v w hj

theorem mesh_dist_le (N v w : Nat) (hv : v < N) (hw : w < N) :
    Nat.dist v w ≤ N - 1 := by
  simp only [Nat.dist]
  omega

theorem mesh_dist_attained (N : Nat) (hN : 1 ≤ N) : Nat.dist 0 (N - 1) = N - 1 := by
  simp only [Nat.dist]
  omega

/-! ### Shortest distances on bidirectional rings -/

theorem ring_hasPath_fwd (N : Nat) (hN : 2 ≤ N) :
    ∀ k v, v < N → hasPath (buildBRing N).adj v k ((v + k) % N) := by
  intro k
  induction k with
  | zero =>
    intro v hv
    show v = (v + 0) % N
    rw [Nat.add_zero, Nat.mod_eq_of_lt hv]
  | succ k ih =>
    intro v hv
    have hstep : (v + 1) % N ∈ (buildBRing N).adj.getD v [] := by
      rw [buildBRing_adj N hN v ((v + 1) % N) hv (Nat.mod_lt _ (by omega))]
      exact Or.inl rfl
    refine ⟨(v + 1) % N, hstep, ?_⟩
    have h2 := ih ((v + 1) % N) (Nat.mod_lt _ (by omega))
    have heq : ((v + 1) % N + k) % N = (v + (k + 1)) % N := by
      rw [Nat.mod_add_mod]
      congr 1
      omega
    rwa [heq] at h2

theorem buildBRing_adj_symm (N : Nat) (hN : 2 ≤ N) :
    ∀ a b, b ∈ (buildBRing N).adj.getD a [] → a ∈ (buildBRing N).adj.getD b [] := by
  intro a b hab
  have hwf := (buildBRing_facts N).2.2.1
  have hnv : (buildBRing N).numVertices = N := buildBRing_numVertices N
  have hlen : (buildBRing N).adj.length = N := by rw [hwf.1]; exact hnv
  have ha : a < N := by
    by_contra hge
    rw [adj_getD_out _ _ (by omega)] at hab
    simp at hab
  have hb : b < N := by
    have := adj_row_mem_lt hwf hab
    omega
  rw [buildBRing_adj N hN b a hb ha]
  rw [buildBRing_adj N hN a b ha hb] at hab
  tauto

theorem ring_hasPath_bwd (N : Nat) (hN : 2 ≤ N) (v w : Nat) (hv : v < N) (hw : w < N) :
    hasPath (buildBRing N).adj v ((v + N - w) % N) w := by
  have h := ring_hasPath_fwd N hN ((v + N - w) % N) w hw
  have hend : (w + (v + N - w) % N) % N = v := by
    rw [Nat.add_comm w, Nat.mod_add_mod, show v + N - w + w = v + N by omega,
      Nat.add_mod_right, Nat.mod_eq_of_lt hv]
  rw [hend] at h
  exact hasPath_symm _ (buildBRing_adj_symm N hN) h

theorem ring_path_congr (N : Nat) (hN : 2 ≤ N) :
    ∀ j v w, v < N → hasPath (buildBRing N).adj v j w →
      ∃ a b, a + b = j ∧ (v + a + (N - 1) * b) % N = w % N := by
  intro j
  induction j with
  | zero =>
    intro v w _ h
    have h' : v = w := h
    subst h'
    exact ⟨0, 0, rfl, by simp⟩
  | succ j ih =>
    intro v w hv h
    rcases h with ⟨u, hu, hp⟩
    have hwf := (buildBRing_facts N).2.2.1
    have hnv : (buildBRing N).numVertices = N := buildBRing_numVertices N
    have huN : u < N := by
      have := adj_row_mem_lt hwf hu
      omega
    obtain ⟨a, b, hab, hcong⟩ := ih u w huN hp
    rw [buildBRing_adj N hN v u hv huN] at hu
    rcases hu with hu | hu
    · refine ⟨a + 1, b, by omega, ?_⟩
      rw [← hcong, hu]
      rw [show v + (a + 1) + (N - 1) * b = v + 1 + (a + (N - 1) * b) by ring]
      rw [show (v + 1) % N + a + (N - 1) * b = (v + 1) % N + (a + (N - 1) * b) by ring]
      rw [Nat.mod_add_mod]
    · refine ⟨a, b + 1, by omega, ?_⟩
      have hkey : (v + (N - 1)) % N = u % N := by
        rw [hu, Nat.mod_add_mod, show u + 1 + (N - 1) = u + N by omega, Nat.add_mod_right]
      have h3 : (v + a + (N - 1) * (b + 1)) % N = (v + (N - 1) + (a + (N - 1) * b)) % N := by
        congr 1
        ring
      have h2 : (v + (N - 1) + (a + (N - 1) * b)) % N = (u + (a + (N - 1) * b)) % N := by
        rw [Nat.add_mod, hkey, ← Nat.add_mod]
      have h4 : (u + (a + (N - 1) * b)) % N = w % N := by
        rw [show u + (a + (N - 1) * b) = u + a + (N - 1) * b by ring, hcong]
      rw [h3, h2, h4]

theorem ring_dist_lower (N : Nat) (hN : 2 ≤ N) (j v w : Nat) (hv : v < N) (hw : w < N)
    (h : hasPath (buildBRing N).adj v j w) : ringDist N v w ≤ j := by
  obtain ⟨a, b, hab, hcong⟩ := ring_path_congr N hN j v w hv h
  have hNb : (N - 1) * b + b = N * b := by
    calc (N - 1) * b + b = ((N - 1) + 1) * b := by ring
      _ = N * b := by rw [show N - 1 + 1 = N by omega]
  rcases le_total b a with hba | hab2
  · have hsplit : v + a + (N - 1) * b = v + (a - b) + N * b := by omega
    have h1 : (v + (a - b)) % N = w % N := by
      rw [← hcong, hsplit, Nat.add_mul_mod_self_left]
    have hx : Nat.ModEq N (w + N - v + v) (a - b + v) := by
      show _ % N = _ % N
      rw [show w + N - v + v = w + N by omega, Nat.add_mod_right,
        show a - b + v = v + (a - b) by omega, h1]
    have h2 : Nat.ModEq N (w + N - v) (a - b) := Nat.ModEq.add_right_cancel' v hx
    have h3 : (w + N - v) % N ≤ a - b := by
      calc (w + N - v) % N = (a - b) % N := h2
        _ ≤ a - b := Nat.mod_le _ _
    calc ringDist N v w ≤ (w + N - v) % N := min_le_left _ _
      _ ≤ a - b := h3
      _ ≤ j := by omega
  · have hsplit : v + a + (N - 1) * b + (b - a) = v + N * b := by omega
    have h1 : (w + (b - a)) % N = v % N := by
      rw [Nat.add_mod, ← hcong, ← Nat.add_mod, hsplit, Nat.add_mul_mod_self_left]
    have hx : Nat.ModEq N (v + N - w + w) (b - a + w) := by
      show _ % N = _ % N
      rw [show v + N - w + w = v + N by omega, Nat.add_mod_right,
        show b - a + w = w + (b - a) by omega, h1]
    have h2 : Nat.ModEq N (v + N - w) (b - a) := Nat.ModEq.add_right_cancel' w hx
    have h3 : (v + N - w) % N ≤ b - a := by
      calc (v + N - w) % N = (b - a) % N := h2
        _ ≤ b - a := Nat.mod_le _ _
    calc ringDist N v w ≤ (v + N - w) % N := min_le_right _ _
      _ ≤ b - a := h3
      _ ≤ j := by omega

theorem ring_isShortest (N : Nat) (hN : 2 ≤ N) (v w : Nat) (hv : v < N) (hw : w < N) :
    isShortest (buildBRing N).adj v w (ringDist N v w) := by
  constructor
  · have hfwd := ring_hasPath_fwd N hN ((w + N - v) % N) v hv
    have hfe : (v + (w + N - v) % N) % N = w := by
      rw [Nat.add_comm v, Nat.mod_add_mod, show w + N - v + v = w + N by omega,
        Nat.add_mod_right, Nat.mod_eq_of_lt hw]
    rw [hfe] at hfwd
    have hbwd := ring_hasPath_bwd N hN v w hv hw
    unfold ringDist
    rcases le_total ((w + N - v) % N) ((v + N - w) % N) with hle | hle
    · rw [min_eq_left hle]
      exact hfwd
    · rw [min_eq_right hle]
      exact hbwd
  · intro j hj
    exact ring_dist_lower N hN j v w hv hw hj

theorem ringDist_le_half (N v w : Nat) (hN : 0 < N) (hv : v < N) (hw : w < N) :
    ringDist N v w ≤ N / 2 := by
  have hf : (w + N - v) % N < N := Nat.mod_lt _ hN
  have hb : (v + N - w) % N < N := Nat.mod_lt _ hN
  have hsum : ((w + N - v) % N + (v + N - w) % N) % N = 0 := by
    rw [← Nat.add_mod, show w + N - v + (v + N - w) = N * 2 by omega, Nat.mul_mod_right]
  have hcases : (w + N - v) % N + (v + N - w) % N = 0 ∨
      (w + N - v) % N + (v + N - w) % N = N := by
    rcases Nat.lt_or_ge ((w + N - v) % N + (v + N - w) % N) N with hlt | hge
    · left
      rw [Nat.mod_eq_of_lt hlt] at hsum
      exact hsum
    · right
      rw [Nat.mod_eq_sub_mod hge, Nat.mod_eq_of_lt (by omega)] at hsum
      omega
  unfold ringDist
  rcases le_total ((w + N - v) % N) ((v + N - w) % N) with hle | hle
  · rw [min_eq_left hle]
    omega
  · rw [min_eq_right hle]
    omega

theorem ringDist_attained (N : Nat) (hN : 2 ≤ N) : ringDist N 0 (N / 2) = N / 2 := by
  unfold ringDist
  rw [show N / 2 + N - 0 = N / 2 + N by omega, Nat.add_mod_right,
    Nat.mod_eq_of_lt (by omega : N / 2 < N),
    show 0 + N - N / 2 = N - N / 2 by omega,
    Nat.mod_eq_of_lt (by omega : N - N / 2 < N)]
  have h : N / 2 ≤ N - N / 2 := by omega
  rw [min_eq_left h]

/-! ### Transport of paths along adjacency-membership equivalences -/

theorem hasPath_congr {adj1 adj2 : List (List Nat)}
    (h : ∀ a b, b ∈ adj1.getD a [] ↔ b ∈ adj2.getD a []) :
    ∀ k s v, hasPath adj1 s k v ↔ hasPath adj2 s k v := by
  intro k
  induction k with
  | zero => intro s v; exact Iff.rfl
  | succ k ih =>
    intro s v
    constructor
    · rintro ⟨w, hw, hp⟩
      exact ⟨w, (h s w).mp hw, (ih w v).mp hp⟩
    · rintro ⟨w, hw, hp⟩
      exact ⟨w, (h s w).mpr hw, (ih w v).mpr hp⟩

theorem isShortest_congr {adj1 adj2 : List (List Nat)}
    (h : ∀ a b, b ∈ adj1.getD a [] ↔ b ∈ adj2.getD a []) (s v k : Nat)
    (hs : isShortest adj1 s v k) : isShortest adj2 s v k := by
  constructor
  · exact (hasPath_congr h k s v).mp hs.1
  · intro j hj
    exact hs.2 j ((hasPath_congr h j s v).mpr hj)

theorem mem_ids_dense {g : Graph} (hd : g.dense) {x : Int} (hx : x ∈ g.ids) :
    ∃ a : Nat, a < g.numVertices ∧ x = Int.ofNat a := by
  rw [hd] at hx
  rcases List.mem_map.mp hx with ⟨a, ha, hax⟩
  exact ⟨a, List.mem_range.mp ha, hax.symm⟩

/-! ### The copy loops reproduce the source adjacency (as an edge relation) -/

theorem copyInto_mk0_adj_mem {src : Graph} (hwf : src.WF) (hd : src.dense) (v w : Nat) :
    w ∈ (copyInto Graph.mk0 src).adj.getD v [] ↔ w ∈ src.adj.getD v [] := by
  unfold copyInto
  have hbase_wf : (src.ids.foldl (fun d id => d.add_vertex id) Graph.mk0).WF :=
    addVertexFold_mk0_WF src.ids
  have hbase_ids : (src.ids.foldl (fun d id => d.add_vertex id) Graph.mk0).ids = src.ids := by
    rw [(addVertexFold_spec Graph.mk0 src.ids).1]
    rfl
  have hbase_dense : (src.ids.foldl (fun d id => d.add_vertex id) Graph.mk0).dense := by
    unfold Graph.dense
    rw [hbase_ids]
    exact hd
  have hbase_nv : (src.ids.foldl (fun d id => d.add_vertex id) Graph.mk0).numVertices
      = src.numVertices := by
    unfold Graph.numVertices
    rw [hbase_ids]
  have hbase_adj : ∀ u, (src.ids.foldl (fun d id => d.add_vertex id) Graph.mk0).adj.getD u []
      = [] := by
    intro u
    rw [(addVertexFold_spec Graph.mk0 src.ids).2.1]
    exact getD_replicate_nil _ u
  have hL : ∀ e ∈ src.edgesView,
      ∃ a b : Nat, a < (src.ids.foldl (fun d id => d.add_vertex id) Graph.mk0).numVertices ∧
        b < (src.ids.foldl (fun d id => d.add_vertex id) Graph.mk0).numVertices ∧
        e = (Int.ofNat a, Int.ofNat b) := by
    intro e he
    obtain ⟨x, y⟩ := e
    obtain ⟨hx, hy⟩ := edgesView_mem_ids hwf he
    obtain ⟨a, haN, hae⟩ := mem_ids_dense hd hx
    obtain ⟨b, hbN, hbe⟩ := mem_ids_dense hd hy
    have hae' : x = Int.ofNat a := hae
    have hbe' : y = Int.ofNat b := hbe
    rw [hbase_nv]
    exact ⟨a, b, haN, hbN, by rw [hae', hbe']⟩
  rw [addEdges_adj_mem hbase_wf hbase_dense src.edgesView hL v w, hbase_adj]
  simp only [List.not_mem_nil, false_or]
  rw [mem_edgesView_dense hwf hd]
  constructor
  · rintro ⟨-, h⟩
    exact h
  · intro h
    refine ⟨?_, h⟩
    by_contra hge
    rw [adj_getD_out _ _ (by omega)] at h
    simp at h

/-! ### Encoded-index arithmetic -/

theorem encode_lt {a j n1 n2 : Nat} (ha : a < n1) (hj : j < n2) :
    a * n2 + j < n1 * n2 := by
  calc a * n2 + j < a * n2 + n2 := by omega
    _ = (a + 1) * n2 := by ring
    _ ≤ n1 * n2 := Nat.mul_le_mul_right _ (by omega)

theorem encode_div_mod {x j n2 : Nat} (hj : j < n2) :
    (x * n2 + j) / n2 = x ∧ (x * n2 + j) % n2 = j := by
  constructor
  · rw [show x * n2 + j = j + n2 * x by ring, Nat.add_mul_div_left _ _ (by omega),
      Nat.div_eq_of_lt hj]
    omega
  · rw [show x * n2 + j = j + n2 * x by ring, Nat.add_mul_mod_self_left,
      Nat.mod_eq_of_lt hj]

/-! ### Adjacency characterization of `gproduct` on dense inputs -/

theorem mem_gproductE1_dense {g1 g2 : Graph} (hwf1 : g1.WF) (hd1 : g1.dense)
    (hd2 : g2.dense) (v w : Nat) :
    (Int.ofNat v, Int.ofNat w) ∈ gproductE1 g1 g2 ↔
      ∃ x y j, x < g1.numVertices ∧ j < g2.numVertices ∧ y ∈ g1.adj.getD x [] ∧
        v = x * g2.numVertices + j ∧ w = y * g2.numVertices + j := by
  unfold gproductE1
  rw [List.mem_flatMap]
  constructor
  · rintro ⟨e, he, hmem⟩
    obtain ⟨x0, y0⟩ := e
    rcases List.mem_map.mp hmem with ⟨b, hb, heq⟩
    obtain ⟨hx, hy⟩ := edgesView_mem_ids hwf1 he
    obtain ⟨x, hxn, hxe⟩ := mem_ids_dense hd1 hx
    obtain ⟨y, hyn, hye⟩ := mem_ids_dense hd1 hy
    obtain ⟨j, hjn, hje⟩ := mem_ids_dense hd2 hb
    have hxe' : x0 = Int.ofNat x := hxe
    have hye' : y0 = Int.ofNat y := hye
    rw [hxe', hye'] at he
    have hadj := (mem_edgesView_dense hwf1 hd1).mp he
    have heq' : (gproduct_utils.encode_vertex_pair x0 b g2.numVertices,
        gproduct_utils.encode_vertex_pair y0 b g2.numVertices)
        = (Int.ofNat v, Int.ofNat w) := heq
    rw [hxe', hye', hje, encode_ofNat, encode_ofNat] at heq'
    have h1 : Int.ofNat (x * g2.numVertices + j) = Int.ofNat v := congrArg Prod.fst heq'
    have h2 : Int.ofNat (y * g2.numVertices + j) = Int.ofNat w := congrArg Prod.snd heq'
    exact ⟨x, y, j, hxn, hjn, hadj.2, (Int.ofNat_inj.mp h1).symm, (Int.ofNat_inj.mp h2).symm⟩
  · rintro ⟨x, y, j, hxn, hjn, hyadj, hv, hw⟩
    have hxlen : x < g1.adj.length := by
      rw [hwf1.1]
      exact hxn
    refine ⟨(Int.ofNat x, Int.ofNat y), (mem_edgesView_dense hwf1 hd1).mpr ⟨hxlen, hyadj⟩, ?_⟩
    refine List.mem_map.mpr ⟨Int.ofNat j, ?_, ?_⟩
    · rw [hd2]
      exact mem_map_ofNat_range.mpr hjn
    · show (gproduct_utils.encode_vertex_pair (Int.ofNat x) (Int.ofNat j) g2.numVertices,
        gproduct_utils.encode_vertex_pair (Int.ofNat y) (Int.ofNat j) g2.numVertices)
        = (Int.ofNat v, Int.ofNat w)
      rw [encode_ofNat, encode_ofNat, ← hv, ← hw]

theorem mem_gproductE2_dense {g1 g2 : Graph} (hwf2 : g2.WF) (hd1 : g1.dense)
    (hd2 : g2.dense) (v w : Nat) :
    (Int.ofNat v, Int.ofNat w) ∈ gproductE2 g1 g2 ↔
      ∃ a p q, a < g1.numVertices ∧ p < g2.numVertices ∧ q ∈ g2.adj.getD p [] ∧
        v = a * g2.numVertices + p ∧ w = a * g2.numVertices + q := by
  unfold gproductE2
  rw [List.mem_flatMap]
  constructor
  · rintro ⟨e, he, hmem⟩
    obtain ⟨p0, q0⟩ := e
    rcases List.mem_map.mp hmem with ⟨b, hb, heq⟩
    obtain ⟨hp, hq⟩ := edgesView_mem_ids hwf2 he
    obtain ⟨p, hpn, hpe⟩ := mem_ids_dense hd2 hp
    obtain ⟨q, hqn, hqe⟩ := mem_ids_dense hd2 hq
    obtain ⟨a, han, hae⟩ := mem_ids_dense hd1 hb
    have hpe' : p0 = Int.ofNat p := hpe
    have hqe' : q0 = Int.ofNat q := hqe
    rw [hpe', hqe'] at he
    have hadj := (mem_edgesView_dense hwf2 hd2).mp he
    have heq' : (gproduct_utils.encode_vertex_pair b p0 g2.numVertices,
        gproduct_utils.encode_vertex_pair b q0 g2.numVertices)
        = (Int.ofNat v, Int.ofNat w) := heq
    rw [hpe', hqe', hae, encode_ofNat, encode_ofNat] at heq'
    have h1 : Int.ofNat (a * g2.numVertices + p) = Int.ofNat v := congrArg Prod.fst heq'
    have h2 : Int.ofNat (a * g2.numVertices + q) = Int.ofNat w := congrArg Prod.snd heq'
    exact ⟨a, p, q, han, hpn, hadj.2, (Int.ofNat_inj.mp h1).symm, (Int.ofNat_inj.mp h2).symm⟩
  · rintro ⟨a, p, q, han, hpn, hqadj, hv, hw⟩
    have hplen : p < g2.adj.length := by
      rw [hwf2.1]
      exact hpn
    refine ⟨(Int.ofNat p, Int.ofNat q), (mem_edgesView_dense hwf2 hd2).mpr ⟨hplen, hqadj⟩, ?_⟩
    refine List.mem_map.mpr ⟨Int.ofNat a, ?_, ?_⟩
    · rw [hd1]
      exact mem_map_ofNat_range.mpr han
    · show (gproduct_utils.encode_vertex_pair (Int.ofNat a) (Int.ofNat p) g2.numVertices,
        gproduct_utils.encode_vertex_pair (Int.ofNat a) (Int.ofNat q) g2.numVertices)
        = (Int.ofNat v, Int.ofNat w)
      rw [encode_ofNat, encode_ofNat, ← hv, ← hw]

theorem addEdges_dense {g : Graph} (hd : g.dense) (L : List (Int × Int)) :
    (addEdges g L).dense := by
  unfold Graph.dense
  rw [addEdges_ids]
  exact hd

theorem addEdges_numVertices (g : Graph) (L : List (Int × Int)) :
    (addEdges g L).numVertices = g.numVertices := by
  unfold Graph.numVertices
  rw [addEdges_ids]

theorem gproductVerts_dense {g1 g2 : Graph} (hd1 : g1.dense) (hd2 : g2.dense) :
    (gproductVerts g1 g2).dense := by
  unfold Graph.dense
  have h : (gproductVerts g1 g2).ids
      = (List.range (g1.numVertices * g2.numVertices)).map Int.ofNat := by
    rw [(gproductVerts_spec g1 g2).1]
    conv_lhs => rw [hd1, hd2]
    exact encode_range_flatMap g1.ids.length g2.ids.length
  rw [h]
  simp

theorem gproductE1_bounds {g1 g2 : Graph} (hwf1 : g1.WF) (hd1 : g1.dense) (hd2 : g2.dense) :
    ∀ e ∈ gproductE1 g1 g2, ∃ a b : Nat, a < g1.numVertices * g2.numVertices ∧
      b < g1.numVertices * g2.numVertices ∧ e = (Int.ofNat a, Int.ofNat b) := by
  intro e he
  unfold gproductE1 at he
  rcases List.mem_flatMap.mp he with ⟨ed, hed, hmem⟩
  rcases List.mem_map.mp hmem with ⟨b, hb, heq⟩
  obtain ⟨h1, h2⟩ := edgesView_mem_ids hwf1 hed
  obtain ⟨x, hxn, hxe⟩ := mem_ids_dense hd1 h1
  obtain ⟨y, hyn, hye⟩ := mem_ids_dense hd1 h2
  obtain ⟨j, hjn, hje⟩ := mem_ids_dense hd2 hb
  refine ⟨x * g2.numVertices + j, y * g2.numVertices + j, encode_lt hxn hjn,
    encode_lt hyn hjn, ?_⟩
  have heq' : (gproduct_utils.encode_vertex_pair ed.1 b g2.numVertices,
      gproduct_utils.encode_vertex_pair ed.2 b g2.numVertices) = e := heq
  rw [← heq', hxe, hye, hje, encode_ofNat, encode_ofNat]

theorem gproductE2_bounds {g1 g2 : Graph} (hwf2 : g2.WF) (hd1 : g1.dense) (hd2 : g2.dense) :
    ∀ e ∈ gproductE2 g1 g2, ∃ a b : Nat, a < g1.numVertices * g2.numVertices ∧
      b < g1.numVertices * g2.numVertices ∧ e = (Int.ofNat a, Int.ofNat b) := by
  intro e he
  unfold gproductE2 at he
  rcases List.mem_flatMap.mp he with ⟨ed, hed, hmem⟩
  rcases List.mem_map.mp hmem with ⟨b, hb, heq⟩
  obtain ⟨h1, h2⟩ := edgesView_mem_ids hwf2 hed
  obtain ⟨p, hpn, hpe⟩ := mem_ids_dense hd2 h1
  obtain ⟨q, hqn, hqe⟩ := mem_ids_dense hd2 h2
  obtain ⟨a, han, hae⟩ := mem_ids_dense hd1 hb
  refine ⟨a * g2.numVertices + p, a * g2.numVertices + q, encode_lt han hpn,
    encode_lt han hqn, ?_⟩
  have heq' : (gproduct_utils.encode_vertex_pair b ed.1 g2.numVertices,
      gproduct_utils.encode_vertex_pair b ed.2 g2.numVertices) = e := heq
  rw [← heq', hpe, hqe, hae, encode_ofNat, encode_ofNat]

theorem gproduct_adj_mem {g1 g2 : Graph} (hwf1 : g1.WF) (hwf2 : g2.WF)
    (hd1 : g1.dense) (hd2 : g2.dense) (v w : Nat) :
    w ∈ (gproduct g1 g2).adj.getD v [] ↔
      (Int.ofNat v, Int.ofNat w) ∈ gproductE1 g1 g2 ∨
        (Int.ofNat v, Int.ofNat w) ∈ gproductE2 g1 g2 := by
  rw [gproduct_eq]
  have hVwf := gproductVerts_WF g1 g2
  have hVdense := gproductVerts_dense hd1 hd2
  have hVnv := gproductVerts_numVertices g1 g2
  have hVadj : ∀ u, (gproductVerts g1 g2).adj.getD u [] = [] := by
    intro u
    rw [(gproductVerts_spec g1 g2).2.1]
    exact getD_replicate_nil _ u
  have hL1 : ∀ e ∈ gproductE1 g1 g2,
      ∃ a b : Nat, a < (gproductVerts g1 g2).numVertices ∧
        b < (gproductVerts g1 g2).numVertices ∧ e = (Int.ofNat a, Int.ofNat b) := by
    intro e he
    rw [hVnv]
    exact gproductE1_bounds hwf1 hd1 hd2 e he
  have hL2 : ∀ e ∈ gproductE2 g1 g2,
      ∃ a b : Nat, a < (addEdges (gproductVerts g1 g2) (gproductE1 g1 g2)).numVertices ∧
        b < (addEdges (gproductVerts g1 g2) (gproductE1 g1 g2)).numVertices ∧
        e = (Int.ofNat a, Int.ofNat b) := by
    intro e he
    rw [addEdges_numVertices, hVnv]
    exact gproductE2_bounds hwf2 hd1 hd2 e he
  rw [addEdges_adj_mem (addEdges_WF hVwf _) (addEdges_dense hVdense _) _ hL2 v w,
    addEdges_adj_mem hVwf hVdense _ hL1 v w, hVadj]
  simp only [List.not_mem_nil, false_or]

theorem gproduct_adj_mem_divmod {g1 g2 : Graph} (hwf1 : g1.WF) (hwf2 : g2.WF)
    (hd1 : g1.dense) (hd2 : g2.dense) (hn2 : 0 < g2.numVertices) (v w : Nat)
    (hv : v < g1.numVertices * g2.numVertices) :
    w ∈ (gproduct g1 g2).adj.getD v [] ↔
      ((w / g2.numVertices ∈ g1.adj.getD (v / g2.numVertices) [] ∧
          w % g2.numVertices = v % g2.numVertices) ∨
        (w / g2.numVertices = v / g2.numVertices ∧
          w % g2.numVertices ∈ g2.adj.getD (v % g2.numVertices) [])) := by
  rw [gproduct_adj_mem hwf1 hwf2 hd1 hd2, mem_gproductE1_dense hwf1 hd1 hd2,
    mem_gproductE2_dense hwf2 hd1 hd2]
  constructor
  · rintro (⟨x, y, j, hxn, hjn, hyadj, hveq, hweq⟩ | ⟨a, p, q, han, hpn, hqadj, hveq, hweq⟩)
    · obtain ⟨hvd, hvm⟩ := encode_div_mod (x := x) hjn
      obtain ⟨hwd, hwm⟩ := encode_div_mod (x := y) hjn
      rw [hveq, hweq, hvd, hvm, hwd, hwm]
      exact Or.inl ⟨hyadj, rfl⟩
    · obtain ⟨hvd, hvm⟩ := encode_div_mod (x := a) hpn
      have hqn : q < g2.numVertices := adj_row_mem_lt hwf2 hqadj
      obtain ⟨hwd, hwm⟩ := encode_div_mod (x := a) hqn
      rw [hveq, hweq, hvd, hvm, hwd, hwm]
      exact Or.inr ⟨rfl, hqadj⟩
  · rintro (⟨hadj, hmod⟩ | ⟨hdiv, hadj⟩)
    · refine Or.inl ⟨v / g2.numVertices, w / g2.numVertices, v % g2.numVertices,
        (Nat.div_lt_iff_lt_mul hn2).mpr hv, Nat.mod_lt _ hn2, hadj, ?_, ?_⟩
      · rw [Nat.div_add_mod']
      · rw [← hmod, Nat.div_add_mod']
    · refine Or.inr ⟨v / g2.numVertices, v % g2.numVertices, w % g2.numVertices,
        (Nat.div_lt_iff_lt_mul hn2).mpr hv, Nat.mod_lt _ hn2, hadj, ?_, ?_⟩
      · rw [Nat.div_add_mod']
      · rw [← hdiv, Nat.div_add_mod']

/-! ### Shortest distances on `gproduct` -/

theorem gproduct_lift1 {g1 g2 : Graph} (hwf1 : g1.WF) (hwf2 : g2.WF)
    (hd1 : g1.dense) (hd2 : g2.dense) (hn2 : 0 < g2.numVertices)
    (j : Nat) (hj : j < g2.numVertices) :
    ∀ k a c, a < g1.numVertices → hasPath g1.adj a k c →
      hasPath (gproduct g1 g2).adj (a * g2.numVertices + j) k (c * g2.numVertices + j) := by
  intro k
  induction k with
  | zero =>
    intro a c _ h
    have h' : a = c := h
    subst h'
    exact rfl
  | succ k ih =>
    intro a c ha h
    rcases h with ⟨u, hu, hp⟩
    have huN : u < g1.numVertices := adj_row_mem_lt hwf1 hu
    refine ⟨u * g2.numVertices + j, ?_, ih u c huN hp⟩
    rw [gproduct_adj_mem_divmod hwf1 hwf2 hd1 hd2 hn2 _ _ (encode_lt ha hj)]
    left
    obtain ⟨hdu, hmu⟩ := encode_div_mod (x := u) hj
    obtain ⟨hda, hma⟩ := encode_div_mod (x := a) hj
    rw [hdu, hmu, hda, hma]
    exact ⟨hu, rfl⟩

theorem gproduct_lift2 {g1 g2 : Graph} (hwf1 : g1.WF) (hwf2 : g2.WF)
    (hd1 : g1.dense) (hd2 : g2.dense) (hn2 : 0 < g2.numVertices)
    (a : Nat) (ha : a < g1.numVertices) :
    ∀ k p q, p < g2.numVertices → hasPath g2.adj p k q →
      hasPath (gproduct g1 g2).adj (a * g2.numVertices + p) k (a * g2.numVertices + q) := by
  intro k
  induction k with
  | zero =>
    intro p q _ h
    have h' : p = q := h
    subst h'
    exact rfl
  | succ k ih =>
    intro p q hp h
    rcases h with ⟨u, hu, hpp⟩
    have huN : u < g2.numVertices := adj_row_mem_lt hwf2 hu
    refine ⟨a * g2.numVertices + u, ?_, ih u q huN hpp⟩
    rw [gproduct_adj_mem_divmod hwf1 hwf2 hd1 hd2 hn2 _ _ (encode_lt ha hp)]
    right
    obtain ⟨hdu, hmu⟩ := encode_div_mod (x := a) huN
    obtain ⟨hdp, hmp⟩ := encode_div_mod (x := a) hp
    rw [hdu, hmu, hdp, hmp]
    exact ⟨rfl, hu⟩

theorem hasPath_one {adj : List (List Nat)} {s v : Nat} (h : v ∈ adj.getD s []) :
    hasPath adj s 1 v := ⟨v, h, rfl⟩

theorem gproduct_dist_lower {g1 g2 : Graph} (hwf1 : g1.WF) (hwf2 : g2.WF)
    (hd1 : g1.dense) (hd2 : g2.dense) (hn2 : 0 < g2.numVertices)
    (D1 D2 : Nat → Nat → Nat)
    (hD1 : ∀ a b, a < g1.numVertices → b < g1.numVertices → isShortest g1.adj a b (D1 a b))
    (hD2 : ∀ p q, p < g2.numVertices → q < g2.numVertices → isShortest g2.adj p q (D2 p q)) :
    ∀ m x y, x < g1.numVertices * g2.numVertices → y < g1.numVertices * g2.numVertices →
      hasPath (gproduct g1 g2).adj x m y →
      D1 (x / g2.numVertices) (y / g2.numVertices)
        + D2 (x % g2.numVertices) (y % g2.numVertices) ≤ m := by
  intro m
  induction m with
  | zero =>
    intro x y hx _ h
    have h' : x = y := h
    subst h'
    have hdx : x / g2.numVertices < g1.numVertices := (Nat.div_lt_iff_lt_mul hn2).mpr hx
    have h1 : D1 (x / g2.numVertices) (x / g2.numVertices) = 0 :=
      isShortest_unique (hD1 _ _ hdx hdx) (isShortest_self _ _)
    have h2 : D2 (x % g2.numVertices) (x % g2.numVertices) = 0 :=
      isShortest_unique (hD2 _ _ (Nat.mod_lt _ hn2) (Nat.mod_lt _ hn2)) (isShortest_self _ _)
    omega
  | succ m ih =>
    intro x y hx hy h
    rcases h with ⟨u, hu, hp⟩
    have hPwf := gproduct_WF g1 g2
    have hPnv := (gproduct_counts g1 g2 hwf1 hwf2).1
    have huP : u < g1.numVertices * g2.numVertices := by
      have := adj_row_mem_lt hPwf hu
      omega
    have hih := ih u y huP hy hp
    rw [gproduct_adj_mem_divmod hwf1 hwf2 hd1 hd2 hn2 x u hx] at hu
    have hdx : x / g2.numVertices < g1.numVertices := (Nat.div_lt_iff_lt_mul hn2).mpr hx
    have hdu : u / g2.numVertices < g1.numVertices := (Nat.div_lt_iff_lt_mul hn2).mpr huP
    have hdy : y / g2.numVertices < g1.numVertices := (Nat.div_lt_iff_lt_mul hn2).mpr hy
    have hmx : x % g2.numVertices < g2.numVertices := Nat.mod_lt _ hn2
    have hmu : u % g2.numVertices < g2.numVertices := Nat.mod_lt _ hn2
    have hmy : y % g2.numVertices < g2.numVertices := Nat.mod_lt _ hn2
    rcases hu with ⟨hedge, hmod⟩ | ⟨hdiv, hedge⟩
    · have htri : D1 (x / g2.numVertices) (y / g2.numVertices)
          ≤ D1 (u / g2.numVertices) (y / g2.numVertices) + 1 := by
        have hpath : hasPath g1.adj (x / g2.numVertices)
            (1 + D1 (u / g2.numVertices) (y / g2.numVertices)) (y / g2.numVertices) :=
          hasPath_append g1.adj (hasPath_one hedge) (hD1 _ _ hdu hdy).1
        have := (hD1 _ _ hdx hdy).2 _ hpath
        omega
      rw [hmod] at hih
      omega
    · have htri : D2 (x % g2.numVertices) (y % g2.numVertices)
          ≤ D2 (u % g2.numVertices) (y % g2.numVertices) + 1 := by
        have hpath : hasPath g2.adj (x % g2.numVertices)
            (1 + D2 (u % g2.numVertices) (y % g2.numVertices)) (y % g2.numVertices) :=
          hasPath_append g2.adj (hasPath_one hedge) (hD2 _ _ hmu hmy).1
        have := (hD2 _ _ hmx hmy).2 _ hpath
        omega
      rw [hdiv] at hih
      omega

theorem gproduct_isShortest {g1 g2 : Graph} (hwf1 : g1.WF) (hwf2 : g2.WF)
    (hd1 : g1.dense) (hd2 : g2.dense) (hn2 : 0 < g2.numVertices)
    (D1 D2 : Nat → Nat → Nat)
    (hD1 : ∀ a b, a < g1.numVertices → b < g1.numVertices → isShortest g1.adj a b (D1 a b))
    (hD2 : ∀ p q, p < g2.numVertices → q < g2.numVertices → isShortest g2.adj p q (D2 p q))
    (x y : Nat) (hx : x < g1.numVertices * g2.numVertices)
    (hy : y < g1.numVertices * g2.numVertices) :
    isShortest (gproduct g1 g2).adj x y (prodDist D1 D2 g2.numVertices x y) := by
  have hdx : x / g2.numVertices < g1.numVertices := (Nat.div_lt_iff_lt_mul hn2).mpr hx
  have hdy : y / g2.numVertices < g1.numVertices := (Nat.div_lt_iff_lt_mul hn2).mpr hy
  have hmx : x % g2.numVertices < g2.numVertices := Nat.mod_lt _ hn2
  have hmy : y % g2.numVertices < g2.numVertices := Nat.mod_lt _ hn2
  constructor
  · have hp1 := gproduct_lift1 hwf1 hwf2 hd1 hd2 hn2 (x % g2.numVertices) hmx
      (D1 (x / g2.numVertices) (y / g2.numVertices)) (x / g2.numVertices)
      (y / g2.numVertices) hdx (hD1 _ _ hdx hdy).1
    have hp2 := gproduct_lift2 hwf1 hwf2 hd1 hd2 hn2 (y / g2.numVertices) hdy
      (D2 (x % g2.numVertices) (y % g2.numVertices)) (x % g2.numVertices)
      (y % g2.numVertices) hmx (hD2 _ _ hmx hmy).1
    rw [Nat.div_add_mod'] at hp1
    rw [Nat.div_add_mod'] at hp2
    exact hasPath_append _ hp1 hp2
  · intro j hj
    exact gproduct_dist_lower hwf1 hwf2 hd1 hd2 hn2 D1 D2 hD1 hD2 j x y hx hy hj

/-! ### Shortest distances along the left-associative mesh/ring products -/

theorem buildProductRing_numVertices (ds : List Nat) :
    ∀ k, (buildProductRing ds k).numVertices = (gridCounts ds k).1 := by
  intro k
  induction k with
  | zero =>
    show (copyInto Graph.mk0 (buildBRing (ds.getD 0 1))).numVertices = _
    rw [copyInto_mk0_numVertices, buildBRing_numVertices]
    rfl
  | succ k ih =>
    show (copyInto Graph.mk0 (gproduct (buildProductRing ds k)
      (buildBRing (ds.getD (k + 1) 1)))).numVertices = _
    rw [copyInto_mk0_numVertices,
      (gproduct_counts _ _ (buildProductRing_dense_WF ds k).2 (buildBRing_facts _).2.2.1).1,
      ih, buildBRing_numVertices]
    rfl

theorem buildProductMesh_isShortest (ds : List Nat) (hpos : ∀ i, 0 < ds.getD i 1) :
    ∀ k x y, x < (gridCounts ds k).1 → y < (gridCounts ds k).1 →
      isShortest (buildProductMesh ds k).adj x y (meshDistList ds k x y) := by
  intro k
  induction k with
  | zero =>
    intro x y hx hy
    have hwfM := (buildBMesh_facts (ds.getD 0 1)).2.2.1
    have hdM := (buildBMesh_facts (ds.getD 0 1)).2.2.2
    have hcong := copyInto_mk0_adj_mem hwfM hdM
    exact isShortest_congr (fun a b => (hcong a b).symm) x y _
      (mesh_isShortest (ds.getD 0 1) x y hx hy)
  | succ k ih =>
    intro x y hx hy
    have hGd := (buildProductMesh_dense_WF ds k).1
    have hGwf := (buildProductMesh_dense_WF ds k).2
    have hMwf := (buildBMesh_facts (ds.getD (k + 1) 1)).2.2.1
    have hMd := (buildBMesh_facts (ds.getD (k + 1) 1)).2.2.2
    have hPwf : (gproduct (buildProductMesh ds k) (buildBMesh (ds.getD (k + 1) 1))).WF :=
      gproduct_WF _ _
    have hPd := gproduct_dense hGd hMd
    have hcong := copyInto_mk0_adj_mem hPwf hPd
    have hMnv := buildBMesh_numVertices (ds.getD (k + 1) 1)
    have hGnv := (buildProductMesh_counts ds k).1
    have hn2 : 0 < (buildBMesh (ds.getD (k + 1) 1)).numVertices := by
      rw [hMnv]
      exact hpos (k + 1)
    have happ := gproduct_isShortest hGwf hMwf hGd hMd hn2
      (meshDistList ds k) Nat.dist
      (fun a b ha hb => ih a b (by rwa [hGnv] at ha) (by rwa [hGnv] at hb))
      (fun p q hp hq => mesh_isShortest _ p q (by rwa [hMnv] at hp) (by rwa [hMnv] at hq))
      x y (by rw [hGnv, hMnv]; exact hx) (by rw [hGnv, hMnv]; exact hy)
    rw [hMnv] at happ
    exact isShortest_congr (fun a b => (hcong a b).symm) x y _ happ

theorem buildProductRing_isShortest (ds : List Nat)
    (hge2 : ∀ i, i < ds.length → 2 ≤ ds.getD i 1) :
    ∀ k, k < ds.length → ∀ x y, x < (gridCounts ds k).1 → y < (gridCounts ds k).1 →
      isShortest (buildProductRing ds k).adj x y (torusDistList ds k x y) := by
  intro k
  induction k with
  | zero =>
    intro hk x y hx hy
    have hwfR := (buildBRing_facts (ds.getD 0 1)).2.2.1
    have hdR := (buildBRing_facts (ds.getD 0 1)).2.2.2
    have hcong := copyInto_mk0_adj_mem hwfR hdR
    exact isShortest_congr (fun a b => (hcong a b).symm) x y _
      (ring_isShortest (ds.getD 0 1) (hge2 0 hk) x y hx hy)
  | succ k ih =>
    intro hk x y hx hy
    have hk' : k < ds.length := by omega
    have hGd := (buildProductRing_dense_WF ds k).1
    have hGwf := (buildProductRing_dense_WF ds k).2
    have hRwf := (buildBRing_facts (ds.getD (k + 1) 1)).2.2.1
    have hRd := (buildBRing_facts (ds.getD (k + 1) 1)).2.2.2
    have hPwf : (gproduct (buildProductRing ds k) (buildBRing (ds.getD (k + 1) 1))).WF :=
      gproduct_WF _ _
    have hPd := gproduct_dense hGd hRd
    have hcong := copyInto_mk0_adj_mem hPwf hPd
    have hRnv := buildBRing_numVertices (ds.getD (k + 1) 1)
    have hGnv := buildProductRing_numVertices ds k
    have hd2 : 2 ≤ ds.getD (k + 1) 1 := hge2 (k + 1) hk
    have hn2 : 0 < (buildBRing (ds.getD (k + 1) 1)).numVertices := by
      rw [hRnv]
      omega
    have happ := gproduct_isShortest hGwf hRwf hGd hRd hn2
      (torusDistList ds k) (ringDist (ds.getD (k + 1) 1))
      (fun a b ha hb => ih hk' a b (by rwa [hGnv] at ha) (by rwa [hGnv] at hb))
      (fun p q hp hq => ring_isShortest _ hd2 p q (by rwa [hRnv] at hp) (by rwa [hRnv] at hq))
      x y (by rw [hGnv, hRnv]; exact hx) (by rw [hGnv, hRnv]; exact hy)
    rw [hRnv] at happ
    exact isShortest_congr (fun a b => (hcong a b).symm) x y _ happ

/-! ### Eccentricity of the product families -/

theorem gridCounts_pos (ds : List Nat) (hpos : ∀ i, 0 < ds.getD i 1) :
    ∀ k, 0 < (gridCounts ds k).1 := by
  intro k
  induction k with
  | zero => exact hpos 0
  | succ k ih => exact Nat.mul_pos ih (hpos (k + 1))

theorem meshDistList_le (ds : List Nat) (hpos : ∀ i, 0 < ds.getD i 1) :
    ∀ k x y, x < (gridCounts ds k).1 → y < (gridCounts ds k).1 →
      meshDistList ds k x y ≤ meshEccList ds k := by
  intro k
  induction k with
  | zero =>
    intro x y hx hy
    exact mesh_dist_le (ds.getD 0 1) x y hx hy
  | succ k ih =>
    intro x y hx hy
    have hd := hpos (k + 1)
    have h1 := ih (x / ds.getD (k + 1) 1) (y / ds.getD (k + 1) 1)
      ((Nat.div_lt_iff_lt_mul hd).mpr hx) ((Nat.div_lt_iff_lt_mul hd).mpr hy)
    have h2 := mesh_dist_le (ds.getD (k + 1) 1) (x % ds.getD (k + 1) 1)
      (y % ds.getD (k + 1) 1) (Nat.mod_lt _ hd) (Nat.mod_lt _ hd)
    exact Nat.add_le_add h1 h2

theorem torusDistList_le (ds : List Nat) (hpos : ∀ i, 0 < ds.getD i 1) :
    ∀ k x y, x < (gridCounts ds k).1 → y < (gridCounts ds k).1 →
      torusDistList ds k x y ≤ torusEccList ds k := by
  intro k
  induction k with
  | zero =>
    intro x y hx hy
    exact ringDist_le_half (ds.getD 0 1) x y (hpos 0) hx hy
  | succ k ih =>
    intro x y hx hy
    have hd := hpos (k + 1)
    have h1 := ih (x / ds.getD (k + 1) 1) (y / ds.getD (k + 1) 1)
      ((Nat.div_lt_iff_lt_mul hd).mpr hx) ((Nat.div_lt_iff_lt_mul hd).mpr hy)
    have h2 := ringDist_le_half (ds.getD (k + 1) 1) (x % ds.getD (k + 1) 1)
      (y % ds.getD (k + 1) 1) hd (Nat.mod_lt _ hd) (Nat.mod_lt _ hd)
    exact Nat.add_le_add h1 h2

theorem meshArgList_lt (ds : List Nat) (hpos : ∀ i, 0 < ds.getD i 1) :
    ∀ k, meshArgList ds k < (gridCounts ds k).1 := by
  intro k
  induction k with
  | zero =>
    have := hpos 0
    show ds.getD 0 1 - 1 < ds.getD 0 1
    omega
  | succ k ih =>
    have hd := hpos (k + 1)
    show meshArgList ds k * ds.getD (k + 1) 1 + (ds.getD (k + 1) 1 - 1)
        < (gridCounts ds k).1 * ds.getD (k + 1) 1
    exact encode_lt ih (by omega)

theorem torusArgList_lt (ds : List Nat) (hpos : ∀ i, 0 < ds.getD i 1) :
    ∀ k, torusArgList ds k < (gridCounts ds k).1 := by
  intro k
  induction k with
  | zero =>
    have := hpos 0
    show ds.getD 0 1 / 2 < ds.getD 0 1
    omega
  | succ k ih =>
    have hd := hpos (k + 1)
    show torusArgList ds k * ds.getD (k + 1) 1 + ds.getD (k + 1) 1 / 2
        < (gridCounts ds k).1 * ds.getD (k + 1) 1
    exact encode_lt ih (by omega)

theorem meshDistList_attained (ds : List Nat) (hpos : ∀ i, 0 < ds.getD i 1) :
    ∀ k, meshDistList ds k 0 (meshArgList ds k) = meshEccList ds k := by
  intro k
  induction k with
  | zero =>
    show Nat.dist 0 (ds.getD 0 1 - 1) = ds.getD 0 1 - 1
    simp only [Nat.dist]
    omega
  | succ k ih =>
    have hd := hpos (k + 1)
    obtain ⟨hdiv, hmod⟩ := encode_div_mod (x := meshArgList ds k)
      (show ds.getD (k + 1) 1 - 1 < ds.getD (k + 1) 1 by omega)
    show meshDistList ds k (0 / ds.getD (k + 1) 1)
        ((meshArgList ds k * ds.getD (k + 1) 1 + (ds.getD (k + 1) 1 - 1)) / ds.getD (k + 1) 1)
      + Nat.dist (0 % ds.getD (k + 1) 1)
        ((meshArgList ds k * ds.getD (k + 1) 1 + (ds.getD (k + 1) 1 - 1)) % ds.getD (k + 1) 1)
      = meshEccList ds k + (ds.getD (k + 1) 1 - 1)
    rw [hdiv, hmod, Nat.zero_div, Nat.zero_mod, ih]
    congr 1
    simp only [Nat.dist]
    omega

theorem torusDistList_attained (ds : List Nat)
    (hge2 : ∀ i, i < ds.length → 2 ≤ ds.getD i 1) :
    ∀ k, k < ds.length → torusDistList ds k 0 (torusArgList ds k) = torusEccList ds k := by
  intro k
  induction k with
  | zero =>
    intro hk
    show ringDist (ds.getD 0 1) 0 (ds.getD 0 1 / 2) = ds.getD 0 1 / 2
    exact ringDist_attained (ds.getD 0 1) (hge2 0 hk)
  | succ k ih =>
    intro hk
    have hk' : k < ds.length := by omega
    have hd := hge2 (k + 1) hk
    obtain ⟨hdiv, hmod⟩ := encode_div_mod (x := torusArgList ds k)
      (show ds.getD (k + 1) 1 / 2 < ds.getD (k + 1) 1 by omega)
    show torusDistList ds k (0 / ds.getD (k + 1) 1)
        ((torusArgList ds k * ds.getD (k + 1) 1 + ds.getD (k + 1) 1 / 2) / ds.getD (k + 1) 1)
      + ringDist (ds.getD (k + 1) 1) (0 % ds.getD (k + 1) 1)
        ((torusArgList ds k * ds.getD (k + 1) 1 + ds.getD (k + 1) 1 / 2) % ds.getD (k + 1) 1)
      = torusEccList ds k + ds.getD (k + 1) 1 / 2
    rw [hdiv, hmod, Nat.zero_div, Nat.zero_mod, ih hk']
    congr 1
    exact ringDist_attained (ds.getD (k + 1) 1) hd

theorem meshEccList_sum (ds : List Nat) :
    ∀ k, k < ds.length → meshEccList ds k = ((ds.take (k + 1)).map (fun d => d - 1)).sum := by
  intro k
  induction k with
  | zero =>
    intro hk
    show ds.getD 0 1 - 1 = _
    rw [List.take_succ, List.take_zero, List.getElem?_eq_getElem hk,
      List.getD_eq_getElem _ _ hk]
    simp
  | succ k ih =>
    intro hk
    have hk' : k < ds.length := by omega
    show meshEccList ds k + (ds.getD (k + 1) 1 - 1) = _
    rw [List.take_succ, List.getElem?_eq_getElem hk, List.map_append, List.sum_append,
      ← ih hk', List.getD_eq_getElem _ _ hk]
    simp

theorem torusEccList_sum (ds : List Nat) :
    ∀ k, k < ds.length → torusEccList ds k = ((ds.take (k + 1)).map (fun d => d / 2)).sum := by
  intro k
  induction k with
  | zero =>
    intro hk
    show ds.getD 0 1 / 2 = _
    rw [List.take_succ, List.take_zero, List.getElem?_eq_getElem hk,
      List.getD_eq_getElem _ _ hk]
    simp
  | succ k ih =>
    intro hk
    have hk' : k < ds.length := by omega
    show torusEccList ds k + ds.getD (k + 1) 1 / 2 = _
    rw [List.take_succ, List.getElem?_eq_getElem hk, List.map_append, List.sum_append,
      ← ih hk', List.getD_eq_getElem _ _ hk]
    simp

/-! ### The BFS diameter ignores the display name -/

theorem bfsFrom_setName (g : Graph) (nm : String) (s : Nat) :
    bfsFrom { g with name := nm } s = bfsFrom g s := rfl

theorem diamScan_setName (g : Graph) (nm : String) :
    ∀ l m, diamScan { g with name := nm } l m = diamScan g l m := by
  intro l
  induction l with
  | nil => intro m; rfl
  | cons s rest ih =>
    intro m
    unfold diamScan
    rw [bfsFrom_setName]
    cases h : maxScan (bfsFrom g s) m with
    | none => rfl
    | some m2 => exact ih m2

theorem getDiameter_setName (g : Graph) (nm : String) :
    getDiameter_impl { g with name := nm } = getDiameter_impl g := by
  unfold getDiameter_impl
  rw [diamScan_setName]
  rfl

/-! ### BFS diameter of a fresh copy, given exact distances on the source -/

theorem getDiameter_copyInto {src : Graph} (hwf : src.WF) (hd : src.dense)
    (D : Nat → Nat → Nat) (M : Nat)
    (hD : ∀ v w, v < src.numVertices → w < src.numVertices → isShortest src.adj v w (D v w))
    (hM : ∀ v w, v < src.numVertices → w < src.numVertices → D v w ≤ M)
    (hEx : ∃ v w, v < src.numVertices ∧ w < src.numVertices ∧ D v w = M)
    (hn : 1 ≤ src.numVertices) :
    getDiameter_impl (copyInto Graph.mk0 src) = Int.ofNat M := by
  have hnv := copyInto_mk0_numVertices src
  have hcong := copyInto_mk0_adj_mem hwf hd
  refine getDiameter_of_bounds _ (copyInto_mk0_WF src) D M ?_ ?_ ?_ ?_
  · intro v w hv hw
    rw [hnv] at hv hw
    exact isShortest_congr (fun a b => (hcong a b).symm) v w _ (hD v w hv hw)
  · intro v w hv hw
    rw [hnv] at hv hw
    exact hM v w hv hw
  · obtain ⟨v, w, hv, hw, hM'⟩ := hEx
    exact ⟨v, w, by rw [hnv]; exact hv, by rw [hnv]; exact hw, hM'⟩
  · rw [hnv]
    exact hn

theorem getDiameter_productMesh (ds : List Nat) (hpos : ∀ i, 0 < ds.getD i 1)
    (hlen : 1 ≤ ds.length) :
    getDiameter_impl (copyInto Graph.mk0 (buildProductMesh ds (ds.length - 1)))
      = Int.ofNat ((ds.map (fun d => d - 1)).sum) := by
  have hk : ds.length - 1 < ds.length := by omega
  have hnv := (buildProductMesh_counts ds (ds.length - 1)).1
  have hsum := meshEccList_sum ds (ds.length - 1) hk
  have htake : ds.take (ds.length - 1 + 1) = ds := List.take_of_length_le (by omega)
  rw [htake] at hsum
  rw [← hsum]
  exact getDiameter_copyInto (buildProductMesh_dense_WF ds _).2
    (buildProductMesh_dense_WF ds _).1
    (meshDistList ds (ds.length - 1)) (meshEccList ds (ds.length - 1))
    (fun v w hv hw => buildProductMesh_isShortest ds hpos _ v w
      (by rwa [hnv] at hv) (by rwa [hnv] at hw))
    (fun v w hv hw => meshDistList_le ds hpos _ v w
      (by rwa [hnv] at hv) (by rwa [hnv] at hw))
    ⟨0, meshArgList ds (ds.length - 1), by rw [hnv]; exact gridCounts_pos ds hpos _,
      by rw [hnv]; exact meshArgList_lt ds hpos _, meshDistList_attained ds hpos _⟩
    (by rw [hnv]; exact gridCounts_pos ds hpos _)

theorem getDiameter_productRing (ds : List Nat)
    (hge2 : ∀ i, i < ds.length → 2 ≤ ds.getD i 1) (hlen : 1 ≤ ds.length) :
    getDiameter_impl (copyInto Graph.mk0 (buildProductRing ds (ds.length - 1)))
      = Int.ofNat ((ds.map (fun d => d / 2)).sum) := by
  have hk : ds.length - 1 < ds.length := by omega
  have hpos : ∀ i, 0 < ds.getD i 1 := by
    intro i
    by_cases hi : i < ds.length
    · have := hge2 i hi
      omega
    · rw [List.getD_eq_getElem?_getD, List.getElem?_eq_none (by omega)]
      exact Nat.one_pos
  have hnv := buildProductRing_numVertices ds (ds.length - 1)
  have hsum := torusEccList_sum ds (ds.length - 1) hk
  have htake : ds.take (ds.length - 1 + 1) = ds := List.take_of_length_le (by omega)
  rw [htake] at hsum
  rw [← hsum]
  exact getDiameter_copyInto (buildProductRing_dense_WF ds _).2
    (buildProductRing_dense_WF ds _).1
    (torusDistList ds (ds.length - 1)) (torusEccList ds (ds.length - 1))
    (fun v w hv hw => buildProductRing_isShortest ds hge2 _ hk v w
      (by rwa [hnv] at hv) (by rwa [hnv] at hw))
    (fun v w hv hw => torusDistList_le ds hpos _ v w
      (by rwa [hnv] at hv) (by rwa [hnv] at hw))
    ⟨0, torusArgList ds (ds.length - 1), by rw [hnv]; exact gridCounts_pos ds hpos _,
      by rw [hnv]; exact torusArgList_lt ds hpos _, torusDistList_attained ds hge2 _ hk⟩
    (by rw [hnv]; exact gridCounts_pos ds hpos _)

/-! ### Claim C1: closed-form diameters vs. the generic BFS diameter -/

/-- C1 (amended): for every valid specialized topology instance except the
unidirectional rings `URing(N)` with `N ≥ 3` and the unidirectional chains
`UMesh(N)` with `N ≥ 2`, the closed-form `getDiameter` override equals the value the
generic BFS algorithm computes on the materialized graph.  (On a one-way `N`-cycle the
BFS diameter is `N-1`, not `⌊N/2⌋`, and a one-way chain with `N ≥ 2` vertices is not
strongly connected, so the BFS algorithm returns `-1` instead of `N-1`.) -/
theorem claim_C1 (t : TopoSpec) (ht : t.valid) (hp : t.permitted) :
    getDiameter_impl t.build = t.closedDiameter := by
  cases t with
  | uring n =>
    have hn : 0 < n := of_decide_eq_true ht
    have hn2 : n ≤ 2 := hp
    rcases n with - | n
    · exact absurd hn (by omega)
    rcases n with - | n
    · decide
    rcases n with - | n
    · decide
    · exact absurd hn2 (by omega)
  | umesh n =>
    have hn : 0 < n := of_decide_eq_true ht
    have hn1 : n ≤ 1 := hp
    rcases n with - | n
    · exact absurd hn (by omega)
    rcases n with - | n
    · decide
    · exact absurd hn1 (by omega)
  | opg => decide
  | bring n =>
    have hn : 0 < n := of_decide_eq_true ht
    by_cases h1 : n = 1
    · subst h1
      decide
    · have h2 : 2 ≤ n := by omega
      have hnv := buildBRing_numVertices n
      show getDiameter_impl (buildBRing n)
          = (if n = 0 then -1 else if n = 1 then 0 else Int.ofNat (n / 2))
      rw [if_neg (by omega), if_neg h1]
      exact getDiameter_of_bounds (buildBRing n) (buildBRing_facts n).2.2.1
        (ringDist n) (n / 2)
        (fun v w hv hw => ring_isShortest n h2 v w
          (by rwa [hnv] at hv) (by rwa [hnv] at hw))
        (fun v w hv hw => ringDist_le_half n v w (by omega)
          (by rwa [hnv] at hv) (by rwa [hnv] at hw))
        ⟨0, n / 2, by rw [hnv]; omega, by rw [hnv]; omega, ringDist_attained n h2⟩
        (by rw [hnv]; omega)
  | bmesh n =>
    have hn : 0 < n := of_decide_eq_true ht
    by_cases h1 : n = 1
    · subst h1
      decide
    · have h2 : 2 ≤ n := by omega
      have hnv := buildBMesh_numVertices n
      show getDiameter_impl (buildBMesh n)
          = (if n = 0 then -1 else if n = 1 then 0 else Int.ofNat (n - 1))
      rw [if_neg (by omega), if_neg h1]
      exact getDiameter_of_bounds (buildBMesh n) (buildBMesh_facts n).2.2.1
        Nat.dist (n - 1)
        (fun v w hv hw => mesh_isShortest n v w
          (by rwa [hnv] at hv) (by rwa [hnv] at hw))
        (fun v w hv hw => mesh_dist_le n v w
          (by rwa [hnv] at hv) (by rwa [hnv] at hw))
        ⟨0, n - 1, by rw [hnv]; omega, by rw [hnv]; omega, mesh_dist_attained n (by omega)⟩
        (by rw [hnv]; omega)
  | bgrid dims =>
    show getDiameter_impl (buildBGrid dims)
        = (if canonicalDims dims = [] then 0
          else Int.ofNat (((canonicalDims dims).map (fun d => d - 1)).sum))
    rcases canonicalDims_cases dims with hc | ⟨-, hall⟩
    · unfold buildBGrid
      dsimp only
      rw [hc]
      decide
    · have hne := canonicalDims_ne_nil dims
      unfold buildBGrid
      dsimp only
      rcases hcs : canonicalDims dims with - | ⟨d, rest⟩
      · exact absurd hcs hne
      rw [hcs] at hall
      rcases rest with - | ⟨d2, rest2⟩
      · have hd : 1 < d := hall d (by simp)
        rw [if_neg (by simp; omega), if_pos (show ([d] : List Nat).length = 1 from rfl),
          if_neg (by simp : ¬([d] : List Nat) = []), getDiameter_setName]
        show getDiameter_impl (copyInto Graph.mk0 (buildBMesh d)) = Int.ofNat (d - 1)
        have hnv := buildBMesh_numVertices d
        exact getDiameter_copyInto (buildBMesh_facts d).2.2.1 (buildBMesh_facts d).2.2.2
          Nat.dist (d - 1)
          (fun v w hv hw => mesh_isShortest d v w
            (by rwa [hnv] at hv) (by rwa [hnv] at hw))
          (fun v w hv hw => mesh_dist_le d v w
            (by rwa [hnv] at hv) (by rwa [hnv] at hw))
          ⟨0, d - 1, by rw [hnv]; omega, by rw [hnv]; omega, mesh_dist_attained d (by omega)⟩
          (by rw [hnv]; omega)
      · rw [if_neg (by simp), if_neg (by simp),
          if_neg (by simp : ¬(d :: d2 :: rest2 : List Nat) = []), getDiameter_setName]
        have hpos : ∀ i, 0 < (d :: d2 :: rest2 : List Nat).getD i 1 := by
          intro i
          by_cases hi : i < (d :: d2 :: rest2 : List Nat).length
          · rw [List.getD_eq_getElem _ _ hi]
            have := hall _ (List.getElem_mem hi)
            omega
          · rw [List.getD_eq_getElem?_getD, List.getElem?_eq_none (by omega)]
            exact Nat.one_pos
        exact getDiameter_productMesh (d :: d2 :: rest2) hpos (by simp)
  | btorus dims =>
    show getDiameter_impl (buildBTorus dims)
        = (if canonicalDims dims = [] ∨ ((canonicalDims dims).length = 1
              ∧ (canonicalDims dims).getD 0 0 = 1) then 0
          else if (canonicalDims dims).length = 1 then
            Int.ofNat ((canonicalDims dims).getD 0 0 / 2)
          else Int.ofNat (((canonicalDims dims).map (fun d => d / 2)).sum))
    rcases canonicalDims_cases dims with hc | ⟨-, hall⟩
    · unfold buildBTorus
      dsimp only
      rw [hc]
      decide
    · have hne := canonicalDims_ne_nil dims
      unfold buildBTorus
      dsimp only
      rcases hcs : canonicalDims dims with - | ⟨d, rest⟩
      · exact absurd hcs hne
      rw [hcs] at hall
      rcases rest with - | ⟨d2, rest2⟩
      · have hd : 1 < d := hall d (by simp)
        have hc1 : ¬(([d] : List Nat) = []
            ∨ (([d] : List Nat).length = 1 ∧ ([d] : List Nat).getD 0 0 = 1)) := by
          simp
          omega
        have hc2 : ([d] : List Nat).length = 1 := rfl
        rw [if_neg hc1, if_pos hc2, if_neg hc1, if_pos hc2, getDiameter_setName]
        show getDiameter_impl (copyInto Graph.mk0 (buildBRing d)) = Int.ofNat (d / 2)
        have hnv := buildBRing_numVertices d
        exact getDiameter_copyInto (buildBRing_facts d).2.2.1 (buildBRing_facts d).2.2.2
          (ringDist d) (d / 2)
          (fun v w hv hw => ring_isShortest d hd v w
            (by rwa [hnv] at hv) (by rwa [hnv] at hw))
          (fun v w hv hw => ringDist_le_half d v w (by omega)
            (by rwa [hnv] at hv) (by rwa [hnv] at hw))
          ⟨0, d / 2, by rw [hnv]; omega, by rw [hnv]; omega, ringDist_attained d hd⟩
          (by rw [hnv]; omega)
      · rw [if_neg (by simp), if_neg (by simp), if_neg (by simp), if_neg (by simp),
          getDiameter_setName]
        have hge2 : ∀ i, i < (d :: d2 :: rest2 : List Nat).length →
            2 ≤ (d :: d2 :: rest2 : List Nat).getD i 1 := by
          intro i hi
          rw [List.getD_eq_getElem _ _ hi]
          have := hall _ (List.getElem_mem hi)
          omega
        exact getDiameter_productRing (d :: d2 :: rest2) hge2 (by simp)

/-- C1 counterexample: `URing(3)` is a valid construction whose closed-form diameter
override returns `⌊3/2⌋ = 1`, while the generic BFS algorithm on the materialized
one-way 3-cycle returns `2` — so the unamended claim fails. -/
theorem claim_C1_cex :
    TopoSpec.valid (.uring 3) ∧
    TopoSpec.closedDiameter (.uring 3) = 1 ∧
    getDiameter_impl (TopoSpec.build (.uring 3)) = 2 :=
  ⟨by decide, by decide, by decide⟩

/-- Witness for C1 at the concrete spec `BTorus([3,4])` (canonical `[4,3]`, BFS
diameter `⌊4/2⌋ + ⌊3/2⌋ = 3`). -/
theorem claim_C1_witness :
    TopoSpec.valid (.btorus [3, 4]) ∧
    getDiameter_impl (TopoSpec.build (.btorus [3, 4]))
      = TopoSpec.closedDiameter (.btorus [3, 4]) :=
  ⟨by decide, claim_C1 (.btorus [3, 4]) (by decide) (by exact True.intro)⟩

end Topology
